import Mathlib

/-!
# libapp: option registry, argument-vector parser and configuration-file parser

A shallow embedding of `src/app.c`.

Conventions of the embedding.

* A `char` is a natural number (its byte value); `45` is `-`, `61` is `=`, `10` is the newline.
* A `char *` that points at text is modelled by the bytes that start at the pointer
  (`List Nat`): the C string is the part before the first `0`, see `cstr`.  Reading an index
  past the end of the list yields `0`; every statement below either holds for all lists or
  assumes that the buffer holds its terminator.
* `void * val` of a descriptor is a `binding`: the address of a host cell, or a callback.
* Output on `stderr` and calls of handlers are recorded as a list of `Event`s.
* `atoi` is that of the C library of the platform, `(int) strtol(s, NULL, 10)` with a
  64-bit `long` and a 32-bit `int`: what an Integer option stores is always an `int`.
* The `int` fields `len` and `pos` of the context are natural numbers. Doubling `len` is
  exact: `int` would overflow only with more than `2^30` descriptors stored, and `malloc`
  and `realloc` are taken to succeed.
* The header `app.h` (the `opt` record, the `opt_type` enumeration, `app_callback`) is not
  among the sources; the declarations below are read off the uses in `app.c`.
-/

set_option autoImplicit false

namespace LibApp

/-! ## C library helpers -/

/-- Bytes of a string literal (without terminator). -/
def bytes (s : String) : List Nat := s.toList.map Char.toNat

/-- Bytes of a string literal followed by the terminating NUL. -/
def lit (s : String) : List Nat := bytes s ++ [0]

/-- The C string stored at the start of a buffer: the bytes before the first NUL. -/
def cstr (buf : List Nat) : List Nat := buf.takeWhile (fun c => c != 0)

/-- `strlen`. -/
def strlen (buf : List Nat) : Nat := (cstr buf).length

/-- `strcmp`: difference of the first pair of bytes that differ, `0` when the strings agree. -/
def strcmp : List Nat → List Nat → Int
  | [], s2 => 0 - (s2.headD 0 : Int)
  | c1 :: s1, s2 =>
    if c1 != s2.headD 0 then (c1 : Int) - (s2.headD 0 : Int)
    else if c1 == 0 then 0
    else strcmp s1 s2.tail

/-! ## Data model (`app.h`, `struct app_t`) -/

/-- `opt_type`: the five tags the parsers dispatch on. Any other value of the C
enumeration would take the `default: break;` branch, which writes nothing. -/
inductive opt_type where
  | OPT_FLAG
  | OPT_INT
  | OPT_STRING
  | OPT_PASSWD
  | OPT_CALLBACK
  deriving DecidableEq, Repr

/-- `app_callback`: the two callbacks defined in `app.c`, or a function of the host. -/
inductive app_callback where
  | auto_help
  | default_error_handler
  | host (id : Nat)
  deriving DecidableEq, Repr

/-- `void * val`: the address of the bound cell, or the bound function. -/
inductive binding where
  | cell (addr : Nat)
  | fn (cb : app_callback)
  deriving DecidableEq, Repr

/-- `opt`: one option descriptor. `long_name = none` is the NULL pointer. -/
structure opt where
  short_name : Nat
  long_name : Option (List Nat)
  type : opt_type
  val : binding
  description : Option (List Nat)
  deriving DecidableEq, Repr

/-- `struct app_t`. `options` is the allocated array (`len` slots), `pos` the number of
descriptors stored; `on_error = none` is the NULL function pointer. -/
structure app where
  program_name : Option (List Nat)
  description : Option (List Nat)
  options : List opt
  len : Nat
  pos : Nat
  on_error : Option app_callback
  deriving Repr

/-- The descriptors the parsers look at: `options[0 .. pos)`. -/
def app.registry (theapp : app) : List opt := theapp.options.take theapp.pos

/-! ## Option matcher -/

/-- `app_compare_opt` (app.c 168-175). -/
def app_compare_opt (arg : List Nat) (curopt : opt) : Bool :=
  let is_short := arg.getD 1 0 != 45
  if is_short then
    curopt.short_name == arg.getD 1 0 && arg.getD 2 0 == 0
  else
    match curopt.long_name with
    | none => false
    | some ln => strcmp ln (arg.drop 2) == 0

/-! ## Host memory, output and results -/

/-- A value of type `char *` stored into a bound cell. -/
inductive Ptr where
  /-- the pointer held in `argv[i]` -/
  | argv (i : Nat)
  /-- a fresh block returned by `strdup`, holding `text` -/
  | dup (text : List Nat)
  /-- offset `off` inside the buffer of the `k`-th line read from a stream -/
  | line (k : Nat) (off : Nat)
  deriving DecidableEq, Repr

/-- Contents of a bound cell (`bool`, `int` or `char *`). -/
inductive Cell where
  | flag (b : Bool)
  | int (n : Int)
  | str (p : Ptr)
  deriving DecidableEq, Repr

/-- What the library prints on `stderr` and which host functions it calls. -/
inductive Event where
  /-- a host callback `id` was called with the given token or key -/
  | host_call (id : Nat) (theopt : List Nat)
  /-- `app_auto_help` printed the usage banner and the option listing -/
  | help_listing
  /-- "ERROR: Wrong or invalid option '%s'" -/
  | invalid_option (theopt : List Nat)
  /-- "ERROR: Option '%s' requires an argument" -/
  | requires_argument (theopt : List Nat)
  /-- "ERROR: Bad value '%s' for configuration key '%s'" -/
  | bad_value (thekey : List Nat) (theval : List Nat)
  deriving DecidableEq, Repr

/-- The memory of the host that the library touches, and its output so far.
`argv` holds the buffers of the argument strings, `released` the line buffers that
`app_parse_opts_from` has already given back with `free` (contents at that moment). -/
structure World where
  cells : Nat → Cell
  argv : List (List Nat)
  released : List (List Nat)
  trace : List Event

/-- Write a cell. -/
def World.store (w : World) (a : Nat) (c : Cell) : World :=
  { w with cells := fun x => if x = a then c else w.cells x }

/-- Write through `curopt->val` cast to a data pointer; a fault when the binding is a
function. -/
def World.store_at (w : World) (b : binding) (c : Cell) : Option World :=
  match b with
  | .cell a => some (w.store a c)
  | .fn _ => none

/-- `free(line)`: the buffer of the current line is given back. -/
def World.release (w : World) (buf : List Nat) : World :=
  { w with released := w.released ++ [buf] }

/-- Append to the output. -/
def World.emit (w : World) (e : Event) : World :=
  { w with trace := w.trace ++ [e] }

/-- The text a stored pointer refers to, when the pointer is still valid. Every line
buffer is released before `app_parse_opts_from` reads the next line or returns, so a
pointer into a line buffer is dangling whenever the host can look at it. -/
def World.text (w : World) : Ptr → Option (List Nat)
  | .argv i => (w.argv[i]?).map cstr
  | .dup t => some t
  | .line _ _ => none

/-- Result of running a piece of C code. -/
inductive Outcome (α : Type) where
  /-- the call returned -/
  | done (a : α)
  /-- an access outside an array or through a pointer of the wrong kind -/
  | fault
  /-- the step budget of the model ran out -/
  | timeout

/-! ## Reporter -/

/-- `app_auto_help` (app.c 89-97). -/
def app_auto_help (w : World) : World := w.emit .help_listing

/-- `app_opt_default_error_handler` (app.c 143-147). -/
def app_opt_default_error_handler (theopt : List Nat) (w : World) : World :=
  app_auto_help (w.emit (.invalid_option theopt))

/-- Calling an `app_callback` with a token or key. -/
def app_callback.call (cb : app_callback) (theopt : List Nat) (w : World) : World :=
  match cb with
  | .auto_help => app_auto_help w
  | .default_error_handler => app_opt_default_error_handler theopt w
  | .host id => w.emit (.host_call id theopt)

/-- `app_arg_required` (app.c 152-156). -/
def app_arg_required (theapp : app) (theopt : List Nat) (w : World) : World :=
  let w1 := w.emit (.requires_argument theopt)
  match theapp.on_error with
  | some h => h.call theopt w1
  | none => app_auto_help w1

/-- `app_bad_value` (app.c 158-161). -/
def app_bad_value (thekey theval : List Nat) (w : World) : World :=
  w.emit (.bad_value thekey theval)

/-- `app_wipe` (app.c 163-166): `memset(opt, 0, strlen(opt))`. -/
def app_wipe (buf : List Nat) : List Nat :=
  List.replicate (strlen buf) 0 ++ buf.drop (strlen buf)

/-! ## More of the C library -/

/-- `isspace` in the C locale. -/
def isspace (c : Nat) : Bool := c == 32 || (9 ≤ c && c ≤ 13)

/-- `isdigit`. -/
def isdigit (c : Nat) : Bool := 48 ≤ c && c ≤ 57

/-- Digits of `atoi`, most significant first. -/
def atoi_digits : List Nat → Int → Int
  | [], acc => acc
  | c :: s, acc => if isdigit c then atoi_digits s (acc * 10 + ((c : Int) - 48)) else acc

/-- The number a string spells in base 10: optional white space, optional sign, decimal
digits; `0` when no digit follows. -/
def decimal (s : List Nat) : Int :=
  match s.dropWhile isspace with
  | 45 :: r => - atoi_digits r 0
  | 43 :: r => atoi_digits r 0
  | r => atoi_digits r 0

/-- `strtol(s, NULL, 10)` with a 64-bit `long`: the number spelled, or `LONG_MAX`,
`LONG_MIN` when it lies outside the range of `long`. -/
def strtol (s : List Nat) : Int :=
  if decimal s > 9223372036854775807 then 9223372036854775807
  else if decimal s < -9223372036854775808 then -9223372036854775808
  else decimal s

/-- Conversion of a `long` to a 32-bit `int`: the low 32 bits in two's complement. -/
def long_to_int (x : Int) : Int := (x + 2147483648) % 4294967296 - 2147483648

/-- `atoi` as the C library of the platform defines it: `(int) strtol(s, NULL, 10)`. The
result is an `int`; a number outside the range of `int` is not kept but wraps around
(`2147483648` gives `-2147483648`, `4294967301` gives `5`). -/
def atoi (s : List Nat) : Int := long_to_int (strtol s)

/-- `basename` of `<libgen.h>`. -/
def basename (path : List Nat) : List Nat :=
  if path = [] then [46]
  else
    let p := (path.reverse.dropWhile (fun c => c == 47)).reverse
    if p = [] then [47] else (p.reverse.takeWhile (fun c => c != 47)).reverse

/-! ## Argument-vector parser -/

/-- Where one pass through the body of the outer loop of `app_parse_opts` leads. -/
inductive Next where
  /-- back to the loop test with index `i` -/
  | go (i : Nat) (w : World)
  /-- `return b` -/
  | ret (b : Bool) (w : World)
  | fault

/-- One pass through the outer `while` of `app_parse_opts` (app.c 186-239), entered with
`i < argc`. The inner skipping loop (line 188) is folded into the outer one: a token
that does not begin with `-` just advances `i`. -/
def parse_step (theapp : app) (argc : Nat) (i : Nat) (w : World) : Next :=
  match w.argv[i]? with
  | none => .fault
  | some arg =>
    if arg.getD 0 0 != 45 then .go (i + 1) w
    else
      match theapp.registry.find? (app_compare_opt arg) with
      | none =>
        .ret false (match theapp.on_error with
          | some h => h.call (cstr arg) w
          | none => w)
      | some curopt =>
        match curopt.type with
        | .OPT_FLAG =>
          match w.store_at curopt.val (.flag true) with
          | some w1 => .go (i + 1) w1
          | none => .fault
        | .OPT_INT =>
          if i = argc - 1 then .ret false (app_arg_required theapp (cstr arg) w)
          else
            match w.argv[i + 1]? with
            | none => .fault
            | some v =>
              match w.store_at curopt.val (.int (atoi v)) with
              | some w1 => .go (i + 2) w1
              | none => .fault
        | .OPT_STRING =>
          if i = argc - 1 then .ret false (app_arg_required theapp (cstr arg) w)
          else
            match w.argv[i + 1]? with
            | none => .fault
            | some _ =>
              match w.store_at curopt.val (.str (.argv (i + 1))) with
              | some w1 => .go (i + 2) w1
              | none => .fault
        | .OPT_PASSWD =>
          if i = argc - 1 then .ret false (app_arg_required theapp (cstr arg) w)
          else
            match w.argv[i + 1]? with
            | none => .fault
            | some v =>
              match w.store_at curopt.val (.str (.dup (cstr v))) with
              | some w1 => .go (i + 2) { w1 with argv := w1.argv.set (i + 1) (app_wipe v) }
              | none => .fault
        | .OPT_CALLBACK =>
          match curopt.val with
          | .fn cb => .go (i + 1) (cb.call (cstr arg) w)
          | .cell _ => .fault

/-- The outer loop of `app_parse_opts`, with a step budget. -/
def parse_loop (theapp : app) (argc : Nat) : Nat → Nat → World → Outcome (Bool × World)
  | 0, _, _ => .timeout
  | fuel + 1, i, w =>
    if argc ≤ i then .done (true, w)
    else
      match parse_step theapp argc i w with
      | .go i1 w1 => parse_loop theapp argc fuel i1 w1
      | .ret b w1 => .done (b, w1)
      | .fault => .fault

/-- `app_parse_opts` (app.c 177-241). `argv = none` is the NULL pointer; otherwise the
argument strings are placed in `w.argv`. The budget `argc + 1` is never used up. -/
def app_parse_opts (theapp : app) (argc : Nat) (argv : Option (List (List Nat))) (w : World) :
    Outcome (Bool × app × World) :=
  match argv with
  | none => .done (false, theapp, w)
  | some av =>
    match av[0]? with
    | none => .fault
    | some a0 =>
      let app1 := { theapp with program_name := some (basename (cstr a0)) }
      match parse_loop app1 argc (argc + 1) 1 { w with argv := av } with
      | .done (b, w1) => .done (b, app1, w1)
      | .fault => .fault
      | .timeout => .timeout

/-! ## Reading and splitting configuration lines -/

/-- `LINESIZE` (app.c 8). -/
def LINESIZE : Nat := 1024

/-- `START_LEN` (app.c 8). -/
def START_LEN : Nat := 10

/-- `COMMENT_START` (app.c 9). -/
def COMMENT_START : List Nat := lit "#;"

/-- `SEPARATOR` (app.c 9). -/
def SEPARATOR : List Nat := lit "="

/-- `YES` (app.c 10). -/
def YES : List (List Nat) := [lit "YES", lit "ON", lit "TRUE"]

/-- `NO` (app.c 11). -/
def NO : List (List Nat) := [lit "NO", lit "OFF", lit "FALSE"]

/-- The characters `fgets` takes when it may store at most `n` of them: up to and
including the first newline. Returns them with the rest of the stream. -/
def fgets_chars : Nat → List Nat → List Nat × List Nat
  | 0, s => ([], s)
  | _ + 1, [] => ([], [])
  | n + 1, c :: s =>
    if c = 10 then ([c], s) else (c :: (fgets_chars n s).1, (fgets_chars n s).2)

/-- `fgets(buf, size, stream)`: `none` at end of stream, else the buffer (characters and
terminator) and the rest of the stream. -/
def fgets (size : Nat) (stream : List Nat) : Option (List Nat × List Nat) :=
  match stream with
  | [] => none
  | _ :: _ => some ((fgets_chars (size - 1) stream).1 ++ [0], (fgets_chars (size - 1) stream).2)

/-- `app_term_readline_from` (app.c 37-43). -/
def app_term_readline_from (stream : List Nat) : Option (List Nat × List Nat) :=
  fgets LINESIZE stream

/-- `strchr(s, c) != NULL`; the terminator of `s` counts as part of the string. -/
def strchr : List Nat → Nat → Bool
  | [], c => c == 0
  | x :: s, c => if x == c then true else if x == 0 then false else strchr s c

/-- `strspn`: length of the initial part of `s` made of bytes of `accept`. -/
def strspn (s accept : List Nat) : Nat :=
  (s.takeWhile (fun c => c != 0 && (cstr accept).contains c)).length

/-- `strcspn`: length of the initial part of `s` free of bytes of `reject`. -/
def strcspn (s reject : List Nat) : Nat :=
  (s.takeWhile (fun c => c != 0 && !(cstr reject).contains c)).length

/-- `strtok_r` on the buffer `buf`, scanning from offset `s` (the string passed in, or the
saved pointer when NULL is passed). Result: the buffer, the offset of the token (`none`
for NULL) and the new saved pointer. -/
def strtok_r (buf : List Nat) (s : Nat) (delim : List Nat) : List Nat × Option Nat × Nat :=
  if buf.getD s 0 = 0 then (buf, none, s)
  else
    let s1 := s + strspn (buf.drop s) delim
    if buf.getD s1 0 = 0 then (buf, none, s1)
    else
      let e := s1 + strcspn (buf.drop s1) delim
      if buf.getD e 0 = 0 then (buf, some s1, e)
      else (buf.set e 0, some s1, e + 1)

/-- First loop of `trim`: `while(isspace(p[l - 1])) p[--l] = 0;`. The argument is the
offset of `p[l]` in the buffer; `none` when `p[l - 1]` lies before the buffer. -/
def trim_tail (buf : List Nat) : Nat → Option (List Nat × Nat)
  | 0 => none
  | e + 1 => if isspace (buf.getD e 0) then trim_tail (buf.set e 0) e else some (buf, e + 1)

/-- `memmove(buf + dst, buf + src, n)`. -/
def memmove (buf : List Nat) (dst src n : Nat) : List Nat :=
  buf.take dst ++ (buf.drop src).take n ++ buf.drop (dst + n)

/-- `trim` (app.c 243-252) of the string at offset `s` of `buf` (`s` is not NULL).
`none`: a read before the buffer, or a negative length handed to `memmove`. -/
def trim (buf : List Nat) (s : Nat) : Option (List Nat) :=
  match trim_tail buf (s + strlen (buf.drop s)) with
  | none => none
  | some (b1, e) =>
    let p := s + ((b1.drop s).takeWhile (fun c => c != 0 && isspace c)).length
    if p ≤ e + 1 then some (memmove b1 s p (e + 1 - p)) else none

/-- `trim(*key)` where the pointer may be NULL. -/
def trim_opt (buf : List Nat) : Option Nat → Option (List Nat)
  | none => some buf
  | some s => trim buf s

/-- `app_split_line` (app.c 254-259): the buffer afterwards, `*key` and `*val`. -/
def app_split_line (line : List Nat) : Option (List Nat × Option Nat × Option Nat) :=
  let t1 := strtok_r line 0 SEPARATOR
  match trim_opt t1.1 t1.2.1 with
  | none => none
  | some b2 =>
    let t2 := strtok_r b2 t1.2.2 SEPARATOR
    match trim_opt t2.1 t2.2.1 with
    | none => none
    | some b4 => some (b4, t1.2.1, t2.2.1)

/-- `toupper` in the C locale. -/
def toupper (c : Nat) : Nat := if 97 ≤ c ∧ c ≤ 122 then c - 32 else c

/-- `strtoupper` (app.c 261-265) of the string at offset `s` of `buf`. -/
def strtoupper (buf : List Nat) (s : Nat) : List Nat :=
  buf.take s ++ ((buf.drop s).take (strlen (buf.drop s))).map toupper
    ++ buf.drop (s + strlen (buf.drop s))

/-- `is_true` (app.c 267-275). -/
def is_true (val : List Nat) : Bool := YES.any (fun y => strcmp y val == 0)

/-- `is_false` (app.c 277-285). -/
def is_false (val : List Nat) : Bool := NO.any (fun n => strcmp n val == 0)

/-! ## Configuration-file parser -/

/-- Where the body of the loop of `app_parse_opts_from` leads for one line. -/
inductive LineNext where
  /-- on to the next line -/
  | go (w : World)
  /-- `return b` -/
  | ret (b : Bool) (w : World)
  | fault

/-- The text passed for a `char *` that is an offset into `buf`; NULL is passed as the
empty text. -/
def text_at (buf : List Nat) : Option Nat → List Nat
  | none => []
  | some k => cstr (buf.drop k)

/-- The search of `app_parse_opts_from` (app.c 303-309). -/
def find_key (theapp : app) (buf : List Nat) : Option Nat → Option opt
  | none => none
  | some k =>
    theapp.registry.find? (fun curopt =>
      match curopt.long_name with
      | none => false
      | some ln => strcmp (buf.drop k) ln == 0)

/-- Body of the loop of `app_parse_opts_from` (app.c 297-365) for the line buffer `line`. -/
def line_step (theapp : app) (line : List Nat) (w : World) : LineNext :=
  if strchr COMMENT_START (line.getD 0 0) || strlen line == 0 then .go (w.release line)
  else
    match app_split_line line with
    | none => .fault
    | some (buf, key, val) =>
      match find_key theapp buf key with
      | none =>
        .ret false ((match theapp.on_error with
          | some h => h.call (text_at buf key) w
          | none => w).release buf)
      | some curopt =>
        match curopt.type with
        | .OPT_FLAG =>
          match val with
          | none =>
            match w.store_at curopt.val (.flag true) with
            | some w1 => .go (w1.release buf)
            | none => .fault
          | some v =>
            let buf1 := strtoupper buf v
            if is_true (buf1.drop v) then
              match w.store_at curopt.val (.flag true) with
              | some w1 => .go (w1.release buf1)
              | none => .fault
            else if is_false (buf1.drop v) then
              match w.store_at curopt.val (.flag false) with
              | some w1 => .go (w1.release buf1)
              | none => .fault
            else
              .ret false ((app_bad_value (text_at buf1 key) (cstr (buf1.drop v)) w).release buf1)
        | .OPT_INT =>
          match val with
          | none => .ret false ((app_arg_required theapp (text_at buf key) w).release buf)
          | some v =>
            match w.store_at curopt.val (.int (atoi (buf.drop v))) with
            | some w1 => .go (w1.release buf)
            | none => .fault
        | .OPT_STRING =>
          match val with
          | none => .ret false ((app_arg_required theapp (text_at buf key) w).release buf)
          | some v =>
            match w.store_at curopt.val (.str (.line w.released.length v)) with
            | some w1 => .go (w1.release buf)
            | none => .fault
        | .OPT_PASSWD =>
          match val with
          | none => .ret false ((app_arg_required theapp (text_at buf key) w).release buf)
          | some v =>
            match w.store_at curopt.val (.str (.line w.released.length v)) with
            | some w1 => .go (w1.release buf)
            | none => .fault
        | .OPT_CALLBACK =>
          match curopt.val with
          | .fn cb => .go ((cb.call (text_at buf key) w).release buf)
          | .cell _ => .fault

/-- The loop of `app_parse_opts_from`, with a step budget. -/
def from_loop (theapp : app) : Nat → List Nat → World → Outcome (Bool × World)
  | 0, _, _ => .timeout
  | fuel + 1, file, w =>
    match app_term_readline_from file with
    | none => .done (true, w)
    | some (line, rest) =>
      match line_step theapp line w with
      | .go w1 => from_loop theapp fuel rest w1
      | .ret b w1 => .done (b, w1)
      | .fault => .fault

/-- `app_parse_opts_from` (app.c 287-368); `file` is what is left to read of the stream.
Every line takes at least one byte, so the budget is never used up. -/
def app_parse_opts_from (theapp : app) (file : List Nat) (w : World) : Outcome (Bool × World) :=
  from_loop theapp (file.length + 1) file w

/-! ## Option registry -/

/-- An array slot that holds no descriptor. -/
def blank_slot : opt :=
  { short_name := 0, long_name := none, type := .OPT_FLAG, val := .cell 0, description := none }

/-- `app_new` (app.c 49-60). -/
def app_new : app :=
  { program_name := none, description := none,
    options := List.replicate START_LEN blank_slot, len := START_LEN, pos := 0,
    on_error := none }

/-- `app_make_room_for_opt` (app.c 99-106); `realloc` keeps the old slots. -/
def app_make_room_for_opt (theapp : app) : app :=
  if theapp.pos ≥ theapp.len - 1 then
    { theapp with
      len := theapp.len * 2,
      options := (theapp.options ++ List.replicate (theapp.len * 2) blank_slot).take
        (theapp.len * 2) }
  else theapp

/-- `app_opt_add` (app.c 108-112); `none` when the slot written lies outside the array. -/
def app_opt_add (theapp : app) (theopt : opt) : Option app :=
  let a := app_make_room_for_opt theapp
  if a.pos < a.options.length then
    some { a with options := a.options.set a.pos theopt, pos := a.pos + 1 }
  else none

/-- `auto_help_opt` (app.c 114-120). -/
def auto_help_opt : opt :=
  { short_name := 104, long_name := some (lit "help"), type := .OPT_CALLBACK,
    val := .fn .auto_help, description := some (lit "(show this help message)") }

/-- `app_opt_add_help` (app.c 122-125). -/
def app_opt_add_help (theapp : app) : Option app := app_opt_add theapp auto_help_opt

/-- `app_opt_on_error` (app.c 138-141). -/
def app_opt_on_error (theapp : app) (error_handler : Option app_callback) : app :=
  { theapp with on_error := error_handler }

/-- A world whose cells all hold `false`, without argument strings and without output. -/
def blank_world : World :=
  { cells := fun _ => .flag false, argv := [], released := [], trace := [] }

/-! ## A sample registry -/

/-- Integer option `-n`, `--count`, bound to cell 1. -/
def demo_count : opt :=
  { short_name := 110, long_name := some (lit "count"), type := .OPT_INT, val := .cell 1,
    description := none }

/-- String option `-s`, `--name`, bound to cell 2. -/
def demo_name : opt :=
  { short_name := 115, long_name := some (lit "name"), type := .OPT_STRING, val := .cell 2,
    description := none }

/-- Secret-String option `-p`, `--password`, bound to cell 3. -/
def demo_password : opt :=
  { short_name := 112, long_name := some (lit "password"), type := .OPT_PASSWD,
    val := .cell 3, description := none }

/-- Flag option `-v`, `--verbose`, bound to cell 4. -/
def demo_verbose : opt :=
  { short_name := 118, long_name := some (lit "verbose"), type := .OPT_FLAG, val := .cell 4,
    description := none }

/-- A context with the four sample options and no error handler. -/
def demo_app : app :=
  { program_name := none, description := none,
    options := [demo_count, demo_name, demo_password, demo_verbose] ++
      List.replicate 6 blank_slot,
    len := 10, pos := 4, on_error := none }

/-- The command line `prog -n 5 -v -n 7`. -/
def demo_argv : List (List Nat) :=
  [lit "prog", lit "-n", lit "5", lit "-v", lit "-n", lit "7"]

/-- The command line `prog -v -p secret123`. -/
def demo_argv_secret : List (List Nat) :=
  [lit "prog", lit "-v", lit "-p", lit "secret123"]

/-- The result of a call that returned: the boolean it returned. -/
def Outcome.returned {α : Type} : Outcome (Bool × α) → Option Bool
  | .done (b, _) => some b
  | _ => none

/-! ## Notions used in the statements -/

/-- The binding of a descriptor has the shape its type asks for: a function for
`OPT_CALLBACK`, a data cell for the other types. -/
def opt.well_bound (d : opt) : Bool :=
  match d.type, d.val with
  | .OPT_CALLBACK, .fn _ => true
  | .OPT_CALLBACK, .cell _ => false
  | _, .cell _ => true
  | _, .fn _ => false

/-- The types whose options take the next element of `argv` as their value. -/
def opt_type.takes_value : opt_type → Bool
  | .OPT_INT => true
  | .OPT_STRING => true
  | .OPT_PASSWD => true
  | _ => false

/-- What a matched option of a value-taking type stores for the value string `v` found at
index `j` of `argv`. -/
def stored_value (ty : opt_type) (j : Nat) (v : List Nat) : Cell :=
  match ty with
  | .OPT_INT => .int (atoi v)
  | .OPT_STRING => .str (.argv j)
  | _ => .str (.dup (cstr v))

/-- The cell `a` of the world `w` holds what an option of type `ty` leaves there for the
value string `v`: `true` for a flag, the `int` returned by `atoi`, or a pointer to the
text. -/
def holds_value (w : World) (a : Nat) (ty : opt_type) (v : List Nat) : Prop :=
  match ty with
  | .OPT_FLAG => w.cells a = .flag true
  | .OPT_INT => w.cells a = .int (atoi v)
  | .OPT_STRING => ∃ p, w.cells a = .str p ∧ w.text p = some (cstr v)
  | .OPT_PASSWD => ∃ p, w.cells a = .str p ∧ w.text p = some (cstr v)
  | .OPT_CALLBACK => True

/-- `spells t u`: the text `t` is the upper-case word `u` written in any mixture of upper-
and lower-case letters. -/
def spells : List Nat → List Nat → Bool
  | [], [] => true
  | c :: t, x :: u => (c == x || c == x + 32) && spells t u
  | _, _ => false

/-- White space that can stand inside a line: any `isspace` character but the newline. -/
def is_blank (c : Nat) : Bool := isspace c && c != 10

/-- A key or a value as it stands in a line: not empty, free of NUL, newline and `=`, and
neither beginning nor ending with white space. -/
def is_word (t : List Nat) : Bool :=
  t != [] && t.all (fun c => c != 0 && c != 10 && c != 61) &&
    !isspace (t.headD 0) && !isspace (t.getLastD 0)

/-- A line of a configuration file, without its line terminator: a comment, or a setting
`key = value` with any white space before the key, around the `=` and after the value. -/
inductive ConfLine where
  | comment (text : List Nat)
  | setting (lead key gap1 gap2 value trail : List Nat)

/-- The characters of a line. -/
def ConfLine.text : ConfLine → List Nat
  | .comment t => t
  | .setting lead key gap1 gap2 value trail =>
    lead ++ key ++ gap1 ++ [61] ++ gap2 ++ value ++ trail

/-- A comment begins with `#` or `;`; a setting has a key and a value that are words,
white space in the four gaps, and does not begin with `#` or `;`. -/
def ConfLine.well_formed : ConfLine → Bool
  | .comment t =>
    (t.headD 0 == 35 || t.headD 0 == 59) && t.all (fun c => c != 0 && c != 10)
  | .setting lead key gap1 gap2 value trail =>
    lead.all is_blank && gap1.all is_blank && gap2.all is_blank && trail.all is_blank &&
      is_word key && is_word value &&
      ((lead ++ key).headD 0 != 35 && (lead ++ key).headD 0 != 59)

/-- The stream made of the given lines, each followed by a newline; the last line is
followed by one only if `eol` is set. -/
def config_stream (eol : Bool) : List ConfLine → List Nat
  | [] => []
  | [l] => l.text ++ (if eol then [10] else [])
  | l :: l1 :: ls => l.text ++ 10 :: config_stream eol (l1 :: ls)

/-- The first descriptor, in registry order, whose long name is `key`. -/
def lookup_key (theapp : app) (key : List Nat) : Option opt :=
  theapp.registry.find? (fun d =>
    match d.long_name with
    | none => false
    | some ln => cstr ln == key)

/-- The descriptor a line names: none for a comment, the one its key is looked up to for
a setting. -/
def ConfLine.target (theapp : app) : ConfLine → Option opt
  | .comment _ => none
  | .setting _ key _ _ _ _ => lookup_key theapp key

/-- A line the parser is to accept: it is well formed, it fits the line buffer together
with its newline, and if it is a setting its key is looked up to an Integer or String
option that is bound to a cell. -/
def ConfLine.admitted (theapp : app) (l : ConfLine) : Prop :=
  l.well_formed = true ∧ l.text.length + 1 < LINESIZE ∧
    match l with
    | .comment _ => True
    | .setting _ key _ _ _ _ =>
      ∃ d a, lookup_key theapp key = some d ∧
        (d.type = .OPT_INT ∨ d.type = .OPT_STRING) ∧ d.val = .cell a

/-- The setting `name`, 1020 blanks, `= Alice`: a line of 1031 characters. -/
def long_line : ConfLine :=
  .setting [] (bytes "name") (List.replicate 1020 32) [32] (bytes "Alice") []

/-- The lines of the stream `# comment`, `name = Alice`, `count=3`. -/
def demo_lines : List ConfLine :=
  [.comment (bytes "# comment"),
   .setting [] (bytes "name") [32] [32] (bytes "Alice") [],
   .setting [] (bytes "count") [] [] (bytes "3") []]

/-- `LineReach theapp file w file1 w1`: the loop of `app_parse_opts_from`, about to read
its next line from `file` in the world `w`, later is about to read from `file1` in the
world `w1` (every line in between was processed without a return). -/
inductive LineReach (theapp : app) : List Nat → World → List Nat → World → Prop where
  | here (file : List Nat) (w : World) : LineReach theapp file w file w
  | next {file line rest file1 : List Nat} {w w1 w2 : World}
      (hread : app_term_readline_from file = some (line, rest))
      (hstep : line_step theapp line w = .go w1)
      (hrest : LineReach theapp rest w1 file1 w2) : LineReach theapp file w file1 w2

/-- The text of a token between two `=`, once trimmed: not empty, free of NUL and `=`,
and neither beginning nor ending with white space. -/
def is_core (t : List Nat) : Bool :=
  t != [] && t.all (fun c => c != 0 && c != 61) &&
    !isspace (t.headD 0) && !isspace (t.getLastD 0)

/-- `app_opt_add` called for each descriptor of a list, in order. -/
def app_opt_add_all : app → List opt → Option app
  | a, [] => some a
  | a, d :: ds =>
    match app_opt_add a d with
    | none => none
    | some a1 => app_opt_add_all a1 ds

/-- The contexts reachable from `app_new` by calls of `app_opt_add` and
`app_opt_add_help`. -/
inductive Built : app → Prop where
  | new : Built app_new
  | add {a a1 : app} (d : opt) (h : Built a) (hadd : app_opt_add a d = some a1) : Built a1
  | add_help {a a1 : app} (h : Built a) (hadd : app_opt_add_help a = some a1) : Built a1

/-- The search loop shared by both parsers (app.c 192-198 and 304-309): `pos` starts at 0
and goes up while `pos < theapp->pos` and the test `found` fails on `options[pos]`. The
result is the `pos` at which the loop stops with `found` set, `none` when it stops with
`pos = theapp->pos`. `n` is the number of passes left, `theapp->pos - pos`. -/
def search_from (theapp : app) (found : opt → Bool) : Nat → Nat → Option Nat
  | 0, _ => none
  | n + 1, pos =>
    if found (theapp.options.getD pos blank_slot) then some pos
    else search_from theapp found n (pos + 1)

/-- The search loop, entered with `pos = 0`. -/
def search (theapp : app) (found : opt → Bool) : Option Nat :=
  search_from theapp found theapp.pos 0

/-- The test of the search in `app_parse_opts_from` (app.c 306):
`curopt->long_name && !strcmp(key, curopt->long_name)`. -/
def long_name_is (key : List Nat) (curopt : opt) : Bool :=
  match curopt.long_name with
  | none => false
  | some ln => strcmp key ln == 0

/-- A descriptor that has the short name `h` and no long name. -/
def demo_short_only : opt :=
  { short_name := 104, long_name := none, type := .OPT_FLAG, val := .cell 5,
    description := none }

/-- The sample registry with the long name `count` used a second time, by a descriptor
bound to cell 6, and with a descriptor that has only a short name put in front. -/
def demo_collide : app :=
  { demo_app with
    options := [demo_short_only, demo_count, demo_name,
        { demo_count with val := .cell 6 }] ++
      List.replicate 6 blank_slot,
    pos := 4 }

/-- `Reach theapp argc i w k wk`: the outer loop of `app_parse_opts`, standing at its test
with index `i` and world `w`, later stands at its test with index `k` and world `wk`. -/
inductive Reach (theapp : app) (argc : Nat) : Nat → World → Nat → World → Prop where
  | here (i : Nat) (w : World) : Reach theapp argc i w i w
  | next {i i1 k : Nat} {w w1 wk : World} (hlt : i < argc)
      (hstep : parse_step theapp argc i w = .go i1 w1)
      (hrest : Reach theapp argc i1 w1 k wk) : Reach theapp argc i w k wk

/-- In the run of `app_parse_opts` on `av`, the scan stands at index `k` with world `wk`. -/
@[reducible] def ScanAt (theapp : app) (argc : Nat) (av : List (List Nat)) (w : World) (k : Nat)
    (wk : World) : Prop :=
  Reach theapp argc 1 { w with argv := av } k wk

/-- In the run of `app_parse_opts` on `av`, the token at index `k` is looked up as an option
and the search stops at the descriptor `d`. -/
def OptionAt (theapp : app) (argc : Nat) (av : List (List Nat)) (w : World) (k : Nat)
    (d : opt) : Prop :=
  ∃ wk tok, ScanAt theapp argc av w k wk ∧ k < argc ∧ av[k]? = some tok ∧
    tok.getD 0 0 = 45 ∧ theapp.registry.find? (app_compare_opt tok) = some d

/-! ## Basic facts about C strings -/

theorem cstr_nil : cstr [] = [] := rfl

theorem cstr_cons_zero (s : List Nat) : cstr (0 :: s) = [] := by
  simp [cstr]

theorem cstr_cons_ne {c : Nat} (h : c ≠ 0) (s : List Nat) : cstr (c :: s) = c :: cstr s := by
  simp [cstr, List.takeWhile_cons, h]

theorem strcmp_eq_zero_iff (s1 s2 : List Nat) : strcmp s1 s2 = 0 ↔ cstr s1 = cstr s2 := by
  induction s1 generalizing s2 with
  | nil =>
    cases s2 with
    | nil => simp [strcmp, cstr]
    | cons d s2 =>
      by_cases hd : d = 0
      · subst hd; simp [strcmp, cstr]
      · simp only [strcmp, List.headD_cons, cstr_nil, cstr_cons_ne hd]
        constructor
        · intro h; omega
        · intro h; simp at h
  | cons c s1 ih =>
    cases s2 with
    | nil =>
      by_cases hc : c = 0
      · subst hc; simp [strcmp, cstr]
      · simp only [strcmp, List.headD_nil, cstr_nil, cstr_cons_ne hc]
        have : (c != 0) = true := by simpa using hc
        simp only [this, if_true]
        constructor
        · intro h; omega
        · intro h; simp at h
    | cons d s2 =>
      simp only [strcmp, List.headD_cons, List.tail_cons]
      by_cases hcd : c = d
      · subst hcd
        by_cases hc : c = 0
        · subst hc; simp [cstr]
        · have h0 : (c == 0) = false := by simpa using hc
          simp only [bne_self_eq_false, Bool.false_eq_true, if_false, h0, cstr_cons_ne hc, ih]
          simp
      · have h1 : (c != d) = true := by simpa using hcd
        simp only [h1, if_true]
        constructor
        · intro h; omega
        · intro h
          exfalso
          by_cases hc : c = 0
          · subst hc
            have hd : d ≠ 0 := fun e => hcd e.symm
            rw [cstr_cons_zero, cstr_cons_ne hd] at h
            simp at h
          · by_cases hd : d = 0
            · subst hd
              rw [cstr_cons_zero, cstr_cons_ne hc] at h
              simp at h
            · rw [cstr_cons_ne hc, cstr_cons_ne hd] at h
              simp at h
              exact hcd h.1

/-! ## The option matcher (C1, C2) -/

theorem cstr_drop_two (arg : List Nat) (h0 : arg.getD 0 0 = 45) (h1 : arg.getD 1 0 = 45) :
    cstr (arg.drop 2) = (cstr arg).drop 2 := by
  match arg, h0, h1 with
  | a :: b :: rest, h0, h1 =>
    simp at h0 h1
    subst h0; subst h1
    simp [cstr, List.takeWhile_cons]

/-- Short form, for a descriptor that has a short name: the token matches exactly when its
text is the dash followed by the short name. -/
theorem app_compare_opt_short (arg : List Nat) (d : opt) (h0 : arg.getD 0 0 = 45)
    (h1 : arg.getD 1 0 ≠ 45) (hs : d.short_name ≠ 0) :
    app_compare_opt arg d = true ↔ cstr arg = [45, d.short_name] := by
  have hb : (arg.getD 1 0 != 45) = true := by simpa using h1
  simp only [app_compare_opt, hb, if_true]
  match arg, h0 with
  | [a], h0 =>
    simp at h0; subst h0
    simp [cstr, List.takeWhile_cons, hs]
  | [a, b], h0 =>
    simp at h0; subst h0
    by_cases hb0 : b = 0
    · subst hb0; simp [cstr, List.takeWhile_cons, hs]
    · simp [cstr, List.takeWhile_cons, hb0]; exact eq_comm
  | a :: b :: c :: rest, h0 =>
    simp at h0; subst h0
    by_cases hb0 : b = 0
    · subst hb0; simp [cstr, List.takeWhile_cons, hs]
    · by_cases hc0 : c = 0
      · subst hc0; simp [cstr, List.takeWhile_cons, hb0]; exact eq_comm
      · simp [cstr, List.takeWhile_cons, hb0, hc0]

/-- C1 (defect of the code): the token `-` (one character), stored in a buffer whose byte
after the terminator is NUL, is matched by `app_compare_opt` against a descriptor that has
no short name (`short_name = 0`), although the token does not have two characters. -/
theorem C1_lone_dash_matches_unnamed :
    cstr [45, 0, 0] = [45] ∧
    app_compare_opt [45, 0, 0]
      { short_name := 0, long_name := some (lit "name"), type := .OPT_STRING,
        val := .cell 0, description := none } = true := by
  decide

/-- C2: a token that begins with `--` matches a descriptor exactly when the descriptor
has a long name and the text of the token after the two dashes equals that long name. -/
theorem C2_long_match_exact (arg : List Nat) (d : opt)
    (h0 : arg.getD 0 0 = 45) (h1 : arg.getD 1 0 = 45) :
    app_compare_opt arg d = true ↔
      ∃ ln, d.long_name = some ln ∧ (cstr arg).drop 2 = cstr ln := by
  have hb : (arg.getD 1 0 != 45) = false := by rw [h1]; rfl
  simp only [app_compare_opt, hb]
  cases hl : d.long_name with
  | none => simp
  | some ln =>
    simp only [Bool.false_eq_true, if_false, beq_iff_eq, strcmp_eq_zero_iff, Option.some.injEq,
      exists_eq_left']
    rw [cstr_drop_two arg h0 h1]
    exact eq_comm

/-- C2 at the token `--foobar` and the long name `foo`; also `--fo` does not match `foo`,
`--foo` does, and a descriptor without long name is not matched by `--foo`. -/
theorem C2_long_match_exact_witness :
    (app_compare_opt (lit "--foobar")
        { short_name := 102, long_name := some (lit "foo"), type := .OPT_FLAG,
          val := .cell 0, description := none } = true ↔
      ∃ ln, some (lit "foo") = some ln ∧ (cstr (lit "--foobar")).drop 2 = cstr ln) ∧
    app_compare_opt (lit "--foobar")
        { short_name := 102, long_name := some (lit "foo"), type := .OPT_FLAG,
          val := .cell 0, description := none } = false ∧
    app_compare_opt (lit "--fo")
        { short_name := 102, long_name := some (lit "foo"), type := .OPT_FLAG,
          val := .cell 0, description := none } = false ∧
    app_compare_opt (lit "--foo")
        { short_name := 102, long_name := some (lit "foo"), type := .OPT_FLAG,
          val := .cell 0, description := none } = true ∧
    app_compare_opt (lit "--foo")
        { short_name := 102, long_name := none, type := .OPT_FLAG,
          val := .cell 0, description := none } = false :=
  ⟨C2_long_match_exact _ _ (by decide) (by decide), by decide, by decide, by decide, by decide⟩

/-! ## The loop of `app_parse_opts`: one pass -/

theorem store_at_eq_some {w w1 : World} {b : binding} {c : Cell}
    (h : w.store_at b c = some w1) : ∃ a, b = .cell a ∧ w1 = w.store a c := by
  cases b with
  | cell a => exact ⟨a, rfl, by simpa [World.store_at] using h.symm⟩
  | fn cb => simp [World.store_at] at h

/-- What a pass that goes on with the loop has done. -/
theorem parse_step_go_inv {theapp : app} {argc i i1 : Nat} {w w1 : World}
    (h : parse_step theapp argc i w = .go i1 w1) :
    ∃ arg, w.argv[i]? = some arg ∧
      ((arg.getD 0 0 ≠ 45 ∧ i1 = i + 1 ∧ w1 = w) ∨
       (arg.getD 0 0 = 45 ∧ ∃ d, theapp.registry.find? (app_compare_opt arg) = some d ∧
        ((d.type = .OPT_FLAG ∧ ∃ a, d.val = .cell a ∧ i1 = i + 1 ∧
            w1 = w.store a (.flag true)) ∨
         (d.type = .OPT_INT ∧ i ≠ argc - 1 ∧ ∃ a v, d.val = .cell a ∧
            w.argv[i + 1]? = some v ∧ i1 = i + 2 ∧ w1 = w.store a (.int (atoi v))) ∨
         (d.type = .OPT_STRING ∧ i ≠ argc - 1 ∧ ∃ a v, d.val = .cell a ∧
            w.argv[i + 1]? = some v ∧ i1 = i + 2 ∧
            w1 = w.store a (.str (.argv (i + 1)))) ∨
         (d.type = .OPT_PASSWD ∧ i ≠ argc - 1 ∧ ∃ a v, d.val = .cell a ∧
            w.argv[i + 1]? = some v ∧ i1 = i + 2 ∧
            w1 = { w.store a (.str (.dup (cstr v))) with
                   argv := w.argv.set (i + 1) (app_wipe v) }) ∨
         (d.type = .OPT_CALLBACK ∧ ∃ cb, d.val = .fn cb ∧ i1 = i + 1 ∧
            w1 = cb.call (cstr arg) w)))) := by
  unfold parse_step at h
  split at h
  · exact absurd h (by simp)
  · rename_i arg harg
    refine ⟨arg, harg, ?_⟩
    split at h
    · rename_i hd
      left
      simp only [Next.go.injEq] at h
      refine ⟨by simpa using hd, h.1.symm, h.2.symm⟩
    · rename_i hd
      right
      refine ⟨by simpa using hd, ?_⟩
      split at h
      · exact absurd h (by simp)
      · rename_i d hfind
        refine ⟨d, hfind, ?_⟩
        split at h
        · rename_i hty
          split at h
          · rename_i w2 hst
            obtain ⟨a, ha, hw⟩ := store_at_eq_some hst
            simp only [Next.go.injEq] at h
            left
            exact ⟨hty, a, ha, h.1.symm, by rw [← h.2, hw]⟩
          · exact absurd h (by simp)
        · rename_i hty
          split at h
          · exact absurd h (by simp)
          · rename_i hne
            split at h
            · exact absurd h (by simp)
            · rename_i v hv
              split at h
              · rename_i w2 hst
                obtain ⟨a, ha, hw⟩ := store_at_eq_some hst
                simp only [Next.go.injEq] at h
                right; left
                exact ⟨hty, hne, a, v, ha, hv, h.1.symm, by rw [← h.2, hw]⟩
              · exact absurd h (by simp)
        · rename_i hty
          split at h
          · exact absurd h (by simp)
          · rename_i hne
            split at h
            · exact absurd h (by simp)
            · rename_i v hv
              split at h
              · rename_i w2 hst
                obtain ⟨a, ha, hw⟩ := store_at_eq_some hst
                simp only [Next.go.injEq] at h
                right; right; left
                exact ⟨hty, hne, a, v, ha, hv, h.1.symm, by rw [← h.2, hw]⟩
              · exact absurd h (by simp)
        · rename_i hty
          split at h
          · exact absurd h (by simp)
          · rename_i hne
            split at h
            · exact absurd h (by simp)
            · rename_i v hv
              split at h
              · rename_i w2 hst
                obtain ⟨a, ha, hw⟩ := store_at_eq_some hst
                simp only [Next.go.injEq] at h
                right; right; right; left
                refine ⟨hty, hne, a, v, ha, hv, h.1.symm, ?_⟩
                rw [← h.2, hw]; rfl
              · exact absurd h (by simp)
        · rename_i hty
          split at h
          · rename_i cb hcb
            simp only [Next.go.injEq] at h
            right; right; right; right
            exact ⟨hty, cb, hcb, h.1.symm, h.2.symm⟩
          · exact absurd h (by simp)
theorem parse_step_go_lt {theapp : app} {argc i i1 : Nat} {w w1 : World}
    (h : parse_step theapp argc i w = .go i1 w1) : i < i1 ∧ i1 ≤ i + 2 := by
  obtain ⟨arg, -, h⟩ := parse_step_go_inv h
  rcases h with ⟨-, h, -⟩ | ⟨-, d, -, h⟩
  · omega
  · rcases h with ⟨-, a, -, h, -⟩ | ⟨-, -, a, v, -, -, h, -⟩ | ⟨-, -, a, v, -, -, h, -⟩ |
      ⟨-, -, a, v, -, -, h, -⟩ | ⟨-, cb, -, h, -⟩ <;> omega

theorem parse_step_go_le {theapp : app} {argc i i1 : Nat} {w w1 : World}
    (h : parse_step theapp argc i w = .go i1 w1) (hi : i < argc) : i1 ≤ argc := by
  obtain ⟨arg, -, h⟩ := parse_step_go_inv h
  rcases h with ⟨-, h, -⟩ | ⟨-, d, -, h⟩
  · omega
  · rcases h with ⟨-, a, -, h, -⟩ | ⟨-, hne, a, v, -, -, h, -⟩ | ⟨-, hne, a, v, -, -, h, -⟩ |
      ⟨-, hne, a, v, -, -, h, -⟩ | ⟨-, cb, -, h, -⟩ <;> omega

theorem call_argv (cb : app_callback) (t : List Nat) (w : World) :
    (cb.call t w).argv = w.argv := by
  cases cb <;> rfl

theorem call_cells (cb : app_callback) (t : List Nat) (w : World) :
    (cb.call t w).cells = w.cells := by
  cases cb <;> rfl

theorem call_released (cb : app_callback) (t : List Nat) (w : World) :
    (cb.call t w).released = w.released := by
  cases cb <;> rfl

theorem app_arg_required_cells (theapp : app) (t : List Nat) (w : World) :
    (app_arg_required theapp t w).cells = w.cells := by
  unfold app_arg_required
  cases theapp.on_error with
  | none => rfl
  | some h => simp only [call_cells]; rfl

theorem app_arg_required_argv (theapp : app) (t : List Nat) (w : World) :
    (app_arg_required theapp t w).argv = w.argv := by
  unfold app_arg_required
  cases theapp.on_error with
  | none => rfl
  | some h => simp only [call_argv]; rfl

/-- A pass alters no argument string except, for a secret option, its value. -/
theorem parse_step_go_argv {theapp : app} {argc i i1 : Nat} {w w1 : World}
    (h : parse_step theapp argc i w = .go i1 w1) :
    w1.argv.length = w.argv.length ∧ ∀ j, (j ≤ i ∨ i1 ≤ j) → w1.argv[j]? = w.argv[j]? := by
  obtain ⟨arg, -, h⟩ := parse_step_go_inv h
  rcases h with ⟨-, -, h⟩ | ⟨-, d, -, h⟩
  · subst h; exact ⟨rfl, fun _ _ => rfl⟩
  · rcases h with ⟨-, a, -, -, h⟩ | ⟨-, -, a, v, -, -, -, h⟩ | ⟨-, -, a, v, -, -, -, h⟩ |
      ⟨-, -, a, v, -, -, hi, h⟩ | ⟨-, cb, -, -, h⟩
    · subst h; exact ⟨rfl, fun _ _ => rfl⟩
    · subst h; exact ⟨rfl, fun _ _ => rfl⟩
    · subst h; exact ⟨rfl, fun _ _ => rfl⟩
    · subst h
      refine ⟨by simp, fun j hj => ?_⟩
      simp only [List.getElem?_set]
      rw [if_neg (by omega)]
    · subst h; rw [call_argv]; exact ⟨rfl, fun _ _ => rfl⟩

/-! ## The loop of `app_parse_opts`: reachable states -/

theorem Reach.le {theapp : app} {argc i k : Nat} {w wk : World}
    (h : Reach theapp argc i w k wk) : i ≤ k := by
  induction h with
  | here => exact Nat.le_refl _
  | next _ hstep _ ih => have := (parse_step_go_lt hstep).1; omega

theorem Reach.le_argc {theapp : app} {argc i k : Nat} {w wk : World}
    (h : Reach theapp argc i w k wk) (hi : i ≤ argc) : k ≤ argc := by
  induction h with
  | here => exact hi
  | next hlt hstep _ ih => exact ih (parse_step_go_le hstep hlt)

theorem Reach.trans {theapp : app} {argc i j k : Nat} {w wj wk : World}
    (h1 : Reach theapp argc i w j wj) (h2 : Reach theapp argc j wj k wk) :
    Reach theapp argc i w k wk := by
  induction h1 with
  | here => exact h2
  | next hlt hstep _ ih => exact Reach.next hlt hstep (ih h2)

theorem Reach.argv_length {theapp : app} {argc i k : Nat} {w wk : World}
    (h : Reach theapp argc i w k wk) : wk.argv.length = w.argv.length := by
  induction h with
  | here => rfl
  | next _ hstep _ ih => rw [ih, (parse_step_go_argv hstep).1]

/-- The strings from the current index on are still the original ones. -/
theorem Reach.argv_ge {theapp : app} {argc i k : Nat} {w wk : World}
    (h : Reach theapp argc i w k wk) (j : Nat) (hj : k ≤ j) : wk.argv[j]? = w.argv[j]? := by
  induction h with
  | here => rfl
  | next _ hstep hrest ih =>
    have h2 := hrest.le
    rw [ih hj, (parse_step_go_argv hstep).2 j (Or.inr (by omega))]

/-- The strings up to the index the loop started from are not altered. -/
theorem Reach.argv_le {theapp : app} {argc i k : Nat} {w wk : World}
    (h : Reach theapp argc i w k wk) (j : Nat) (hj : j ≤ i) : wk.argv[j]? = w.argv[j]? := by
  induction h with
  | here => rfl
  | next _ hstep hrest ih =>
    have h1 := parse_step_go_lt hstep
    rw [ih (by omega), (parse_step_go_argv hstep).2 j (Or.inl hj)]

/-- The loop is deterministic: two states it reaches lie on one path. -/
theorem Reach.det {theapp : app} {argc i k k' : Nat} {w wk wk' : World}
    (h : Reach theapp argc i w k wk) (h' : Reach theapp argc i w k' wk') (hk : k ≤ k') :
    Reach theapp argc k wk k' wk' := by
  induction h with
  | here => exact h'
  | next hlt hstep hrest ih =>
    cases h' with
    | here =>
      have h1 := (parse_step_go_lt hstep).1
      have h2 := hrest.le
      omega
    | next hlt' hstep' hrest' =>
      rw [hstep] at hstep'
      simp only [Next.go.injEq] at hstep'
      obtain ⟨e1, e2⟩ := hstep'
      subst e1; subst e2
      exact ih hrest' hk

theorem Reach.self_eq {theapp : app} {argc k : Nat} {w wk : World}
    (h : Reach theapp argc k w k wk) : wk = w := by
  cases h with
  | here => rfl
  | next hlt hstep hrest =>
    have h1 := (parse_step_go_lt hstep).1
    have h2 := hrest.le
    omega

theorem Reach.unique {theapp : app} {argc i k : Nat} {w wk wk' : World}
    (h : Reach theapp argc i w k wk) (h' : Reach theapp argc i w k wk') : wk' = wk :=
  (h.det h' (Nat.le_refl _)).self_eq

/-! ## The loop of `app_parse_opts`: results -/

theorem parse_loop_program_name (theapp : app) (n : Option (List Nat)) (argc fuel i : Nat)
    (w : World) :
    parse_loop { theapp with program_name := n } argc fuel i w = parse_loop theapp argc fuel i w := by
  induction fuel generalizing i w with
  | zero => rfl
  | succ f ih =>
    simp only [parse_loop]
    split
    · rfl
    · have : parse_step { theapp with program_name := n } argc i w = parse_step theapp argc i w := rfl
      rw [this]
      cases parse_step theapp argc i w with
      | go i1 w1 => exact ih i1 w1
      | ret b w1 => rfl
      | fault => rfl

theorem parse_loop_reach {theapp : app} {argc i k : Nat} {w wk : World}
    (h : Reach theapp argc i w k wk) (fuel : Nat) (hf : argc < fuel + i) (hpos : 0 < fuel) :
    ∃ fuel', argc < fuel' + k ∧ 0 < fuel' ∧
      parse_loop theapp argc fuel i w = parse_loop theapp argc fuel' k wk := by
  induction h generalizing fuel with
  | here => exact ⟨fuel, hf, hpos, rfl⟩
  | next hlt hstep hrest ih =>
    cases fuel with
    | zero => omega
    | succ f =>
      have h1 := (parse_step_go_lt hstep).1
      obtain ⟨f', hf', hp', he⟩ := ih f (by omega) (by omega)
      refine ⟨f', hf', hp', ?_⟩
      rw [← he]
      simp only [parse_loop, hstep]
      rw [if_neg (by omega)]

theorem parse_loop_exit (theapp : app) {argc k fuel : Nat} (w : World)
    (hk : argc ≤ k) (hf : 0 < fuel) :
    parse_loop theapp argc fuel k w = .done (true, w) := by
  cases fuel with
  | zero => omega
  | succ f => simp [parse_loop, hk]

theorem parse_loop_ret (theapp : app) {argc k fuel : Nat} {w w1 : World} {b : Bool}
    (hk : k < argc) (hf : 0 < fuel) (hstep : parse_step theapp argc k w = .ret b w1) :
    parse_loop theapp argc fuel k w = .done (b, w1) := by
  cases fuel with
  | zero => omega
  | succ f =>
    simp only [parse_loop, hstep]
    rw [if_neg (by omega)]

/-- The call returns `true` once the scan has left the array. -/
theorem app_parse_opts_of_scan_end {theapp : app} {argc k : Nat} {av : List (List Nat)}
    {a0 : List Nat} {w wk : World} (h0 : av[0]? = some a0)
    (h : ScanAt theapp argc av w k wk) (hk : argc ≤ k) :
    app_parse_opts theapp argc (some av) w =
      .done (true, { theapp with program_name := some (basename (cstr a0)) }, wk) := by
  obtain ⟨f, -, hf, he⟩ := parse_loop_reach h (argc + 1) (by omega) (by omega)
  simp only [app_parse_opts, h0, parse_loop_program_name, he, parse_loop_exit theapp wk hk hf]

/-- The call returns what the pass at `k` returns when the scan stands at `k`. -/
theorem app_parse_opts_of_scan_ret {theapp : app} {argc k : Nat} {av : List (List Nat)}
    {a0 : List Nat} {w wk w1 : World} {b : Bool} (h0 : av[0]? = some a0)
    (h : ScanAt theapp argc av w k wk) (hk : k < argc)
    (hstep : parse_step theapp argc k wk = .ret b w1) :
    app_parse_opts theapp argc (some av) w =
      .done (b, { theapp with program_name := some (basename (cstr a0)) }, w1) := by
  obtain ⟨f, -, hf, he⟩ := parse_loop_reach h (argc + 1) (by omega) (by omega)
  simp only [app_parse_opts, h0, parse_loop_program_name, he,
    parse_loop_ret theapp hk hf hstep]
/-! ## The loop of `app_parse_opts`: what a pass does, by case -/

theorem parse_step_skip {theapp : app} {argc i : Nat} {w : World} {arg : List Nat}
    (harg : w.argv[i]? = some arg) (hd : arg.getD 0 0 ≠ 45) :
    parse_step theapp argc i w = .go (i + 1) w := by
  have hb : (arg.getD 0 0 != 45) = true := by simpa using hd
  simp only [parse_step, harg, hb, if_true]

theorem parse_step_unknown (theapp : app) (argc : Nat) {i : Nat} {w : World} {arg : List Nat}
    (harg : w.argv[i]? = some arg) (hd : arg.getD 0 0 = 45)
    (hfind : theapp.registry.find? (app_compare_opt arg) = none) :
    parse_step theapp argc i w = .ret false (match theapp.on_error with
      | some h => h.call (cstr arg) w
      | none => w) := by
  have hb : (arg.getD 0 0 != 45) = false := by rw [hd]; rfl
  simp only [parse_step, harg, hb, hfind, Bool.false_eq_true, if_false]

theorem parse_step_missing (theapp : app) (argc : Nat) {i : Nat} {w : World} {arg : List Nat} {d : opt}
    (harg : w.argv[i]? = some arg) (hd : arg.getD 0 0 = 45)
    (hfind : theapp.registry.find? (app_compare_opt arg) = some d)
    (hty : d.type.takes_value = true) (hi : i = argc - 1) :
    parse_step theapp argc i w = .ret false (app_arg_required theapp (cstr arg) w) := by
  have hb : (arg.getD 0 0 != 45) = false := by rw [hd]; rfl
  simp only [parse_step, harg, hb, hfind, Bool.false_eq_true, if_false]
  cases h : d.type <;> simp_all [opt_type.takes_value]

/-- A matched option that takes no value: the loop goes on at the next token. -/
theorem parse_step_plain (theapp : app) (argc : Nat) {i : Nat} {w : World} {arg : List Nat} {d : opt}
    (harg : w.argv[i]? = some arg) (hd : arg.getD 0 0 = 45)
    (hfind : theapp.registry.find? (app_compare_opt arg) = some d)
    (hty : d.type.takes_value = false) (hb : d.well_bound = true) :
    ∃ w1, parse_step theapp argc i w = .go (i + 1) w1 ∧ w1.argv = w.argv := by
  have hb0 : (arg.getD 0 0 != 45) = false := by rw [hd]; rfl
  simp only [parse_step, harg, hb0, hfind, Bool.false_eq_true, if_false]
  cases h : d.type <;> cases hv : d.val <;>
    simp_all [opt_type.takes_value, opt.well_bound, World.store_at, World.store, call_argv]

/-- A matched option that takes a value, not at the end of the array: the next element
is stored and the loop goes on behind it. -/
theorem parse_step_value (theapp : app) (argc : Nat) {i : Nat} {w : World} {arg v : List Nat} {d : opt}
    (harg : w.argv[i]? = some arg) (hd : arg.getD 0 0 = 45)
    (hfind : theapp.registry.find? (app_compare_opt arg) = some d)
    (hty : d.type.takes_value = true) (hb : d.well_bound = true) (hi : i ≠ argc - 1)
    (hv : w.argv[i + 1]? = some v) :
    ∃ a w1, d.val = .cell a ∧ parse_step theapp argc i w = .go (i + 2) w1 ∧
      w1.cells = (w.store a (stored_value d.type (i + 1) v)).cells ∧
      w1.trace = w.trace ∧
      w1.argv = if d.type = .OPT_PASSWD then w.argv.set (i + 1) (app_wipe v) else w.argv := by
  have hb0 : (arg.getD 0 0 != 45) = false := by rw [hd]; rfl
  simp only [parse_step, harg, hb0, hfind, Bool.false_eq_true, if_false, hv]
  cases h : d.type <;> cases hval : d.val <;>
    simp_all [opt_type.takes_value, opt.well_bound, World.store_at, World.store, stored_value]
/-! ## Cutting the array behind the current index -/

/-- The world with the argument array cut to its first `k` strings. -/
theorem parse_step_take {theapp : app} {argc i i1 k : Nat} {w w1 : World}
    (h : parse_step theapp argc i w = .go i1 w1) (hk : i1 ≤ k) :
    parse_step theapp k i { w with argv := w.argv.take k } =
      .go i1 { w1 with argv := w1.argv.take k } := by
  have hlt := (parse_step_go_lt h).1
  obtain ⟨arg, harg, h⟩ := parse_step_go_inv h
  have harg' : (w.argv.take k)[i]? = some arg := by
    rw [List.getElem?_take_of_lt (by omega)]; exact harg
  rcases h with ⟨hd, hi, hw⟩ | ⟨hd, d, hfind, h⟩
  · have hb : (arg.getD 0 0 != 45) = true := by simpa using hd
    subst hw; subst hi
    simp only [parse_step, harg', hb, if_true]
  · have hb : (arg.getD 0 0 != 45) = false := by rw [hd]; rfl
    rcases h with ⟨hty, a, ha, hi, hw⟩ | ⟨hty, hne, a, v, ha, hv, hi, hw⟩ |
      ⟨hty, hne, a, v, ha, hv, hi, hw⟩ | ⟨hty, hne, a, v, ha, hv, hi, hw⟩ |
      ⟨hty, cb, hcb, hi, hw⟩
    · subst hw; subst hi
      simp only [parse_step, harg', hb, hfind, hty, ha, World.store_at, World.store,
        Bool.false_eq_true, if_false]
    · have hv' : (w.argv.take k)[i + 1]? = some v := by
        rw [List.getElem?_take_of_lt (by omega)]; exact hv
      subst hw; subst hi
      simp only [parse_step, harg', hb, hfind, hty, ha, hv', World.store_at, World.store,
        Bool.false_eq_true, if_false]
      rw [if_neg (by omega)]
    · have hv' : (w.argv.take k)[i + 1]? = some v := by
        rw [List.getElem?_take_of_lt (by omega)]; exact hv
      subst hw; subst hi
      simp only [parse_step, harg', hb, hfind, hty, ha, hv', World.store_at, World.store,
        Bool.false_eq_true, if_false]
      rw [if_neg (by omega)]
    · have hv' : (w.argv.take k)[i + 1]? = some v := by
        rw [List.getElem?_take_of_lt (by omega)]; exact hv
      subst hw; subst hi
      simp only [parse_step, harg', hb, hfind, hty, ha, hv', World.store_at, World.store,
        Bool.false_eq_true, if_false]
      rw [if_neg (by omega)]
      simp only [List.set_take]
    · subst hw; subst hi
      simp only [parse_step, harg', hb, hfind, hty, hcb, Bool.false_eq_true, if_false]
      cases cb <;> rfl

/-- The scan up to `k` only depends on the first `k` strings. -/
theorem Reach.take {theapp : app} {argc i k : Nat} {w wk : World}
    (h : Reach theapp argc i w k wk) :
    Reach theapp k i { w with argv := w.argv.take k } k { wk with argv := wk.argv.take k } := by
  induction h with
  | here => exact Reach.here _ _
  | next hlt hstep hrest ih =>
    have h1 := (parse_step_go_lt hstep).1
    have h2 := hrest.le
    exact Reach.next (by omega) (parse_step_take hstep h2) ih

/-! ## Cells along the scan -/

theorem parse_step_go_cells {theapp : app} {argc i i1 : Nat} {w w1 : World} {a : Nat}
    (h : parse_step theapp argc i w = .go i1 w1)
    (hno : ∀ arg e, w.argv[i]? = some arg → arg.getD 0 0 = 45 →
      theapp.registry.find? (app_compare_opt arg) = some e → e.val ≠ .cell a) :
    w1.cells a = w.cells a := by
  obtain ⟨arg, harg, h⟩ := parse_step_go_inv h
  rcases h with ⟨hd, hi, hw⟩ | ⟨hd, d, hfind, h⟩
  · rw [hw]
  · have hne := hno arg d harg hd hfind
    rcases h with ⟨hty, b, ha, hi, hw⟩ | ⟨hty, -, b, v, ha, hv, hi, hw⟩ |
      ⟨hty, -, b, v, ha, hv, hi, hw⟩ | ⟨hty, -, b, v, ha, hv, hi, hw⟩ |
      ⟨hty, cb, hcb, hi, hw⟩
    all_goals subst hw
    · have : a ≠ b := fun e => hne (by rw [ha, e])
      simp [World.store, this]
    · have : a ≠ b := fun e => hne (by rw [ha, e])
      simp [World.store, this]
    · have : a ≠ b := fun e => hne (by rw [ha, e])
      simp [World.store, this]
    · have : a ≠ b := fun e => hne (by rw [ha, e])
      simp [World.store, this]
    · rw [call_cells]

/-- A cell keeps its contents as long as no option bound to it is met. -/
theorem Reach.cells_unchanged {theapp : app} {argc i k : Nat} {w wk : World} {a : Nat}
    (h : Reach theapp argc i w k wk)
    (hno : ∀ j wj arg e, Reach theapp argc i w j wj → j < k → wj.argv[j]? = some arg →
      arg.getD 0 0 = 45 → theapp.registry.find? (app_compare_opt arg) = some e →
      e.val ≠ .cell a) :
    wk.cells a = w.cells a := by
  induction h with
  | here => rfl
  | next hlt hstep hrest ih =>
    have h1 := (parse_step_go_lt hstep).1
    have h2 := hrest.le
    rw [ih (fun j wj arg e hr hj => hno j wj arg e (Reach.next hlt hstep hr) hj)]
    exact parse_step_go_cells hstep
      (fun arg e harg => hno _ _ arg e (Reach.here _ _) (by omega) harg)
/-! ## Runs that succeed -/

theorem Reach.lt_inv {theapp : app} {argc i k : Nat} {w wk : World}
    (h : Reach theapp argc i w k wk) (hlt : i < k) :
    ∃ i1 w1, i < argc ∧ parse_step theapp argc i w = .go i1 w1 ∧
      Reach theapp argc i1 w1 k wk := by
  cases h with
  | here => omega
  | next hi hstep hrest => exact ⟨_, _, hi, hstep, hrest⟩

theorem parse_step_ret_false {theapp : app} {argc i : Nat} {w w1 : World} {b : Bool}
    (h : parse_step theapp argc i w = .ret b w1) : b = false := by
  unfold parse_step at h
  repeat' split at h
  all_goals first
    | (simp only [Next.ret.injEq] at h; exact h.1.symm)
    | simp at h

theorem parse_loop_true_inv {theapp : app} {argc : Nat} (fuel : Nat) {i : Nat} {w wf : World}
    (h : parse_loop theapp argc fuel i w = .done (true, wf)) :
    ∃ kf, argc ≤ kf ∧ Reach theapp argc i w kf wf := by
  induction fuel generalizing i w with
  | zero => simp [parse_loop] at h
  | succ f ih =>
    simp only [parse_loop] at h
    split at h
    · rename_i hge
      simp only [Outcome.done.injEq, Prod.mk.injEq, true_and] at h
      subst h
      exact ⟨i, hge, Reach.here _ _⟩
    · rename_i hlt
      split at h
      · rename_i i1 w1 hstep
        obtain ⟨kf, hk, hr⟩ := ih h
        exact ⟨kf, hk, Reach.next (by omega) hstep hr⟩
      · rename_i b w1 hstep
        have := parse_step_ret_false hstep
        simp only [Outcome.done.injEq, Prod.mk.injEq] at h
        rw [this] at h
        exact absurd h.1 (by simp)
      · exact absurd h (by simp)

/-- A call that returns `true` has scanned the whole array. -/
theorem app_parse_opts_true_inv {theapp app1 : app} {argc : Nat} {av : List (List Nat)}
    {w w1 : World} (h : app_parse_opts theapp argc (some av) w = .done (true, app1, w1)) :
    ∃ kf, argc ≤ kf ∧ ScanAt theapp argc av w kf w1 := by
  simp only [app_parse_opts] at h
  split at h
  · exact absurd h (by simp)
  · rename_i a0 h0
    simp only [parse_loop_program_name] at h
    split at h
    · rename_i b wf hl
      simp only [Outcome.done.injEq, Prod.mk.injEq] at h
      obtain ⟨hb, -, hw⟩ := h
      subst hb; subst hw
      exact parse_loop_true_inv _ hl
    · exact absurd h (by simp)
    · exact absurd h (by simp)

/-- The strings that are not the value of a secret option stay as they are. -/
theorem Reach.argv_unchanged {theapp : app} {argc i k : Nat} {w wk : World} {j : Nat}
    (h : Reach theapp argc i w k wk)
    (hno : ∀ m wm arg e, Reach theapp argc i w m wm → m < k → wm.argv[m]? = some arg →
      arg.getD 0 0 = 45 → theapp.registry.find? (app_compare_opt arg) = some e →
      e.type = .OPT_PASSWD → j ≠ m + 1) :
    wk.argv[j]? = w.argv[j]? := by
  induction h with
  | here => rfl
  | next hlt hstep hrest ih =>
    have h1 := (parse_step_go_lt hstep).1
    have h2 := hrest.le
    rw [ih (fun m wm arg e hr hm => hno m wm arg e (Reach.next hlt hstep hr) hm)]
    obtain ⟨arg, harg, h⟩ := parse_step_go_inv hstep
    rcases h with ⟨-, -, hw⟩ | ⟨hd, d, hfind, h⟩
    · rw [hw]
    · rcases h with ⟨-, a, -, -, hw⟩ | ⟨-, -, a, v, -, -, -, hw⟩ | ⟨-, -, a, v, -, -, -, hw⟩ |
        ⟨hty, -, a, v, -, -, -, hw⟩ | ⟨-, cb, -, -, hw⟩
      · rw [hw]; rfl
      · rw [hw]; rfl
      · rw [hw]; rfl
      · have hj := hno _ _ arg d (Reach.here _ _) (by omega) harg hd hfind hty
        rw [hw]
        simp only [List.getElem?_set]
        rw [if_neg (fun e => hj e.symm)]
      · rw [hw, call_argv]

/-- The scan gets to the end of the array when every pass goes on. -/
theorem Reach.progress (theapp : app) (argc : Nat) (n : Nat) :
    ∀ (i : Nat) (w : World), argc - i ≤ n →
      (∀ k wk, Reach theapp argc i w k wk → k < argc →
        ∃ i1 w1, parse_step theapp argc k wk = .go i1 w1) →
      ∃ kf wf, argc ≤ kf ∧ Reach theapp argc i w kf wf := by
  induction n with
  | zero =>
    intro i w hn _
    exact ⟨i, w, by omega, Reach.here _ _⟩
  | succ n ih =>
    intro i w hn hgo
    rcases Nat.lt_or_ge i argc with hlt | hge
    · obtain ⟨i1, w1, hstep⟩ := hgo i w (Reach.here _ _) hlt
      have h1 := (parse_step_go_lt hstep).1
      obtain ⟨kf, wf, hk, hr⟩ := ih i1 w1 (by omega)
        (fun k wk hr hk => hgo k wk (Reach.next hlt hstep hr) hk)
      exact ⟨kf, wf, hk, Reach.next hlt hstep hr⟩
    · exact ⟨i, w, hge, Reach.here _ _⟩
/-! ## The loop of `app_parse_opts_from` -/

theorem fgets_chars_length (n : Nat) (s : List Nat) :
    (fgets_chars n s).1.length + (fgets_chars n s).2.length = s.length := by
  induction n generalizing s with
  | zero => simp [fgets_chars]
  | succ n ih =>
    cases s with
    | nil => simp [fgets_chars]
    | cons c s =>
      simp only [fgets_chars]
      split
      · simp; omega
      · have := ih s
        simp only [List.length_cons]
        omega

theorem fgets_chars_ne_nil (n : Nat) (c : Nat) (s : List Nat) :
    (fgets_chars (n + 1) (c :: s)).1 ≠ [] := by
  simp only [fgets_chars]
  split <;> simp

/-- Every line read takes at least one byte from the stream. -/
theorem app_term_readline_from_lt {file line rest : List Nat}
    (h : app_term_readline_from file = some (line, rest)) : rest.length < file.length := by
  unfold app_term_readline_from fgets at h
  cases file with
  | nil => simp at h
  | cons c s =>
    simp only [Option.some.injEq, Prod.mk.injEq] at h
    have h1 := fgets_chars_length (LINESIZE - 1) (c :: s)
    have h2 : (fgets_chars (LINESIZE - 1) (c :: s)).1 ≠ [] := fgets_chars_ne_nil 1022 c s
    have h3 : 0 < (fgets_chars (LINESIZE - 1) (c :: s)).1.length :=
      List.length_pos.mpr h2
    rw [← h.2]
    omega

theorem from_loop_fuel (theapp : app) (f1 f2 : Nat) (file : List Nat) (w : World)
    (h1 : file.length < f1) (h2 : file.length < f2) :
    from_loop theapp f1 file w = from_loop theapp f2 file w := by
  induction f1 generalizing f2 file w with
  | zero => omega
  | succ f1 ih =>
    cases f2 with
    | zero => omega
    | succ f2 =>
      simp only [from_loop]
      cases hr : app_term_readline_from file with
      | none => rfl
      | some p =>
        obtain ⟨line, rest⟩ := p
        have hlt := app_term_readline_from_lt hr
        simp only
        cases line_step theapp line w with
        | go w1 => exact ih f2 rest w1 (by omega) (by omega)
        | ret b w1 => rfl
        | fault => rfl

/-- One turn of the loop of `app_parse_opts_from`. -/
theorem app_parse_opts_from_line (theapp : app) {file line rest : List Nat} (w : World)
    (hr : app_term_readline_from file = some (line, rest)) :
    app_parse_opts_from theapp file w =
      match line_step theapp line w with
      | .go w1 => app_parse_opts_from theapp rest w1
      | .ret b w1 => .done (b, w1)
      | .fault => .fault := by
  have hlt := app_term_readline_from_lt hr
  unfold app_parse_opts_from
  simp only [from_loop, hr]
  cases line_step theapp line w with
  | go w1 => exact from_loop_fuel theapp file.length (rest.length + 1) rest w1 hlt (by omega)
  | ret b w1 => rfl
  | fault => rfl

theorem app_parse_opts_from_eof (theapp : app) (w : World) :
    app_parse_opts_from theapp [] w = .done (true, w) := rfl

/-! ## Upper case and the boolean words (C10) -/

theorem take_strlen (s : List Nat) : s.take (strlen s) = cstr s := by
  unfold strlen cstr
  induction s with
  | nil => rfl
  | cons c s ih =>
    by_cases hc : c = 0
    · subst hc; simp
    · simp [List.takeWhile_cons, hc, ih]

theorem cstr_drop_strlen (s : List Nat) : cstr (s.drop (strlen s)) = [] := by
  unfold strlen cstr
  induction s with
  | nil => rfl
  | cons c s ih =>
    by_cases hc : c = 0
    · subst hc; simp
    · simp [List.takeWhile_cons, hc, ih]

theorem cstr_no_zero (s : List Nat) : ∀ c ∈ cstr s, c ≠ 0 := by
  intro c hc
  have := List.mem_takeWhile_imp hc
  simpa using this

theorem cstr_append {x r : List Nat} (hx : ∀ c ∈ x, c ≠ 0) (hr : cstr r = []) :
    cstr (x ++ r) = x := by
  induction x with
  | nil => simpa using hr
  | cons c x ih =>
    have hc : c ≠ 0 := hx c (List.mem_cons_self _ _)
    rw [List.cons_append, cstr_cons_ne hc, ih (fun d hd => hx d (List.mem_cons_of_mem _ hd))]

theorem toupper_ne_zero {c : Nat} (h : c ≠ 0) : toupper c ≠ 0 := by
  unfold toupper
  split <;> omega

/-- After `strtoupper` the string reads as its text in upper case. -/
theorem cstr_strtoupper (buf : List Nat) (v : Nat) :
    cstr ((strtoupper buf v).drop v) = (cstr (buf.drop v)).map toupper := by
  have hd : (strtoupper buf v).drop v =
      ((buf.drop v).take (strlen (buf.drop v))).map toupper ++
        (buf.drop v).drop (strlen (buf.drop v)) := by
    unfold strtoupper
    rcases Nat.le_total v buf.length with hle | hge
    · rw [List.append_assoc, List.drop_append_eq_append_drop]
      simp [List.length_take, Nat.min_eq_left hle, List.drop_drop, Nat.add_comm]
    · have hnil : buf.drop v = [] := List.drop_eq_nil_of_le hge
      rw [hnil]
      simp [strlen, cstr, List.take_of_length_le hge, hnil]
  rw [hd, take_strlen]
  apply cstr_append
  · intro c hc
    obtain ⟨x, hx, rfl⟩ := List.mem_map.mp hc
    exact toupper_ne_zero (cstr_no_zero _ x hx)
  · exact cstr_drop_strlen _

theorem toupper_eq_iff {c x : Nat} (hx : 65 ≤ x ∧ x ≤ 90) :
    toupper c = x ↔ (c = x ∨ c = x + 32) := by
  unfold toupper
  split <;> omega

/-- For a word of capital letters: a text reads as the word in upper case exactly when it
spells the word. -/
theorem map_toupper_eq_iff (t u : List Nat) (hu : ∀ x ∈ u, 65 ≤ x ∧ x ≤ 90) :
    t.map toupper = u ↔ spells t u = true := by
  induction t generalizing u with
  | nil => cases u <;> simp [spells]
  | cons c t ih =>
    cases u with
    | nil => simp [spells]
    | cons x u =>
      have hx := hu x (List.mem_cons_self _ _)
      simp only [List.map_cons, List.cons.injEq, spells, Bool.and_eq_true, Bool.or_eq_true,
        beq_iff_eq, toupper_eq_iff hx, ih u (fun y hy => hu y (List.mem_cons_of_mem _ hy))]

theorem is_true_iff (buf : List Nat) :
    is_true buf = true ↔
      cstr buf = bytes "YES" ∨ cstr buf = bytes "ON" ∨ cstr buf = bytes "TRUE" := by
  simp only [is_true, YES, List.any_cons, List.any_nil, Bool.or_false, Bool.or_eq_true,
    beq_iff_eq, strcmp_eq_zero_iff]
  have h1 : cstr (lit "YES") = bytes "YES" := by decide
  have h2 : cstr (lit "ON") = bytes "ON" := by decide
  have h3 : cstr (lit "TRUE") = bytes "TRUE" := by decide
  rw [h1, h2, h3]
  constructor <;> (intro h; rcases h with h | h | h <;> simp [h])

theorem is_false_iff (buf : List Nat) :
    is_false buf = true ↔
      cstr buf = bytes "NO" ∨ cstr buf = bytes "OFF" ∨ cstr buf = bytes "FALSE" := by
  simp only [is_false, NO, List.any_cons, List.any_nil, Bool.or_false, Bool.or_eq_true,
    beq_iff_eq, strcmp_eq_zero_iff]
  have h1 : cstr (lit "NO") = bytes "NO" := by decide
  have h2 : cstr (lit "OFF") = bytes "OFF" := by decide
  have h3 : cstr (lit "FALSE") = bytes "FALSE" := by decide
  rw [h1, h2, h3]
  constructor <;> (intro h; rcases h with h | h | h <;> simp [h])
/-! ## Reading well-formed lines -/

theorem fgets_chars_line (n : Nat) (x rest : List Nat) (hx : ∀ c ∈ x, c ≠ 10)
    (hn : x.length < n) : fgets_chars n (x ++ 10 :: rest) = (x ++ [10], rest) := by
  induction x generalizing n with
  | nil =>
    cases n with
    | zero => simp at hn
    | succ n => simp [fgets_chars]
  | cons c x ih =>
    cases n with
    | zero => simp at hn
    | succ n =>
      have hc : c ≠ 10 := hx c (List.mem_cons_self _ _)
      have := ih n (fun d hd => hx d (List.mem_cons_of_mem _ hd))
        (by simp only [List.length_cons] at hn; omega)
      simp [fgets_chars, hc, this]

theorem fgets_chars_all (n : Nat) (x : List Nat) (hx : ∀ c ∈ x, c ≠ 10)
    (hn : x.length ≤ n) : fgets_chars n x = (x, []) := by
  induction x generalizing n with
  | nil => cases n <;> simp [fgets_chars]
  | cons c x ih =>
    cases n with
    | zero => simp at hn
    | succ n =>
      have hc : c ≠ 10 := hx c (List.mem_cons_self _ _)
      have := ih n (fun d hd => hx d (List.mem_cons_of_mem _ hd))
        (by simp only [List.length_cons] at hn; omega)
      simp [fgets_chars, hc, this]

theorem fgets_of_ne_nil (size : Nat) (s : List Nat) (h : s ≠ []) :
    fgets size s =
      some ((fgets_chars (size - 1) s).1 ++ [0], (fgets_chars (size - 1) s).2) := by
  cases s with
  | nil => exact absurd rfl h
  | cons c s => rfl

/-- A line that ends with a newline and fits the buffer is read whole. -/
theorem readline_terminated (x rest : List Nat) (hx : ∀ c ∈ x, c ≠ 10)
    (hn : x.length + 1 < LINESIZE) :
    app_term_readline_from (x ++ 10 :: rest) = some (x ++ [10] ++ [0], rest) := by
  unfold app_term_readline_from
  rw [fgets_of_ne_nil _ _ (by simp), fgets_chars_line (LINESIZE - 1) x rest hx (by omega)]

/-- A last line without newline that fits the buffer is read whole. -/
theorem readline_unterminated (x : List Nat) (hx : ∀ c ∈ x, c ≠ 10) (hne : x ≠ [])
    (hn : x.length + 1 < LINESIZE) :
    app_term_readline_from x = some (x ++ [0], []) := by
  unfold app_term_readline_from
  rw [fgets_of_ne_nil _ _ hne, fgets_chars_all (LINESIZE - 1) x hx (by omega)]

/-! ## Lists as buffers -/

theorem getD_append_left_len (a : List Nat) (c : Nat) (t : List Nat) :
    (a ++ c :: t).getD a.length 0 = c := by
  induction a with
  | nil => rfl
  | cons x a ih => simpa using ih

theorem set_append_left_len (a : List Nat) (c x : Nat) (t : List Nat) :
    (a ++ c :: t).set a.length x = a ++ x :: t := by
  induction a with
  | nil => rfl
  | cons y a ih => simp [ih]

theorem takeWhile_append_stop (p : Nat → Bool) (a : List Nat) (c : Nat) (t : List Nat)
    (ha : ∀ x ∈ a, p x = true) (hc : p c = false) : (a ++ c :: t).takeWhile p = a := by
  induction a with
  | nil => simp [List.takeWhile_cons, hc]
  | cons x a ih =>
    have hx := ha x (List.mem_cons_self _ _)
    simp [List.takeWhile_cons, hx, ih (fun y hy => ha y (List.mem_cons_of_mem _ hy))]

theorem cstr_append_zero (a t : List Nat) (ha : ∀ x ∈ a, x ≠ 0) :
    cstr (a ++ 0 :: t) = a := by
  unfold cstr
  exact takeWhile_append_stop _ a 0 t (fun x hx => by simpa using ha x hx) (by simp)

/-! ## `strtok_r` on a line -/

/-- A token that is followed by the separator: the separator is overwritten with NUL and
the saved pointer stands behind it. -/
theorem strtok_r_sep (p tok t : List Nat) (hne : tok ≠ [])
    (htok : ∀ c ∈ tok, c ≠ 0 ∧ c ≠ 61) :
    strtok_r (p ++ tok ++ 61 :: t) p.length SEPARATOR =
      (p ++ tok ++ 0 :: t, some p.length, p.length + tok.length + 1) := by
  obtain ⟨c, tok', rfl⟩ := List.exists_cons_of_ne_nil hne
  have hc := htok c (List.mem_cons_self _ _)
  have hsep : cstr SEPARATOR = [61] := by decide
  have hdrop : (p ++ (c :: tok') ++ 61 :: t).drop p.length = (c :: tok') ++ 61 :: t := by
    rw [List.append_assoc, List.drop_left]
  have h0 : (p ++ (c :: tok') ++ 61 :: t).getD p.length 0 = c := by
    rw [List.append_assoc]; exact getD_append_left_len p c _
  have hspn : strspn ((c :: tok') ++ 61 :: t) SEPARATOR = 0 := by
    simp [strspn, hsep, List.takeWhile_cons, hc.2]
  have hcspn : strcspn ((c :: tok') ++ 61 :: t) SEPARATOR = (c :: tok').length := by
    unfold strcspn
    rw [takeWhile_append_stop _ (c :: tok') 61 t]
    · intro x hx
      have := htok x hx
      simp [hsep, this.1, this.2]
    · simp [hsep]
  have he : (p ++ (c :: tok') ++ 61 :: t).getD (p.length + (c :: tok').length) 0 = 61 := by
    have := getD_append_left_len (p ++ (c :: tok')) 61 t
    rwa [List.length_append] at this
  have hset : (p ++ (c :: tok') ++ 61 :: t).set (p.length + (c :: tok').length) 0 =
      p ++ (c :: tok') ++ 0 :: t := by
    have := set_append_left_len (p ++ (c :: tok')) 61 0 t
    rwa [List.length_append] at this
  unfold strtok_r
  simp only [hdrop, h0, hspn, Nat.add_zero, hcspn, he, hset]
  simp [hc.1]

/-- A token that ends the string: nothing is written and the saved pointer stands on the
terminator. -/
theorem strtok_r_end (p tok t : List Nat) (hne : tok ≠ [])
    (htok : ∀ c ∈ tok, c ≠ 0 ∧ c ≠ 61) :
    strtok_r (p ++ tok ++ 0 :: t) p.length SEPARATOR =
      (p ++ tok ++ 0 :: t, some p.length, p.length + tok.length) := by
  obtain ⟨c, tok', rfl⟩ := List.exists_cons_of_ne_nil hne
  have hc := htok c (List.mem_cons_self _ _)
  have hsep : cstr SEPARATOR = [61] := by decide
  have hdrop : (p ++ (c :: tok') ++ 0 :: t).drop p.length = (c :: tok') ++ 0 :: t := by
    rw [List.append_assoc, List.drop_left]
  have h0 : (p ++ (c :: tok') ++ 0 :: t).getD p.length 0 = c := by
    rw [List.append_assoc]; exact getD_append_left_len p c _
  have hspn : strspn ((c :: tok') ++ 0 :: t) SEPARATOR = 0 := by
    simp [strspn, hsep, List.takeWhile_cons, hc.2]
  have hcspn : strcspn ((c :: tok') ++ 0 :: t) SEPARATOR = (c :: tok').length := by
    unfold strcspn
    rw [takeWhile_append_stop _ (c :: tok') 0 t]
    · intro x hx
      have := htok x hx
      simp [hsep, this.1, this.2]
    · simp
  have he : (p ++ (c :: tok') ++ 0 :: t).getD (p.length + (c :: tok').length) 0 = 0 := by
    have := getD_append_left_len (p ++ (c :: tok')) 0 t
    rwa [List.length_append] at this
  unfold strtok_r
  simp only [hdrop, h0, hspn, Nat.add_zero, hcspn, he]
  simp [hc.1]
/-! ## `trim` on a padded word -/

theorem isspace_ne_zero {c : Nat} (h : isspace c = true) : c ≠ 0 := by
  intro e; subst e; revert h; decide

theorem replicate_zero_append (n : Nat) (q : List Nat) :
    List.replicate n 0 ++ 0 :: q = 0 :: (List.replicate n 0 ++ q) := by
  induction n with
  | zero => rfl
  | succ n ih => simp [List.replicate_succ, ih]

theorem getD_append_last (a t : List Nat) (ha : a ≠ []) :
    (a ++ t).getD (a.length - 1) 0 = a.getLastD 0 := by
  induction a with
  | nil => exact absurd rfl ha
  | cons x a ih =>
    cases a with
    | nil => simp
    | cons y a =>
      have := ih (by simp)
      simp only [List.length_cons, Nat.add_sub_cancel] at this ⊢
      simp at this ⊢
      exact this

/-- The first loop of `trim` turns the white space at the end of the string into NULs and
stops behind the last other character. -/
theorem trim_tail_spec (a ws t : List Nat) (ha : a ≠ [])
    (hlast : isspace (a.getLastD 0) = false) (hws : ∀ c ∈ ws, isspace c = true) :
    trim_tail (a ++ ws ++ t) (a.length + ws.length) =
      some (a ++ List.replicate ws.length 0 ++ t, a.length) := by
  induction ws using List.reverseRecOn generalizing t with
  | nil =>
    obtain ⟨n, hn⟩ : ∃ n, a.length = n + 1 :=
      ⟨a.length - 1, by have := List.length_pos.mpr ha; omega⟩
    have hg := getD_append_last a t ha
    rw [hn, Nat.add_sub_cancel] at hg
    simp only [List.append_nil, List.length_nil, Nat.add_zero, List.replicate_zero, hn,
      trim_tail, hg, hlast, Bool.false_eq_true, if_false]
  | append_singleton ws c ih =>
    have hc : isspace c = true := hws c (by simp)
    have hg : (a ++ (ws ++ [c]) ++ t).getD (a.length + ws.length) 0 = c := by
      have := getD_append_left_len (a ++ ws) c t
      rw [List.length_append] at this
      simpa [List.append_assoc] using this
    have hs : (a ++ (ws ++ [c]) ++ t).set (a.length + ws.length) 0 = a ++ ws ++ 0 :: t := by
      have := set_append_left_len (a ++ ws) c 0 t
      rw [List.length_append] at this
      rw [← this]
      simp [List.append_assoc]
    have hl : a.length + (ws ++ [c]).length = (a.length + ws.length) + 1 := by
      simp; omega
    rw [hl]
    simp only [trim_tail, hg, hc, if_true, hs]
    rw [ih (0 :: t) (fun d hd => hws d (by simp [hd]))]
    simp [List.replicate_succ', List.append_assoc, replicate_zero_append]

/-- `trim` on a string that is a word with white space on both sides: the word is moved
to the start of the string and terminated; the bytes before the string and behind its
old terminator stay. -/
theorem trim_eq (p ws1 core ws2 q : List Nat)
    (h1 : ∀ c ∈ ws1, isspace c = true) (h2 : ∀ c ∈ ws2, isspace c = true)
    (hne : core ≠ []) (hz : ∀ c ∈ core, c ≠ 0)
    (hfirst : isspace (core.headD 0) = false) (hlast : isspace (core.getLastD 0) = false) :
    trim (p ++ ws1 ++ core ++ ws2 ++ 0 :: q) p.length =
      some (p ++ core ++ 0 ::
        ((ws1 ++ core ++ 0 :: List.replicate ws2.length 0).drop (core.length + 1) ++ q)) := by
  -- length of the string
  have hnz : ∀ c ∈ ws1 ++ core ++ ws2, c ≠ 0 := by
    intro c hc
    simp only [List.mem_append] at hc
    rcases hc with (hc | hc) | hc
    · exact isspace_ne_zero (h1 c hc)
    · exact hz c hc
    · exact isspace_ne_zero (h2 c hc)
  have hdrop : (p ++ ws1 ++ core ++ ws2 ++ 0 :: q).drop p.length =
      (ws1 ++ core ++ ws2) ++ 0 :: q := by
    simp only [List.append_assoc]
    rw [List.drop_left]
  have hlen : strlen ((p ++ ws1 ++ core ++ ws2 ++ 0 :: q).drop p.length) =
      ws1.length + core.length + ws2.length := by
    rw [hdrop, strlen, cstr_append_zero _ _ hnz]
    simp; omega
  -- first loop
  have ha : p ++ ws1 ++ core ≠ [] := by simp [hne]
  have hal : isspace ((p ++ ws1 ++ core).getLastD 0) = false := by
    obtain ⟨c, core', rfl⟩ := List.exists_cons_of_ne_nil hne
    rw [List.getLastD_eq_getLast?, List.getLast?_append_cons] at *
    simpa [List.getLastD_eq_getLast?] using hlast
  have ht := trim_tail_spec (p ++ ws1 ++ core) ws2 (0 :: q) ha hal h2
  have he : p.length + (ws1.length + core.length + ws2.length) =
      (p ++ ws1 ++ core).length + ws2.length := by
    simp; omega
  -- second loop
  have hb1 : p ++ ws1 ++ core ++ List.replicate ws2.length 0 ++ 0 :: q =
      p ++ (ws1 ++ (core ++ 0 :: (List.replicate ws2.length 0 ++ q))) := by
    simp [List.append_assoc, replicate_zero_append]
  have hskip : ((p ++ (ws1 ++ (core ++ 0 :: (List.replicate ws2.length 0 ++ q)))).drop
      p.length).takeWhile (fun c => c != 0 && isspace c) = ws1 := by
    rw [List.drop_left]
    obtain ⟨c, core', rfl⟩ := List.exists_cons_of_ne_nil hne
    rw [List.cons_append]
    apply takeWhile_append_stop
    · intro x hx
      simp [h1 x hx, isspace_ne_zero (h1 x hx)]
    · simp only [List.headD_cons] at hfirst
      simp [hfirst]
  · unfold trim
    rw [hlen, he, ht]
    simp only [hb1, hskip]
    rw [if_pos (by simp; omega)]
    have hn : (p ++ ws1 ++ core).length + 1 - (p.length + ws1.length) = core.length + 1 := by
      simp; omega
    rw [hn]
    unfold memmove
    rw [List.take_left]
    have hd2 : (p ++ (ws1 ++ (core ++ 0 :: (List.replicate ws2.length 0 ++ q)))).drop
        (p.length + ws1.length) = core ++ 0 :: (List.replicate ws2.length 0 ++ q) := by
      rw [← List.append_assoc, ← List.length_append, List.drop_left]
    have ht2 : (core ++ 0 :: (List.replicate ws2.length 0 ++ q)).take (core.length + 1) =
        core ++ [0] := by
      rw [List.take_append_eq_append_take]
      simp
    have hd3 : (p ++ (ws1 ++ (core ++ 0 :: (List.replicate ws2.length 0 ++ q)))).drop
        (p.length + (core.length + 1)) =
        (ws1 ++ core ++ 0 :: List.replicate ws2.length 0).drop (core.length + 1) ++ q := by
      rw [List.drop_append_eq_append_drop]
      simp only [List.drop_eq_nil_of_le (Nat.le_add_right _ _), List.nil_append,
        Nat.add_sub_cancel_left]
      have : ws1 ++ (core ++ 0 :: (List.replicate ws2.length 0 ++ q)) =
          (ws1 ++ core ++ 0 :: List.replicate ws2.length 0) ++ q := by simp
      rw [this, List.drop_append_of_le_length (by simp; omega)]
    rw [hd2, ht2, hd3]
    simp

/-- The same, keeping only the length of what lies between the word and the old end. -/
theorem trim_spec (p ws1 core ws2 q : List Nat)
    (h1 : ∀ c ∈ ws1, isspace c = true) (h2 : ∀ c ∈ ws2, isspace c = true)
    (hne : core ≠ []) (hz : ∀ c ∈ core, c ≠ 0)
    (hfirst : isspace (core.headD 0) = false) (hlast : isspace (core.getLastD 0) = false) :
    ∃ j, j.length = ws1.length + ws2.length ∧
      trim (p ++ ws1 ++ core ++ ws2 ++ 0 :: q) p.length = some (p ++ core ++ 0 :: (j ++ q)) :=
  ⟨(ws1 ++ core ++ 0 :: List.replicate ws2.length 0).drop (core.length + 1),
    by simp; omega, trim_eq p ws1 core ws2 q h1 h2 hne hz hfirst hlast⟩
/-! ## Splitting a setting -/

theorem isspace_ne_sep {c : Nat} (h : isspace c = true) : c ≠ 61 := by
  intro e; subst e; revert h; decide

theorem is_word_spec {t : List Nat} (h : is_word t = true) :
    t ≠ [] ∧ (∀ c ∈ t, c ≠ 0 ∧ c ≠ 10 ∧ c ≠ 61) ∧ isspace (t.headD 0) = false ∧
      isspace (t.getLastD 0) = false := by
  simp only [is_word, Bool.and_eq_true, bne_iff_ne, ne_eq, List.all_eq_true,
    Bool.not_eq_true', and_imp] at h
  obtain ⟨⟨⟨h1, h2⟩, h3⟩, h4⟩ := h
  refine ⟨h1, fun c hc => ?_, h3, h4⟩
  have := h2 c hc
  simp only [Bool.and_eq_true, bne_iff_ne, ne_eq] at this
  exact ⟨this.1.1, this.1.2, this.2⟩

/-- `app_split_line` on `key = value` with white space in the four gaps: the key is at the
start of the buffer, and both key and value are trimmed. -/
theorem app_split_line_setting (lead key gap1 gap2 value trail : List Nat)
    (h1 : ∀ c ∈ lead, isspace c = true) (h2 : ∀ c ∈ gap1, isspace c = true)
    (h3 : ∀ c ∈ gap2, isspace c = true) (h4 : ∀ c ∈ trail, isspace c = true)
    (hk : is_word key = true) (hv : is_word value = true) :
    ∃ buf voff,
      app_split_line (lead ++ key ++ gap1 ++ [61] ++ gap2 ++ value ++ trail ++ [0]) =
        some (buf, some 0, some voff) ∧
      cstr buf = key ∧ cstr (buf.drop voff) = value := by
  obtain ⟨hkne, hkc, hkf, hkl⟩ := is_word_spec hk
  obtain ⟨hvne, hvc, hvf, hvl⟩ := is_word_spec hv
  -- first token
  have ht1 : ∀ c ∈ lead ++ key ++ gap1, c ≠ 0 ∧ c ≠ 61 := by
    intro c hc
    simp only [List.mem_append] at hc
    rcases hc with (hc | hc) | hc
    · exact ⟨isspace_ne_zero (h1 c hc), isspace_ne_sep (h1 c hc)⟩
    · exact ⟨(hkc c hc).1, (hkc c hc).2.2⟩
    · exact ⟨isspace_ne_zero (h2 c hc), isspace_ne_sep (h2 c hc)⟩
  have hb : lead ++ key ++ gap1 ++ [61] ++ gap2 ++ value ++ trail ++ [0] =
      [] ++ (lead ++ key ++ gap1) ++ 61 :: (gap2 ++ value ++ trail ++ [0]) := by simp
  have hs1 := strtok_r_sep [] (lead ++ key ++ gap1) (gap2 ++ value ++ trail ++ [0])
    (by simp [hkne]) ht1
  obtain ⟨j, hj, htr1⟩ := trim_spec [] lead key gap1 (gap2 ++ value ++ trail ++ [0]) h1 h2 hkne
    (fun c hc => (hkc c hc).1) hkf hkl
  -- second token
  have ht2 : ∀ c ∈ gap2 ++ value ++ trail, c ≠ 0 ∧ c ≠ 61 := by
    intro c hc
    simp only [List.mem_append] at hc
    rcases hc with (hc | hc) | hc
    · exact ⟨isspace_ne_zero (h3 c hc), isspace_ne_sep (h3 c hc)⟩
    · exact ⟨(hvc c hc).1, (hvc c hc).2.2⟩
    · exact ⟨isspace_ne_zero (h4 c hc), isspace_ne_sep (h4 c hc)⟩
  have hs2 := strtok_r_end (key ++ 0 :: j) (gap2 ++ value ++ trail) [] (by simp [hvne]) ht2
  obtain ⟨j2, -, htr2⟩ := trim_spec (key ++ 0 :: j) gap2 value trail [] h3 h4 hvne
    (fun c hc => (hvc c hc).1) hvf hvl
  have hlen : (key ++ 0 :: j).length = (lead ++ key ++ gap1).length + 1 := by
    simp [hj]; omega
  have hb2 : [] ++ key ++ 0 :: (j ++ (gap2 ++ value ++ trail ++ [0])) =
      key ++ 0 :: j ++ (gap2 ++ value ++ trail) ++ [0] := by simp
  refine ⟨key ++ 0 :: j ++ value ++ 0 :: (j2 ++ []), (key ++ 0 :: j).length, ?_, ?_, ?_⟩
  · unfold app_split_line
    rw [hb]
    simp only [List.length_nil] at hs1 htr1
    simp only [hs1, trim_opt]
    have e1 : [] ++ (lead ++ key ++ gap1) ++ 0 :: (gap2 ++ value ++ trail ++ [0]) =
        [] ++ lead ++ key ++ gap1 ++ 0 :: (gap2 ++ value ++ trail ++ [0]) := by simp
    rw [e1, htr1]
    simp only [Nat.zero_add]
    rw [hb2, ← hlen, hs2]
    simp only [trim_opt]
    have e2 : key ++ 0 :: j ++ (gap2 ++ value ++ trail) ++ [0] =
        key ++ 0 :: j ++ gap2 ++ value ++ trail ++ [0] := by simp
    rw [e2, htr2]
  · have : key ++ 0 :: j ++ value ++ 0 :: (j2 ++ []) = key ++ 0 :: (j ++ value ++ 0 :: j2) := by
      simp
    rw [this]
    exact cstr_append_zero _ _ (fun c hc => (hkc c hc).1)
  · have : key ++ 0 :: j ++ value ++ 0 :: (j2 ++ []) =
        (key ++ 0 :: j) ++ (value ++ 0 :: j2) := by simp
    rw [this, List.drop_left]
    exact cstr_append_zero _ _ (fun c hc => (hvc c hc).1)

/-! ## `atoi` reads the text of the string -/

theorem atoi_digits_cstr (s : List Nat) (acc : Int) :
    atoi_digits s acc = atoi_digits (cstr s) acc := by
  induction s generalizing acc with
  | nil => rfl
  | cons c s ih =>
    by_cases hc : c = 0
    · subst hc
      rw [cstr_cons_zero]
      simp [atoi_digits, isdigit]
    · rw [cstr_cons_ne hc]
      simp only [atoi_digits]
      rw [ih]

theorem dropWhile_isspace_cstr (s : List Nat) :
    (cstr s).dropWhile isspace = cstr (s.dropWhile isspace) := by
  induction s with
  | nil => rfl
  | cons c s ih =>
    by_cases hc : c = 0
    · subst hc
      have : isspace 0 = false := by decide
      simp [cstr_cons_zero, List.dropWhile_cons, this]
    · rw [cstr_cons_ne hc]
      simp only [List.dropWhile_cons]
      split
      · exact ih
      · rw [cstr_cons_ne hc]

theorem decimal_cstr (s : List Nat) : decimal s = decimal (cstr s) := by
  unfold decimal
  rw [dropWhile_isspace_cstr]
  cases hr : s.dropWhile isspace with
  | nil => rfl
  | cons c r =>
    by_cases hc : c = 0
    · subst hc
      rw [cstr_cons_zero]
      simp [atoi_digits, isdigit]
    · rw [cstr_cons_ne hc]
      by_cases h45 : c = 45
      · subst h45
        simp only
        rw [atoi_digits_cstr]
      · by_cases h43 : c = 43
        · subst h43
          simp only
          rw [atoi_digits_cstr]
        · have e1 : atoi_digits (c :: r) 0 = atoi_digits (cstr (c :: r)) 0 :=
            atoi_digits_cstr _ _
          rw [cstr_cons_ne hc] at e1
          split
          · rename_i heq; simp only [List.cons.injEq] at heq; exact absurd heq.1 h45
          · rename_i heq; simp only [List.cons.injEq] at heq; exact absurd heq.1 h43
          · split
            · rename_i heq; simp only [List.cons.injEq] at heq; exact absurd heq.1 h45
            · rename_i heq; simp only [List.cons.injEq] at heq; exact absurd heq.1 h43
            · exact e1

/-! ## Looking up a key -/

theorem find_key_eq_lookup (theapp : app) (buf : List Nat) (k : Nat) :
    find_key theapp buf (some k) = lookup_key theapp (cstr (buf.drop k)) := by
  simp only [find_key, lookup_key]
  congr 1
  funext d
  cases d.long_name with
  | none => rfl
  | some ln =>
    simp only
    rw [Bool.eq_iff_iff]
    simp only [beq_iff_eq, strcmp_eq_zero_iff]
    exact eq_comm

theorem atoi_cstr (s : List Nat) : atoi s = atoi (cstr s) := by
  unfold atoi strtol
  rw [decimal_cstr]

/-- The result of `atoi` is an `int`. -/
theorem atoi_range (s : List Nat) : -2147483648 ≤ atoi s ∧ atoi s ≤ 2147483647 := by
  unfold atoi long_to_int
  omega

/-- A number within the range of `int` is returned as it is spelled. -/
theorem atoi_eq_decimal (s : List Nat) (hlo : -2147483648 ≤ decimal s)
    (hhi : decimal s ≤ 2147483647) : atoi s = decimal s := by
  unfold atoi long_to_int strtol
  rw [if_neg (by omega), if_neg (by omega)]
  omega

/-- A number outside the range of `int` wraps around. -/
theorem atoi_wraps :
    atoi (lit "2147483648") = -2147483648 ∧ atoi (lit "4294967301") = 5 ∧
    atoi (lit "2147483647") = 2147483647 ∧ atoi (lit " -12x") = -12 ∧
    atoi (lit "99999999999999999999") = -1 := by
  decide
/-! ## One well-formed line -/

theorem strchr_comment (c : Nat) :
    strchr COMMENT_START c = (c == 35 || c == 59 || c == 0) := by
  have : COMMENT_START = [35, 59, 0] := by decide
  rw [this]
  simp only [strchr]
  by_cases h1 : c = 35
  · subst h1; decide
  · by_cases h2 : c = 59
    · subst h2; decide
    · by_cases h3 : c = 0
      · subst h3; decide
      · have e1 : (35 == c) = false := by simpa using fun e => h1 e.symm
        have e2 : (59 == c) = false := by simpa using fun e => h2 e.symm
        have e3 : (0 == c) = false := by simpa using fun e => h3 e.symm
        simp [e1, e2, e3, h1, h2, h3]

theorem strlen_pos_of_head {buf : List Nat} (h : buf.getD 0 0 ≠ 0) : strlen buf ≠ 0 := by
  cases buf with
  | nil => simp at h
  | cons c s =>
    simp only [List.getD_cons_zero] at h
    simp [strlen, cstr_cons_ne h]

/-- The line read for a line of the stream: its characters, the newline if there is one,
and the terminator. -/
theorem readline_config_stream (eol : Bool) (l : ConfLine) (rest : List ConfLine)
    (hnl : ∀ c ∈ l.text, c ≠ 10) (hne : l.text ≠ []) (hlen : l.text.length + 1 < LINESIZE) :
    ∃ term, (term = [10] ∨ term = []) ∧
      app_term_readline_from (config_stream eol (l :: rest)) =
        some (l.text ++ term ++ [0], config_stream eol rest) := by
  cases rest with
  | nil =>
    cases eol with
    | true =>
      refine ⟨[10], Or.inl rfl, ?_⟩
      have := readline_terminated l.text [] hnl hlen
      simpa [config_stream] using this
    | false =>
      refine ⟨[], Or.inr rfl, ?_⟩
      have := readline_unterminated l.text hnl hne hlen
      simpa [config_stream] using this
  | cons l1 ls =>
    refine ⟨[10], Or.inl rfl, ?_⟩
    have := readline_terminated l.text (config_stream eol (l1 :: ls)) hnl hlen
    simpa [config_stream] using this

theorem all_blank_spec {ws : List Nat} (h : ws.all is_blank = true) :
    (∀ c ∈ ws, isspace c = true) ∧ ∀ c ∈ ws, c ≠ 10 := by
  simp only [List.all_eq_true, is_blank, Bool.and_eq_true, bne_iff_ne, ne_eq] at h
  exact ⟨fun c hc => (h c hc).1, fun c hc => (h c hc).2⟩

/-- What is known of a well-formed line. -/
theorem well_formed_text {l : ConfLine} (h : l.well_formed = true) :
    (∀ c ∈ l.text, c ≠ 10) ∧ l.text ≠ [] := by
  cases l with
  | comment t =>
    simp only [ConfLine.well_formed, Bool.and_eq_true, Bool.or_eq_true, beq_iff_eq,
      List.all_eq_true, bne_iff_ne, ne_eq] at h
    refine ⟨fun c hc => (h.2 c hc).2, ?_⟩
    intro e
    rw [ConfLine.text] at e
    rw [e] at h
    simp at h
  | setting lead key gap1 gap2 value trail =>
    simp only [ConfLine.well_formed, Bool.and_eq_true] at h
    obtain ⟨⟨⟨⟨⟨⟨h1, h2⟩, h3⟩, h4⟩, hk⟩, hv⟩, -⟩ := h
    obtain ⟨-, hkc, -, -⟩ := is_word_spec hk
    obtain ⟨-, hvc, -, -⟩ := is_word_spec hv
    refine ⟨fun c hc => ?_, by simp [ConfLine.text]⟩
    simp only [ConfLine.text, List.mem_append, List.mem_singleton] at hc
    rcases hc with (((((hc | hc) | hc) | hc) | hc) | hc) | hc
    · exact (all_blank_spec h1).2 c hc
    · exact (hkc c hc).2.1
    · exact (all_blank_spec h2).2 c hc
    · rw [hc]; decide
    · exact (all_blank_spec h3).2 c hc
    · exact (hvc c hc).2.1
    · exact (all_blank_spec h4).2 c hc

/-- A comment line is skipped. -/
theorem line_step_comment (theapp : app) (w : World) (t term : List Nat)
    (h : (ConfLine.comment t).well_formed = true) :
    line_step theapp (t ++ term ++ [0]) w = .go (w.release (t ++ term ++ [0])) := by
  simp only [ConfLine.well_formed, Bool.and_eq_true, Bool.or_eq_true, beq_iff_eq] at h
  obtain ⟨c, t', rfl⟩ : ∃ c t', t = c :: t' := by
    cases t with
    | nil => simp at h
    | cons c t' => exact ⟨c, t', rfl⟩
  have hc : c = 35 ∨ c = 59 := by simpa using h.1
  have hs : strchr COMMENT_START c = true := by
    rw [strchr_comment]
    rcases hc with rfl | rfl <;> decide
  simp [line_step, hs]

/-- A setting whose key is looked up to an Integer or String option: the value is stored
(converted, or as a pointer into the line buffer) and the loop goes on. -/
theorem line_step_setting (theapp : app) (w : World)
    (lead key gap1 gap2 value trail term : List Nat) (d : opt) (a : Nat)
    (h : (ConfLine.setting lead key gap1 gap2 value trail).well_formed = true)
    (hterm : term = [10] ∨ term = [])
    (hd : lookup_key theapp key = some d)
    (hty : d.type = .OPT_INT ∨ d.type = .OPT_STRING) (ha : d.val = .cell a) :
    ∃ buf voff, cstr (buf.drop voff) = value ∧
      line_step theapp
        ((ConfLine.setting lead key gap1 gap2 value trail).text ++ term ++ [0]) w =
        .go ((w.store a (if d.type = .OPT_INT then .int (atoi value)
          else .str (.line w.released.length voff))).release buf) := by
  simp only [ConfLine.well_formed, Bool.and_eq_true, bne_iff_ne, ne_eq] at h
  obtain ⟨⟨⟨⟨⟨⟨h1, h2⟩, h3⟩, h4⟩, hk⟩, hv⟩, hc1, hc2⟩ := h
  have h4' : ∀ c ∈ trail ++ term, isspace c = true := by
    intro c hc
    simp only [List.mem_append] at hc
    rcases hc with hc | hc
    · exact (all_blank_spec h4).1 c hc
    · rcases hterm with rfl | rfl
      · simp only [List.mem_singleton] at hc; subst hc; decide
      · simp at hc
  obtain ⟨buf, voff, hsplit, hkey, hval⟩ := app_split_line_setting lead key gap1 gap2 value
    (trail ++ term) (all_blank_spec h1).1 (all_blank_spec h2).1 (all_blank_spec h3).1 h4' hk hv
  have hbuf : (ConfLine.setting lead key gap1 gap2 value trail).text ++ term ++ [0] =
      lead ++ key ++ gap1 ++ [61] ++ gap2 ++ value ++ (trail ++ term) ++ [0] := by
    simp [ConfLine.text]
  -- the line is no comment
  obtain ⟨hkne, hkc, hkf, -⟩ := is_word_spec hk
  have hhead : (lead ++ key ++ gap1 ++ [61] ++ gap2 ++ value ++ (trail ++ term) ++ [0]).getD 0 0
      = (lead ++ key).headD 0 := by
    cases lead with
    | nil =>
      obtain ⟨c, k', rfl⟩ := List.exists_cons_of_ne_nil hkne
      simp
    | cons c l' => simp
  have hh0 : (lead ++ key).headD 0 ≠ 0 := by
    cases lead with
    | nil =>
      obtain ⟨c, k', rfl⟩ := List.exists_cons_of_ne_nil hkne
      simpa using (hkc c (List.mem_cons_self _ _)).1
    | cons c l' =>
      simpa using isspace_ne_zero ((all_blank_spec h1).1 c (List.mem_cons_self _ _))
  have hnc : (strchr COMMENT_START
      ((lead ++ key ++ gap1 ++ [61] ++ gap2 ++ value ++ (trail ++ term) ++ [0]).getD 0 0) ||
      strlen (lead ++ key ++ gap1 ++ [61] ++ gap2 ++ value ++ (trail ++ term) ++ [0]) == 0) =
      false := by
    have hl := strlen_pos_of_head (hhead ▸ hh0)
    rw [strchr_comment, hhead, Bool.or_eq_false_iff, Bool.or_eq_false_iff,
      Bool.or_eq_false_iff]
    exact ⟨⟨⟨beq_false_of_ne hc1, beq_false_of_ne hc2⟩, beq_false_of_ne hh0⟩,
      beq_false_of_ne hl⟩
  have hfind : find_key theapp buf (some 0) = some d := by
    rw [find_key_eq_lookup, List.drop_zero, hkey, hd]
  refine ⟨buf, voff, hval, ?_⟩
  rw [hbuf]
  rcases hty with hty | hty
  · simp only [line_step, hnc, hsplit, hfind, hty, ha, World.store_at, Bool.false_eq_true,
      if_false, if_true]
    rw [atoi_cstr (buf.drop voff), hval]
  · simp only [line_step, hnc, hsplit, hfind, hty, ha, World.store_at, Bool.false_eq_true,
      if_false]
    simp
/-! ## Failing tokens (C4, C5, C6) -/

theorem OptionAt.of_reach {theapp : app} {argc j : Nat} {av : List (List Nat)} {w wj : World}
    {arg : List Nat} {e : opt} (hr : Reach theapp argc 1 { w with argv := av } j wj)
    (hj : j < argc) (harg : wj.argv[j]? = some arg) (hd : arg.getD 0 0 = 45)
    (hfind : theapp.registry.find? (app_compare_opt arg) = some e) :
    OptionAt theapp argc av w j e := by
  refine ⟨wj, arg, hr, hj, ?_, hd, hfind⟩
  rw [← harg, hr.argv_ge j (Nat.le_refl _)]

theorem ScanAt.token {theapp : app} {argc k : Nat} {av : List (List Nat)} {w wk : World}
    (h : ScanAt theapp argc av w k wk) : wk.argv[k]? = av[k]? :=
  Reach.argv_ge h k (Nat.le_refl _)

theorem first_of_token {k : Nat} {av : List (List Nat)} {tok : List Nat}
    (htok : av[k]? = some tok) : ∃ a0, av[0]? = some a0 := by
  have hk : k < av.length := by
    rcases Nat.lt_or_ge k av.length with h1 | h1
    · exact h1
    · rw [List.getElem?_eq_none h1] at htok; exact absurd htok (by simp)
  have : 0 < av.length := by omega
  exact ⟨av[0], List.getElem?_eq_getElem this⟩

theorem app_arg_required_trace (theapp : app) (t : List Nat) (w : World) :
    (app_arg_required theapp t w).trace = w.trace ++ .requires_argument t ::
      (match theapp.on_error with
        | none => [.help_listing]
        | some .auto_help => [.help_listing]
        | some .default_error_handler => [.invalid_option t, .help_listing]
        | some (.host id) => [.host_call id t]) := by
  unfold app_arg_required
  cases theapp.on_error with
  | none => simp [app_auto_help, World.emit]
  | some h =>
    cases h <;>
      simp [app_callback.call, app_auto_help, app_opt_default_error_handler, World.emit]

/-- C4: when the last token of `argv` stands at an option position and is resolved to a
descriptor of type Integer, String or Secret-String, `app_parse_opts` returns `false`; the
cells are those the scan had on arrival at that token (the failing option writes nothing,
so its cell still has its initial contents when no earlier option was bound to it); and
the output is extended by the Argument-Required message for the token followed by the
call of the installed handler with the token, or by the help listing when no handler is
installed. -/
theorem C4_missing_value_at_end (theapp : app) (argc : Nat) (av : List (List Nat))
    (w wk : World) (tok : List Nat) (d : opt)
    (hscan : ScanAt theapp argc av w (argc - 1) wk)
    (htok : av[argc - 1]? = some tok) (hdash : tok.getD 0 0 = 45)
    (hfind : theapp.registry.find? (app_compare_opt tok) = some d)
    (hty : d.type.takes_value = true) :
    ∃ app1 w1, app_parse_opts theapp argc (some av) w = .done (false, app1, w1) ∧
      w1.cells = wk.cells ∧
      (∀ a, d.val = .cell a →
        (∀ j e, OptionAt theapp argc av w j e → j < argc - 1 → e.val ≠ .cell a) →
        w1.cells a = w.cells a) ∧
      w1.trace = wk.trace ++ .requires_argument (cstr tok) ::
        (match theapp.on_error with
          | none => [.help_listing]
          | some .auto_help => [.help_listing]
          | some .default_error_handler => [.invalid_option (cstr tok), .help_listing]
          | some (.host id) => [.host_call id (cstr tok)]) := by
  obtain ⟨a0, h0⟩ := first_of_token htok
  have h1 : 1 ≤ argc - 1 := Reach.le hscan
  have harg : wk.argv[argc - 1]? = some tok := by rw [hscan.token]; exact htok
  have hstep := parse_step_missing theapp argc harg hdash hfind hty rfl
  refine ⟨_, _, app_parse_opts_of_scan_ret h0 hscan (by omega) hstep,
    app_arg_required_cells _ _ _, ?_, app_arg_required_trace _ _ _⟩
  intro a _ hno
  rw [app_arg_required_cells]
  have hc := Reach.cells_unchanged (a := a) hscan (fun j wj arg e hr hj harg hd hf =>
    hno j e (OptionAt.of_reach hr (by omega) harg hd hf) hj)
  exact hc

/-- C5: when the scan stands at index `k` on a token that begins with `-` and cannot be
applied (no descriptor matches, or the descriptor takes a value and the token is the
last one), `app_parse_opts` returns `false` and the cells are those the scan had on
arrival at `k`; they are also exactly the cells that parsing only `argv[0 .. k)` leaves,
and that shorter parse succeeds. -/
theorem C5_abort_without_rollback (theapp : app) (argc : Nat) (av : List (List Nat))
    (w wk : World) (k : Nat) (tok : List Nat)
    (hscan : ScanAt theapp argc av w k wk) (hk : k < argc)
    (htok : av[k]? = some tok) (hdash : tok.getD 0 0 = 45)
    (hfail : theapp.registry.find? (app_compare_opt tok) = none ∨
      ∃ d, theapp.registry.find? (app_compare_opt tok) = some d ∧
        d.type.takes_value = true ∧ k = argc - 1) :
    ∃ app1 w1 wp, app_parse_opts theapp argc (some av) w = .done (false, app1, w1) ∧
      w1.cells = wk.cells ∧
      app_parse_opts theapp k (some (av.take k)) w = .done (true, app1, wp) ∧
      wp.cells = w1.cells := by
  obtain ⟨a0, h0⟩ := first_of_token htok
  have h1 : 1 ≤ k := Reach.le hscan
  have harg : wk.argv[k]? = some tok := by rw [hscan.token]; exact htok
  have h0' : (av.take k)[0]? = some a0 := by
    rw [List.getElem?_take_of_lt (by omega)]; exact h0
  have hpre : ScanAt theapp k (av.take k) w k { wk with argv := wk.argv.take k } :=
    Reach.take hscan
  have hp := app_parse_opts_of_scan_end h0' hpre (Nat.le_refl _)
  rcases hfail with hnone | ⟨d, hfind, hty, hlast⟩
  · have hstep := parse_step_unknown theapp argc harg hdash hnone
    refine ⟨_, _, _, app_parse_opts_of_scan_ret h0 hscan hk hstep, ?_, hp, ?_⟩
    · cases theapp.on_error with
      | none => rfl
      | some h => exact call_cells _ _ _
    · cases theapp.on_error with
      | none => rfl
      | some h => exact (call_cells h (cstr tok) wk).symm
  · have hstep := parse_step_missing theapp argc harg hdash hfind hty hlast
    refine ⟨_, _, _, app_parse_opts_of_scan_ret h0 hscan hk hstep,
      app_arg_required_cells _ _ _, hp, ?_⟩
    exact (app_arg_required_cells theapp (cstr tok) wk).symm

/-- C6 (as amended): when the scan stands on a token that begins with `-` and matches no
descriptor, `app_parse_opts` returns `false`, writes no cell, and calls the handler the
host installed with `app_opt_on_error` with that token; when the host installed none,
nothing is called and nothing is printed. -/
theorem C6_unknown_option_handler (theapp : app) (handler : Option app_callback) (argc : Nat)
    (av : List (List Nat)) (w wk : World) (k : Nat) (tok : List Nat)
    (hscan : ScanAt (app_opt_on_error theapp handler) argc av w k wk) (hk : k < argc)
    (htok : av[k]? = some tok) (hdash : tok.getD 0 0 = 45)
    (hnone : theapp.registry.find? (app_compare_opt tok) = none) :
    ∃ app1 w1,
      app_parse_opts (app_opt_on_error theapp handler) argc (some av) w =
        .done (false, app1, w1) ∧
      w1.cells = wk.cells ∧
      w1.trace = wk.trace ++
        (match handler with
          | none => []
          | some .auto_help => [.help_listing]
          | some .default_error_handler => [.invalid_option (cstr tok), .help_listing]
          | some (.host id) => [.host_call id (cstr tok)]) := by
  obtain ⟨a0, h0⟩ := first_of_token htok
  have harg : wk.argv[k]? = some tok := by rw [hscan.token]; exact htok
  have hnone' : (app_opt_on_error theapp handler).registry.find? (app_compare_opt tok) = none :=
    hnone
  have hstep := parse_step_unknown (app_opt_on_error theapp handler) argc
    harg hdash hnone'
  refine ⟨_, _, app_parse_opts_of_scan_ret h0 hscan hk hstep, ?_, ?_⟩
  · cases handler with
    | none => rfl
    | some h => exact call_cells _ _ _
  · cases handler with
    | none => simp [app_opt_on_error]
    | some h =>
      cases h <;>
        simp [app_opt_on_error, app_callback.call, app_auto_help,
          app_opt_default_error_handler, World.emit]

/-- C6 as stated fails: with no handler installed (`app_new`), the unknown option `-z`
makes `app_parse_opts` return `false` without any output; the default handler is not
called. -/
theorem C6_default_handler_not_called :
    ∃ app1 w1,
      app_parse_opts app_new 2 (some [lit "prog", lit "-z"]) blank_world =
        .done (false, app1, w1) ∧
      app_new.on_error = none ∧ w1.trace = [] :=
  ⟨_, _, rfl, rfl, rfl⟩
/-! ## Token consumption (C8) -/

/-- C8: when the scan stands on a token that is resolved to the descriptor `d`, then
(1) if `d` is a Flag or Callback option, the scan next stands on the token right after it
(which is thereby examined as a possible option), and
(2) if `d` is an Integer, String or Secret-String option and a further element exists,
that element `v` is stored as the value whatever its first character is, the scan next
stands two places further, and it never stands on the element `v` itself. -/
theorem C8_token_consumption (theapp : app) (argc : Nat) (av : List (List Nat))
    (w wk : World) (k : Nat) (tok : List Nat) (d : opt)
    (hlen : av.length = argc)
    (hscan : ScanAt theapp argc av w k wk) (hk : k < argc)
    (htok : av[k]? = some tok) (hdash : tok.getD 0 0 = 45)
    (hfind : theapp.registry.find? (app_compare_opt tok) = some d)
    (hb : d.well_bound = true) :
    (d.type.takes_value = false → ∃ w1, ScanAt theapp argc av w (k + 1) w1) ∧
    (d.type.takes_value = true → k + 1 < argc →
      ∃ v a w1, av[k + 1]? = some v ∧ d.val = .cell a ∧
        ScanAt theapp argc av w (k + 2) w1 ∧
        w1.cells a = stored_value d.type (k + 1) v ∧
        ¬ ∃ w2, ScanAt theapp argc av w (k + 1) w2) := by
  have harg : wk.argv[k]? = some tok := by rw [hscan.token]; exact htok
  constructor
  · intro hty
    obtain ⟨w1, hstep, -⟩ := parse_step_plain theapp argc harg hdash
      hfind hty hb
    exact ⟨w1, Reach.trans hscan (Reach.next hk hstep (Reach.here _ _))⟩
  · intro hty hk1
    have hv : av[k + 1]? = some av[k + 1] := List.getElem?_eq_getElem (by omega)
    have hv' : wk.argv[k + 1]? = some av[k + 1] := by
      rw [Reach.argv_ge hscan (k + 1) (by omega)]; exact hv
    obtain ⟨a, w1, ha, hstep, hc, -, -⟩ := parse_step_value theapp argc
      harg hdash hfind hty hb (by omega) hv'
    refine ⟨av[k + 1], a, w1, hv, ha,
      Reach.trans hscan (Reach.next hk hstep (Reach.here _ _)), ?_, ?_⟩
    · rw [hc]; simp [World.store]
    · rintro ⟨w2, h2⟩
      have h3 := Reach.det hscan h2 (by omega)
      obtain ⟨i1, wi, -, hstep', hr⟩ := h3.lt_inv (by omega)
      rw [hstep] at hstep'
      simp only [Next.go.injEq] at hstep'
      have := hr.le
      omega

/-! ## Secret strings (C7) -/

theorem cstr_app_wipe (v : List Nat) : cstr (app_wipe v) = [] := by
  unfold app_wipe strlen
  induction v with
  | nil => rfl
  | cons c s ih =>
    by_cases hc : c = 0
    · subst hc; simp [cstr]
    · rw [cstr_cons_ne hc]
      simp [List.replicate_succ, cstr]

/-- C7: in a call of `app_parse_opts` that returns `true`, let a Secret-String option be
resolved at index `k` and let `v` be the string at index `k + 1`. Afterwards
(1) the bound cell holds a pointer to a block of its own whose text is the text of `v`
(unless a later option bound to the same cell has overwritten it),
(2) the string at index `k + 1` has its first `strlen v` bytes zero and the rest as before,
so that it reads as the empty text, and
(3) every string of `argv` that is not the value of a Secret-String option is unaltered. -/
theorem C7_secret_value_wiped (theapp app1 : app) (argc : Nat) (av : List (List Nat))
    (w w1 : World) (k : Nat) (d : opt) (v : List Nat) (a : Nat)
    (hrun : app_parse_opts theapp argc (some av) w = .done (true, app1, w1))
    (hocc : OptionAt theapp argc av w k d) (hty : d.type = .OPT_PASSWD)
    (hv : av[k + 1]? = some v) (ha : d.val = .cell a) :
    ((∀ j e, OptionAt theapp argc av w j e → k < j → e.val ≠ .cell a) →
      w1.cells a = .str (.dup (cstr v)) ∧ w1.text (.dup (cstr v)) = some (cstr v)) ∧
    (w1.argv[k + 1]? = some (List.replicate (strlen v) 0 ++ v.drop (strlen v)) ∧
      (w1.argv[k + 1]?).map cstr = some []) ∧
    (∀ j, (∀ i e, OptionAt theapp argc av w i e → e.type = .OPT_PASSWD → j ≠ i + 1) →
      w1.argv[j]? = av[j]?) := by
  obtain ⟨kf, hkf, hfin⟩ := app_parse_opts_true_inv hrun
  obtain ⟨wk, tok, hscan, hk, htok, hdash, hfind⟩ := hocc
  have harg : wk.argv[k]? = some tok := by rw [hscan.token]; exact htok
  have hrest := Reach.det hscan hfin (by omega)
  obtain ⟨i1, ww, -, hstep, hr⟩ := hrest.lt_inv (by omega)
  have hkf' : kf ≤ argc := Reach.le_argc hfin (by omega)
  -- the pass at `k`
  obtain ⟨arg, harg', hcase⟩ := parse_step_go_inv hstep
  rw [harg] at harg'
  simp only [Option.some.injEq] at harg'
  subst harg'
  rcases hcase with ⟨hnd, -, -⟩ | ⟨-, d', hfind', hcase⟩
  · exact absurd hdash hnd
  rw [hfind] at hfind'
  simp only [Option.some.injEq] at hfind'
  subst hfind'
  rcases hcase with ⟨h, -⟩ | ⟨h, -⟩ | ⟨h, -⟩ | ⟨-, -, a', v', ha', hv', hi1, hww⟩ | ⟨h, -⟩
  · rw [hty] at h; exact absurd h (by decide)
  · rw [hty] at h; exact absurd h (by decide)
  · rw [hty] at h; exact absurd h (by decide)
  · rw [ha] at ha'
    simp only [binding.cell.injEq] at ha'
    subst ha'
    have hvv : v' = v := by
      have : wk.argv[k + 1]? = av[k + 1]? := Reach.argv_ge hscan (k + 1) (by omega)
      rw [hv', hv] at this
      exact Option.some.inj this
    subst hvv
    subst hi1
    have hlen : k + 1 < wk.argv.length := by
      rcases Nat.lt_or_ge (k + 1) wk.argv.length with h | h
      · exact h
      · rw [List.getElem?_eq_none h] at hv'; exact absurd hv' (by simp)
    have hslot : w1.argv[k + 1]? = some (app_wipe v') := by
      rw [Reach.argv_le hr (k + 1) (by omega), hww]
      simp only [List.getElem?_set]
      simp [hlen]
    refine ⟨fun hno => ⟨?_, rfl⟩, ⟨hslot, ?_⟩, fun j hj => ?_⟩
    · have hc := Reach.cells_unchanged (a := a) hr (fun j wj arg e hrj hjk harg hd hf =>
        hno j e (OptionAt.of_reach (Reach.trans hscan (Reach.next hk hstep hrj))
          (by omega) harg hd hf) (by have := hrj.le; omega))
      rw [hc, hww]
      simp [World.store]
    · rw [hslot]; simp [cstr_app_wipe]
    · have hc := Reach.argv_unchanged (j := j) hfin (fun m wm arg e hrm hm harg hd hf hpw =>
        hj m e (OptionAt.of_reach hrm (by omega) harg hd hf) hpw)
      exact hc
  · rw [hty] at h; exact absurd h (by decide)
/-! ## Well-formed argument vectors (C3) -/

theorem eq_of_val_eq {reg : List opt} (hdist : reg.Pairwise (fun d e => d.val ≠ e.val))
    {d e : opt} (hd : d ∈ reg) (he : e ∈ reg) (h : d.val = e.val) : d = e := by
  by_contra hne
  exact (List.Pairwise.forall (fun _ _ hxy => fun e => hxy e.symm) hdist hd he hne) h

/-- C3: let every descriptor be of type Flag, Integer, String or Secret-String and bound
to a cell of its own, and let every token that begins with `-` and on which the scan
stands be resolved to a descriptor that, unless it is a Flag, is followed by a further
element. Then `app_parse_opts` returns `true`; the cell of every option that is resolved
somewhere holds the value of the last place where it is resolved (`true`, the `int` that
`atoi` returns for the following element, or a pointer to the text of the following
element); and the cell of an option that is resolved nowhere is as before the call. -/
theorem C3_last_occurrence_wins (theapp : app) (argc : Nat) (av : List (List Nat)) (w : World)
    (hlen : av.length = argc) (hargc : 1 ≤ argc)
    (htype : ∀ d ∈ theapp.registry, d.type ≠ .OPT_CALLBACK ∧ ∃ a, d.val = .cell a)
    (hdist : theapp.registry.Pairwise (fun d e => d.val ≠ e.val))
    (hvalid : ∀ k wk tok, ScanAt theapp argc av w k wk → k < argc → av[k]? = some tok →
      tok.getD 0 0 = 45 →
      ∃ d, theapp.registry.find? (app_compare_opt tok) = some d ∧
        (d.type ≠ .OPT_FLAG → k + 1 < argc)) :
    ∃ app1 w1, app_parse_opts theapp argc (some av) w = .done (true, app1, w1) ∧
      (∀ k d a, OptionAt theapp argc av w k d → d.val = .cell a →
        (∀ k', k < k' → ¬ OptionAt theapp argc av w k' d) →
        holds_value w1 a d.type (av.getD (k + 1) [])) ∧
      (∀ d a, d ∈ theapp.registry → d.val = .cell a →
        (∀ k, ¬ OptionAt theapp argc av w k d) → w1.cells a = w.cells a) := by
  have h0 : av[0]? = some av[0] := List.getElem?_eq_getElem (by omega)
  have hwb : ∀ d ∈ theapp.registry, d.well_bound = true := by
    intro d hd
    obtain ⟨hcb, a, ha⟩ := htype d hd
    unfold opt.well_bound
    rw [ha]
    cases hty : d.type <;> simp_all
  have htv : ∀ d ∈ theapp.registry, d.type ≠ .OPT_FLAG → d.type.takes_value = true := by
    intro d hd hnf
    have := (htype d hd).1
    cases hty : d.type <;> simp_all [opt_type.takes_value]
  -- every pass goes on
  have hgo : ∀ k wk, Reach theapp argc 1 { w with argv := av } k wk → k < argc →
      ∃ i1 w1, parse_step theapp argc k wk = .go i1 w1 := by
    intro k wk hr hk
    have hlk : wk.argv.length = argc := by rw [hr.argv_length]; exact hlen
    have harg : wk.argv[k]? = some av[k] := by
      rw [hr.argv_ge k (Nat.le_refl _)]
      show av[k]? = some av[k]
      exact List.getElem?_eq_getElem (by omega)
    by_cases hd : (av[k]).getD 0 0 = 45
    · obtain ⟨d, hfind, hnext⟩ := hvalid k wk av[k] hr hk
        (List.getElem?_eq_getElem (by omega)) hd
      have hmem := List.mem_of_find?_eq_some hfind
      by_cases hf : d.type = .OPT_FLAG
      · obtain ⟨w1, hs, -⟩ := parse_step_plain theapp argc harg hd hfind
          (by rw [hf]; rfl) (hwb d hmem)
        exact ⟨_, _, hs⟩
      · have hk1 := hnext hf
        have hv : wk.argv[k + 1]? = some av[k + 1] := by
          rw [hr.argv_ge (k + 1) (by omega)]
          show av[k + 1]? = some av[k + 1]
          exact List.getElem?_eq_getElem (by omega)
        obtain ⟨a, w1, -, hs, -⟩ := parse_step_value theapp argc harg hd
          hfind (htv d hmem hf) (hwb d hmem) (by omega) hv
        exact ⟨_, _, hs⟩
    · exact ⟨_, _, parse_step_skip harg hd⟩
  obtain ⟨kf, w1, hkf, hfin⟩ := Reach.progress theapp argc argc 1
    { w with argv := av } (by omega) hgo
  have hkf' : kf ≤ argc := Reach.le_argc hfin hargc
  refine ⟨_, w1, app_parse_opts_of_scan_end h0 hfin hkf, ?_, ?_⟩
  · -- the last place where `d` is resolved
    intro k d a hocc ha hlast
    have hocc' := hocc
    obtain ⟨wk, tok, hscan, hk, htok, hdash, hfind⟩ := hocc
    have hmem := List.mem_of_find?_eq_some hfind
    have harg : wk.argv[k]? = some tok := by rw [ScanAt.token hscan]; exact htok
    have hrest := Reach.det hscan hfin (by omega)
    obtain ⟨i1, ww, -, hstep, hr⟩ := hrest.lt_inv (by omega)
    have hi1 := (parse_step_go_lt hstep).1
    -- no later pass writes the cell
    have hkeep : w1.cells a = ww.cells a :=
      Reach.cells_unchanged (a := a) hr (fun j wj arg e hrj hjk hargj hd hf => by
        intro he
        have hoj : OptionAt theapp argc av w j e :=
          OptionAt.of_reach (Reach.trans hscan (Reach.next hk hstep hrj)) (by omega) hargj hd hf
        have hed : e = d := eq_of_val_eq hdist (List.mem_of_find?_eq_some hf) hmem
          (by rw [he, ha])
        subst hed
        exact hlast j (by have := hrj.le; omega) hoj)
    by_cases hf : d.type = .OPT_FLAG
    · obtain ⟨w2, hs, -⟩ := parse_step_plain theapp argc harg hdash hfind
        (by rw [hf]; rfl) (hwb d hmem)
      obtain ⟨arg, harg', hcase⟩ := parse_step_go_inv hstep
      rw [harg] at harg'
      simp only [Option.some.injEq] at harg'
      subst harg'
      rcases hcase with ⟨hnd, -, -⟩ | ⟨-, d', hfind', hcase⟩
      · exact absurd hdash hnd
      rw [hfind] at hfind'
      simp only [Option.some.injEq] at hfind'
      subst hfind'
      rcases hcase with ⟨-, a', ha', -, hww⟩ | ⟨h, -⟩ | ⟨h, -⟩ | ⟨h, -⟩ | ⟨h, -⟩
      · rw [ha] at ha'
        simp only [binding.cell.injEq] at ha'
        subst ha'
        unfold holds_value
        rw [hf]
        show w1.cells a = .flag true
        rw [hkeep, hww]
        simp [World.store]
      all_goals (rw [hf] at h; exact absurd h (by decide))
    · have hk1 : k + 1 < argc := by
        obtain ⟨d', hfind', hnext⟩ := hvalid k wk tok hscan hk htok hdash
        rw [hfind] at hfind'
        simp only [Option.some.injEq] at hfind'
        subst hfind'
        exact hnext hf
      have hv : av[k + 1]? = some av[k + 1] := List.getElem?_eq_getElem (by omega)
      have hgd : av.getD (k + 1) [] = av[k + 1] := by
        rw [List.getD_eq_getElem?_getD, hv]; rfl
      have hv' : wk.argv[k + 1]? = some av[k + 1] := by
        rw [Reach.argv_ge hscan (k + 1) (by omega)]; exact hv
      obtain ⟨a', w2, ha', hs, hc, -, hargv⟩ := parse_step_value theapp argc harg hdash hfind (htv d hmem hf) (hwb d hmem) (by omega) hv'
      rw [hs] at hstep
      simp only [Next.go.injEq] at hstep
      obtain ⟨hi, hw2⟩ := hstep
      subst hw2
      subst hi
      rw [ha] at ha'
      simp only [binding.cell.injEq] at ha'
      subst ha'
      have hcell : w1.cells a = stored_value d.type (k + 1) av[k + 1] := by
        rw [hkeep, hc]; simp [World.store]
      rw [hgd]
      have hnc := (htype d hmem).1
      cases hty : d.type with
      | OPT_FLAG => exact absurd hty hf
      | OPT_INT =>
        unfold holds_value
        rw [hty] at hcell
        simpa [stored_value] using hcell
      | OPT_STRING =>
        unfold holds_value
        rw [hty] at hcell hargv
        refine ⟨.argv (k + 1), by simpa [stored_value] using hcell, ?_⟩
        have : w1.argv[k + 1]? = some av[k + 1] := by
          rw [Reach.argv_le hr (k + 1) (by omega), hargv]
          simpa using hv'
        simp [World.text, this]
      | OPT_PASSWD =>
        unfold holds_value
        rw [hty] at hcell
        exact ⟨.dup (cstr av[k + 1]), by simpa [stored_value] using hcell, rfl⟩
      | OPT_CALLBACK => exact absurd hty hnc
  · -- an option that is resolved nowhere
    intro d a hmem ha hnone
    have hc := Reach.cells_unchanged (a := a) hfin (fun j wj arg e hrj hjk hargj hd hf => by
      intro he
      have hoj : OptionAt theapp argc av w j e :=
        OptionAt.of_reach hrj (by omega) hargj hd hf
      have hed : e = d := eq_of_val_eq hdist (List.mem_of_find?_eq_some hf) hmem
        (by rw [he, ha])
      subst hed
      exact hnone j hoj)
    exact hc
/-- Let the next line of the stream be split into a key that is resolved to a Flag
option bound to cell `a`. If the value pointer is NULL, the cell is set to `true` and
parsing goes on with the rest of the stream. If it carries a value with text `t`: when `t`
spells YES, ON or TRUE in any letter case the cell is set to `true`, when it spells NO, OFF
or FALSE the cell is set to `false` (parsing goes on in both cases), and for every other
`t` the call returns `false`, no cell is written and the Bad-Value message is printed. -/
theorem flag_coercion (theapp : app) (file line rest : List Nat) (w : World)
    (buf : List Nat) (key val : Option Nat) (d : opt) (a : Nat)
    (hread : app_term_readline_from file = some (line, rest))
    (hline : (strchr COMMENT_START (line.getD 0 0) || strlen line == 0) = false)
    (hsplit : app_split_line line = some (buf, key, val))
    (hfind : find_key theapp buf key = some d)
    (hty : d.type = .OPT_FLAG) (ha : d.val = .cell a) :
    (val = none →
      ∃ w1, app_parse_opts_from theapp file w = app_parse_opts_from theapp rest w1 ∧
        w1.cells = (w.store a (.flag true)).cells) ∧
    (∀ v, val = some v →
      ((spells (cstr (buf.drop v)) (bytes "YES") = true ∨
          spells (cstr (buf.drop v)) (bytes "ON") = true ∨
          spells (cstr (buf.drop v)) (bytes "TRUE") = true) →
        ∃ w1, app_parse_opts_from theapp file w = app_parse_opts_from theapp rest w1 ∧
          w1.cells = (w.store a (.flag true)).cells) ∧
      ((spells (cstr (buf.drop v)) (bytes "NO") = true ∨
          spells (cstr (buf.drop v)) (bytes "OFF") = true ∨
          spells (cstr (buf.drop v)) (bytes "FALSE") = true) →
        ∃ w1, app_parse_opts_from theapp file w = app_parse_opts_from theapp rest w1 ∧
          w1.cells = (w.store a (.flag false)).cells) ∧
      (¬ (spells (cstr (buf.drop v)) (bytes "YES") = true ∨
          spells (cstr (buf.drop v)) (bytes "ON") = true ∨
          spells (cstr (buf.drop v)) (bytes "TRUE") = true ∨
          spells (cstr (buf.drop v)) (bytes "NO") = true ∨
          spells (cstr (buf.drop v)) (bytes "OFF") = true ∨
          spells (cstr (buf.drop v)) (bytes "FALSE") = true) →
        ∃ w1 kt, app_parse_opts_from theapp file w = .done (false, w1) ∧
          w1.cells = w.cells ∧
          w1.trace = w.trace ++ [.bad_value kt ((cstr (buf.drop v)).map toupper)])) := by
  have hcap : ∀ s : String, s ∈ ["YES", "ON", "TRUE", "NO", "OFF", "FALSE"] →
      ∀ x ∈ bytes s, 65 ≤ x ∧ x ≤ 90 := by decide
  have hT : ∀ v, is_true ((strtoupper buf v).drop v) = true ↔
      (spells (cstr (buf.drop v)) (bytes "YES") = true ∨
        spells (cstr (buf.drop v)) (bytes "ON") = true ∨
        spells (cstr (buf.drop v)) (bytes "TRUE") = true) := by
    intro v
    rw [is_true_iff, cstr_strtoupper,
      map_toupper_eq_iff _ _ (hcap "YES" (by decide)),
      map_toupper_eq_iff _ _ (hcap "ON" (by decide)),
      map_toupper_eq_iff _ _ (hcap "TRUE" (by decide))]
  have hF : ∀ v, is_false ((strtoupper buf v).drop v) = true ↔
      (spells (cstr (buf.drop v)) (bytes "NO") = true ∨
        spells (cstr (buf.drop v)) (bytes "OFF") = true ∨
        spells (cstr (buf.drop v)) (bytes "FALSE") = true) := by
    intro v
    rw [is_false_iff, cstr_strtoupper,
      map_toupper_eq_iff _ _ (hcap "NO" (by decide)),
      map_toupper_eq_iff _ _ (hcap "OFF" (by decide)),
      map_toupper_eq_iff _ _ (hcap "FALSE" (by decide))]
  have hdisj : ∀ v, is_true ((strtoupper buf v).drop v) = true →
      is_false ((strtoupper buf v).drop v) = true → False := by
    intro v h1 h2
    rw [is_true_iff] at h1
    rw [is_false_iff] at h2
    rcases h1 with h1 | h1 | h1 <;> rcases h2 with h2 | h2 | h2 <;>
      (rw [h1] at h2; revert h2; decide)
  rw [app_parse_opts_from_line theapp w hread]
  refine ⟨?_, ?_⟩
  · intro hv
    subst hv
    refine ⟨(w.store a (.flag true)).release buf, ?_, rfl⟩
    simp only [line_step, hline, hsplit, hfind, hty, ha, World.store_at, Bool.false_eq_true,
      if_false]
  · intro v hv
    subst hv
    refine ⟨?_, ?_, ?_⟩
    · intro h
      have ht := (hT v).mpr h
      refine ⟨(w.store a (.flag true)).release (strtoupper buf v), ?_, rfl⟩
      simp only [line_step, hline, hsplit, hfind, hty, ha, World.store_at, Bool.false_eq_true,
        if_false, ht, if_true]
    · intro h
      have hf := (hF v).mpr h
      have ht : is_true ((strtoupper buf v).drop v) = false := by
        cases hh : is_true ((strtoupper buf v).drop v) with
        | false => rfl
        | true => exact absurd hf (fun hf => hdisj v hh hf)
      refine ⟨(w.store a (.flag false)).release (strtoupper buf v), ?_, rfl⟩
      simp only [line_step, hline, hsplit, hfind, hty, ha, World.store_at, Bool.false_eq_true,
        if_false, ht, hf, if_true]
    · intro h
      have ht : is_true ((strtoupper buf v).drop v) = false := by
        cases hh : is_true ((strtoupper buf v).drop v) with
        | false => rfl
        | true =>
          exfalso; apply h
          rcases (hT v).mp hh with h1 | h1 | h1 <;> simp [h1]
      have hf : is_false ((strtoupper buf v).drop v) = false := by
        cases hh : is_false ((strtoupper buf v).drop v) with
        | false => rfl
        | true =>
          exfalso; apply h
          rcases (hF v).mp hh with h1 | h1 | h1 <;> simp [h1]
      refine ⟨(app_bad_value (text_at (strtoupper buf v) key)
        (cstr ((strtoupper buf v).drop v)) w).release (strtoupper buf v),
        text_at (strtoupper buf v) key, ?_, rfl, ?_⟩
      · simp only [line_step, hline, hsplit, hfind, hty, ha, Bool.false_eq_true,
          if_false, ht, hf]
      · rw [← cstr_strtoupper]
        rfl
/-! ## Well-formed configuration streams (C9) -/

theorem release_released (w : World) (buf : List Nat) :
    (w.release buf).released = w.released ++ [buf] := rfl

/-- The run of `app_parse_opts_from` over admitted lines, from any world. -/
theorem config_run (theapp : app) (eol : Bool) (ls : List ConfLine) :
    ∀ (w : World), (∀ l ∈ ls, l.admitted theapp) →
    ∃ w1, app_parse_opts_from theapp (config_stream eol ls) w = .done (true, w1) ∧
      w1.trace = w.trace ∧
      w1.released.length = w.released.length + ls.length ∧
      (∀ i, i < w.released.length → w1.released[i]? = w.released[i]?) ∧
      (∀ a, (∀ l ∈ ls, ∀ d, l.target theapp = some d → d.val ≠ .cell a) →
        w1.cells a = w.cells a) ∧
      (∀ n lead key gap1 gap2 value trail d a,
        ls[n]? = some (.setting lead key gap1 gap2 value trail) →
        lookup_key theapp key = some d → d.val = .cell a →
        (∀ m l1 d1, n < m → ls[m]? = some l1 → l1.target theapp = some d1 →
          d1.val ≠ .cell a) →
        (d.type = .OPT_INT → w1.cells a = .int (atoi value)) ∧
        (d.type = .OPT_STRING → ∃ off buf,
          w1.cells a = .str (.line (w.released.length + n) off) ∧
          w1.released[w.released.length + n]? = some buf ∧
          cstr (buf.drop off) = value)) := by
  induction ls with
  | nil =>
    intro w _
    refine ⟨w, rfl, rfl, rfl, fun _ _ => rfl, fun _ _ => rfl, ?_⟩
    intro n lead key gap1 gap2 value trail d a hn
    simp at hn
  | cons l rest ih =>
    intro w hall
    have hl := hall l (List.mem_cons_self _ _)
    have hrest : ∀ l1 ∈ rest, l1.admitted theapp :=
      fun l1 h1 => hall l1 (List.mem_cons_of_mem _ h1)
    obtain ⟨hwf, hlen, hkey⟩ := hl
    obtain ⟨hnl, hne⟩ := well_formed_text hwf
    obtain ⟨term, hterm, hread⟩ := readline_config_stream eol l rest hnl hne hlen
    rw [app_parse_opts_from_line theapp w hread]
    cases l with
    | comment t =>
      rw [show (ConfLine.comment t).text = t from rfl, line_step_comment theapp w t term hwf]
      obtain ⟨w1, hrun, htr, hrl, hpre, hun, hset⟩ := ih (w.release (t ++ term ++ [0])) hrest
      refine ⟨w1, hrun, htr, ?_, ?_, ?_, ?_⟩
      · rw [hrl, release_released]; simp; omega
      · intro i hi
        rw [hpre i (by rw [release_released]; simp; omega), release_released,
          List.getElem?_append_left hi]
      · intro a ha
        rw [hun a (fun l1 h1 d hd => ha l1 (List.mem_cons_of_mem _ h1) d hd)]
        rfl
      · intro n lead key gap1 gap2 value trail d a hn hd ha hlater
        cases n with
        | zero => simp at hn
        | succ m =>
          simp only [List.getElem?_cons_succ] at hn
          have h := hset m lead key gap1 gap2 value trail d a hn hd ha
            (fun m1 l1 d1 hm h1 ht => hlater (m1 + 1) l1 d1 (by omega)
              (by simpa using h1) ht)
          have e : (w.release (t ++ term ++ [0])).released.length + m =
              w.released.length + (m + 1) := by
            rw [release_released]; simp; omega
          rw [e] at h
          exact h
    | setting lead0 key0 gap10 gap20 value0 trail0 =>
      obtain ⟨d0, a0, hd0, hty0, ha0⟩ := hkey
      obtain ⟨buf, voff, hval, hstep⟩ := line_step_setting theapp w lead0 key0 gap10 gap20
        value0 trail0 term d0 a0 hwf hterm hd0 hty0 ha0
      rw [hstep]
      obtain ⟨w1, hrun, htr, hrl, hpre, hun, hset⟩ := ih
        ((w.store a0 (if d0.type = .OPT_INT then .int (atoi value0)
          else .str (.line w.released.length voff))).release buf) hrest
      refine ⟨w1, hrun, htr, ?_, ?_, ?_, ?_⟩
      · rw [hrl, release_released]
        simp [World.store]; omega
      · intro i hi
        rw [hpre i (by rw [release_released]; simp [World.store]; omega), release_released]
        simp only [World.store]
        rw [List.getElem?_append_left hi]
      · intro a ha
        rw [hun a (fun l1 h1 d hd => ha l1 (List.mem_cons_of_mem _ h1) d hd)]
        have hne0 : a ≠ a0 := by
          intro e
          exact ha _ (List.mem_cons_self _ _) d0 hd0 (by rw [ha0, e])
        simp [World.release, World.store, hne0]
      · intro n lead key gap1 gap2 value trail d a hn hd ha hlater
        cases n with
        | zero =>
          simp only [List.getElem?_cons_zero, Option.some.injEq, ConfLine.setting.injEq] at hn
          obtain ⟨-, rfl, -, -, rfl, -⟩ := hn
          rw [hd0] at hd
          simp only [Option.some.injEq] at hd
          subst hd
          rw [ha0] at ha
          simp only [binding.cell.injEq] at ha
          subst ha
          have hkeep := hun a0 (fun l1 h1 d1 hd1 => by
            obtain ⟨m, hm, hget⟩ := List.getElem_of_mem h1
            exact hlater (m + 1) l1 d1 (by omega)
              (by simp only [List.getElem?_cons_succ]; rw [List.getElem?_eq_getElem hm, hget])
              hd1)
          refine ⟨fun hty => ?_, fun hty => ⟨voff, buf, ?_, ?_, hval⟩⟩
          · rw [hkeep]
            simp [World.release, World.store, hty]
          · rw [hkeep]
            simp [World.release, World.store, hty]
          · rw [Nat.add_zero,
              hpre w.released.length (by rw [release_released]; simp [World.store]),
              release_released]
            simp [World.store]
        | succ m =>
          simp only [List.getElem?_cons_succ] at hn
          have h := hset m lead key gap1 gap2 value trail d a hn hd ha
            (fun m1 l1 d1 hm h1 ht => hlater (m1 + 1) l1 d1 (by omega)
              (by simpa using h1) ht)
          have e : ((w.store a0 (if d0.type = .OPT_INT then .int (atoi value0)
              else .str (.line w.released.length voff))).release buf).released.length + m =
              w.released.length + (m + 1) := by
            rw [release_released]; simp [World.store]; omega
          rw [e] at h
          exact h
/-! ## A line that holds a key only -/

theorem getD_all_zero (l : List Nat) (h : ∀ x ∈ l, x = 0) (i : Nat) : l.getD i 0 = 0 := by
  induction l generalizing i with
  | nil => rfl
  | cons x l ih =>
    cases i with
    | zero => simpa using h x (List.mem_cons_self _ _)
    | succ i => simpa using ih (fun y hy => h y (List.mem_cons_of_mem _ hy)) i

theorem getD_drop (l : List Nat) (n i : Nat) : (l.drop n).getD i 0 = l.getD (n + i) 0 := by
  simp [List.getD_eq_getElem?_getD, List.getElem?_drop]

theorem getD_append_right_len (a l : List Nat) (i : Nat) :
    (a ++ l).getD (a.length + i) 0 = l.getD i 0 := by
  induction a with
  | nil => simp
  | cons x a ih =>
    have : (x :: a).length + i = (a.length + i) + 1 := by simp; omega
    rw [List.cons_append, this, List.getD_cons_succ]
    exact ih

/-- `app_split_line` on a line without `=`: the key is trimmed and there is no value. -/
theorem app_split_line_key_only (lead key trail : List Nat)
    (h1 : ∀ c ∈ lead, isspace c = true) (h2 : ∀ c ∈ trail, isspace c = true)
    (hk : is_word key = true) :
    ∃ buf, app_split_line (lead ++ key ++ trail ++ [0]) = some (buf, some 0, none) ∧
      cstr buf = key := by
  obtain ⟨hkne, hkc, hkf, hkl⟩ := is_word_spec hk
  have ht1 : ∀ c ∈ lead ++ key ++ trail, c ≠ 0 ∧ c ≠ 61 := by
    intro c hc
    simp only [List.mem_append] at hc
    rcases hc with (hc | hc) | hc
    · exact ⟨isspace_ne_zero (h1 c hc), isspace_ne_sep (h1 c hc)⟩
    · exact ⟨(hkc c hc).1, (hkc c hc).2.2⟩
    · exact ⟨isspace_ne_zero (h2 c hc), isspace_ne_sep (h2 c hc)⟩
  have hs1 := strtok_r_end [] (lead ++ key ++ trail) [] (by simp [hkne]) ht1
  have htr := trim_eq [] lead key trail [] h1 h2 hkne (fun c hc => (hkc c hc).1) hkf hkl
  simp only [List.length_nil, Nat.zero_add, List.nil_append, List.append_nil] at hs1 htr
  -- the byte the saved pointer stands on
  have hz : (key ++ 0 :: (lead ++ key ++ 0 :: List.replicate trail.length 0).drop
      (key.length + 1)).getD (lead ++ key ++ trail).length 0 = 0 := by
    rcases Nat.eq_zero_or_pos (lead.length + trail.length) with h0 | hpos
    · have e : (lead ++ key ++ trail).length = key.length + 0 := by simp; omega
      rw [e, getD_append_right_len]
      rfl
    · have e : (lead ++ key ++ trail).length =
          key.length + ((lead.length + trail.length - 1) + 1) := by simp; omega
      rw [e, getD_append_right_len, List.getD_cons_succ, getD_drop]
      have e2 : key.length + 1 + (lead.length + trail.length - 1) =
          (lead ++ key).length + trail.length := by simp; omega
      rw [e2, getD_append_right_len]
      apply getD_all_zero
      intro x hx
      simp only [List.mem_cons, List.mem_replicate] at hx
      rcases hx with hx | hx
      · exact hx
      · exact hx.2
  refine ⟨key ++ 0 :: (lead ++ key ++ 0 :: List.replicate trail.length 0).drop
    (key.length + 1), ?_, cstr_append_zero _ _ (fun c hc => (hkc c hc).1)⟩
  unfold app_split_line
  have hb : lead ++ key ++ trail ++ [0] = lead ++ key ++ trail ++ 0 :: [] := rfl
  rw [hb]
  simp only [hs1, trim_opt]
  have hb2 : lead ++ key ++ trail ++ [0] = lead ++ key ++ trail ++ 0 :: [] := rfl
  rw [htr]
  simp only [strtok_r, hz, if_true, trim_opt]

/-- A line that holds only the key of an option that takes a value: Argument-Required is
reported and the call fails. -/
theorem line_step_key_only (theapp : app) (w : World) (lead key trail : List Nat) (d : opt)
    (h1 : ∀ c ∈ lead, isspace c = true) (h2 : ∀ c ∈ trail, isspace c = true)
    (hk : is_word key = true)
    (hc : (lead ++ key).headD 0 ≠ 35 ∧ (lead ++ key).headD 0 ≠ 59)
    (hd : lookup_key theapp key = some d) (hty : d.type.takes_value = true) :
    ∃ buf, line_step theapp (lead ++ key ++ trail ++ [0]) w =
      .ret false ((app_arg_required theapp key w).release buf) := by
  obtain ⟨buf, hsplit, hkey⟩ := app_split_line_key_only lead key trail h1 h2 hk
  obtain ⟨hkne, hkc, hkf, -⟩ := is_word_spec hk
  have hhead : (lead ++ key ++ trail ++ [0]).getD 0 0 = (lead ++ key).headD 0 := by
    cases lead with
    | nil =>
      obtain ⟨c, k1, rfl⟩ := List.exists_cons_of_ne_nil hkne
      simp
    | cons c l1 => simp
  have hh0 : (lead ++ key).headD 0 ≠ 0 := by
    cases lead with
    | nil =>
      obtain ⟨c, k1, rfl⟩ := List.exists_cons_of_ne_nil hkne
      simpa using (hkc c (List.mem_cons_self _ _)).1
    | cons c l1 =>
      simpa using isspace_ne_zero (h1 c (List.mem_cons_self _ _))
  have hnc : (strchr COMMENT_START ((lead ++ key ++ trail ++ [0]).getD 0 0) ||
      strlen (lead ++ key ++ trail ++ [0]) == 0) = false := by
    have hl := strlen_pos_of_head (hhead ▸ hh0)
    rw [strchr_comment, hhead, Bool.or_eq_false_iff, Bool.or_eq_false_iff,
      Bool.or_eq_false_iff]
    exact ⟨⟨⟨beq_false_of_ne hc.1, beq_false_of_ne hc.2⟩, beq_false_of_ne hh0⟩,
      beq_false_of_ne hl⟩
  have hfind : find_key theapp buf (some 0) = some d := by
    rw [find_key_eq_lookup, List.drop_zero, hkey, hd]
  have htext : text_at buf (some 0) = key := by
    simp [text_at, hkey]
  refine ⟨buf, ?_⟩
  simp only [line_step, hnc, hsplit, hfind, Bool.false_eq_true, if_false, htext]
  cases h : d.type <;> simp_all [opt_type.takes_value]

/-! ## A line longer than the line buffer -/

theorem fgets_chars_full (a b : List Nat) (ha : ∀ c ∈ a, c ≠ 10) :
    fgets_chars a.length (a ++ b) = (a, b) := by
  induction a with
  | nil => simp [fgets_chars]
  | cons c a ih =>
    have hc : c ≠ 10 := ha c (List.mem_cons_self _ _)
    have := ih (fun d hd => ha d (List.mem_cons_of_mem _ hd))
    simp [fgets_chars, hc, this]

/-- The setting `name`, `n + 1` blanks, `= Alice`, when `name` and `n` blanks fill the
line buffer: the call returns `false`. -/
theorem long_setting_rejected (n : Nat) (hn : 4 + n = LINESIZE - 1) :
    (ConfLine.setting [] (bytes "name") (List.replicate (n + 1) 32) [32] (bytes "Alice")
        []).well_formed = true ∧
    (app_parse_opts_from demo_app
      (config_stream true [ConfLine.setting [] (bytes "name") (List.replicate (n + 1) 32) [32]
        (bytes "Alice") []]) blank_world).returned = some false := by
  have hsp : ∀ c ∈ List.replicate n 32, isspace c = true := by
    intro c hc
    rw [List.eq_of_mem_replicate hc]
    decide
  constructor
  · have hb : (List.replicate (n + 1) 32).all is_blank = true := by
      rw [List.all_eq_true]
      intro c hc
      rw [List.eq_of_mem_replicate hc]
      decide
    have h1 : is_word (bytes "name") = true := by decide
    have h2 : is_word (bytes "Alice") = true := by decide
    have h3 : (([] : List Nat) ++ bytes "name").headD 0 = 110 := by decide
    simp only [ConfLine.well_formed, hb, h1, h2, h3]
    decide
  · have hS : config_stream true [ConfLine.setting [] (bytes "name")
        (List.replicate (n + 1) 32) [32] (bytes "Alice") []] =
        (bytes "name" ++ List.replicate n 32) ++
          (32 :: 61 :: 32 :: (bytes "Alice" ++ [10])) := by
      simp only [config_stream, ConfLine.text, List.replicate_succ' n 32]
      simp
    have h4 : (bytes "name").length = 4 := by decide
    have hlen : (bytes "name" ++ List.replicate n 32).length = LINESIZE - 1 := by
      rw [List.length_append, List.length_replicate, h4, hn]
    have hnm : ∀ c ∈ bytes "name", c ≠ 10 := by decide
    have hnl : ∀ c ∈ bytes "name" ++ List.replicate n 32, c ≠ 10 := by
      intro c hc
      rcases List.mem_append.mp hc with h | h
      · exact hnm c h
      · rw [List.eq_of_mem_replicate h]; decide
    have hne : bytes "name" ++ List.replicate n 32 ++
        (32 :: 61 :: 32 :: (bytes "Alice" ++ [10])) ≠ [] := by
      intro e
      have := congrArg List.length e
      simp at this
    have hread : app_term_readline_from (config_stream true [ConfLine.setting []
        (bytes "name") (List.replicate (n + 1) 32) [32] (bytes "Alice") []]) =
        some (bytes "name" ++ List.replicate n 32 ++ [0],
          32 :: 61 :: 32 :: (bytes "Alice" ++ [10])) := by
      unfold app_term_readline_from
      rw [hS, fgets_of_ne_nil _ _ hne, ← hlen, fgets_chars_full _ _ hnl]
    obtain ⟨buf, hstep⟩ := line_step_key_only demo_app blank_world [] (bytes "name")
      (List.replicate n 32) demo_name (by simp) hsp (by decide) (by decide) (by decide) rfl
    rw [app_parse_opts_from_line demo_app blank_world hread]
    rw [List.nil_append] at hstep
    rw [hstep]
    rfl

/-- A line longer than the line buffer: the line `name`, 1020 blanks, `= Alice` is a
setting of the form `key = value` for the registered String option `name`, yet
`app_parse_opts_from` returns `false` on it: `fgets` hands over its first 1023 characters
only, which hold no `=`. -/
theorem long_line_cut :
    long_line.well_formed = true ∧
    lookup_key demo_app (bytes "name") = some demo_name ∧
    demo_name.type = .OPT_STRING ∧
    (app_parse_opts_from demo_app (config_stream true [long_line]) blank_world).returned =
      some false :=
  ⟨(long_setting_rejected 1019 (by decide)).1, by decide, rfl,
    (long_setting_rejected 1019 (by decide)).2⟩
/-- What `app_parse_opts_from` does on a stream made of comment lines and of settings
`key = value` (any white space before the key, around the `=` and after the value), every
line at most 1022 characters long, whose keys are looked up to Integer or String options
bound to cells: it returns `true`. For the last line that names an option bound to a given
cell: if the option is an Integer, the cell holds the `int` that `atoi` returns for the
trimmed value; if it is a String, the cell holds a pointer into the buffer of that line,
to the place where the trimmed value text stood when the line was processed, and that
buffer is among the released ones. -/
theorem config_well_formed (theapp : app) (eol : Bool) (ls : List ConfLine) (w : World)
    (hall : ∀ l ∈ ls, l.admitted theapp) :
    ∃ w1, app_parse_opts_from theapp (config_stream eol ls) w = .done (true, w1) ∧
      ∀ n lead key gap1 gap2 value trail d a,
        ls[n]? = some (.setting lead key gap1 gap2 value trail) →
        lookup_key theapp key = some d → d.val = .cell a →
        (∀ m l1 d1, n < m → ls[m]? = some l1 → l1.target theapp = some d1 →
          d1.val ≠ .cell a) →
        (d.type = .OPT_INT → w1.cells a = .int (atoi value)) ∧
        (d.type = .OPT_STRING → ∃ off buf,
          w1.cells a = .str (.line (w.released.length + n) off) ∧
          w1.released[w.released.length + n]? = some buf ∧
          cstr (buf.drop off) = value) := by
  obtain ⟨w1, hrun, -, -, -, -, hset⟩ := config_run theapp eol ls w hall
  exact ⟨w1, hrun, hset⟩

theorem demo_lines_admitted : ∀ l ∈ demo_lines, l.admitted demo_app := by
  intro l hl
  simp only [demo_lines, List.mem_cons, List.mem_singleton, List.not_mem_nil, or_false] at hl
  rcases hl with rfl | rfl | rfl
  · exact ⟨by decide, by decide, trivial⟩
  · exact ⟨by decide, by decide, demo_name, 2, by decide, Or.inr rfl, rfl⟩
  · exact ⟨by decide, by decide, demo_count, 1, by decide, Or.inl rfl, rfl⟩

/-- The same at the stream `# comment`, `name = Alice`, `count=3`: the call returns
`true`, the integer cell holds 3, and the string cell holds a pointer to offset 6 of the
buffer of the second line, where `Alice` stood. -/
theorem config_well_formed_demo :
    config_stream true demo_lines = bytes "# comment\nname = Alice\ncount=3\n" ∧
    (∃ w1, app_parse_opts_from demo_app (config_stream true demo_lines) blank_world =
        .done (true, w1) ∧
      ∀ n lead key gap1 gap2 value trail d a,
        demo_lines[n]? = some (.setting lead key gap1 gap2 value trail) →
        lookup_key demo_app key = some d → d.val = .cell a →
        (∀ m l1 d1, n < m → demo_lines[m]? = some l1 → l1.target demo_app = some d1 →
          d1.val ≠ .cell a) →
        (d.type = .OPT_INT → w1.cells a = .int (atoi value)) ∧
        (d.type = .OPT_STRING → ∃ off buf,
          w1.cells a = .str (.line (blank_world.released.length + n) off) ∧
          w1.released[blank_world.released.length + n]? = some buf ∧
          cstr (buf.drop off) = value)) ∧
    (∃ w1, app_parse_opts_from demo_app (bytes "# comment\nname = Alice\ncount=3\n")
        blank_world = .done (true, w1) ∧
      w1.cells 1 = .int 3 ∧ w1.cells 2 = .str (.line 1 6) ∧
      (w1.released[1]?).map (fun buf => cstr (buf.drop 6)) = some (bytes "Alice")) :=
  ⟨by decide, config_well_formed demo_app true demo_lines blank_world demo_lines_admitted,
    ⟨_, rfl, rfl, rfl, rfl⟩⟩

/-- The line `verbose = On`: the key is resolved to the Flag option `-v`; the value
spells ON, so the flag cell is set to `true` and parsing goes on. Also: `verbose` alone and
`verbose = TRUE` set the flag, `verbose = oFf` clears it, and `verbose = maybe` makes the
call return `false` with the Bad-Value message. -/
theorem flag_coercion_demo :
    (∃ w1, app_parse_opts_from demo_app (bytes "verbose = On\n") blank_world =
        app_parse_opts_from demo_app [] w1 ∧
      w1.cells = (blank_world.store 4 (.flag true)).cells) ∧
    (app_parse_opts_from demo_app (bytes "verbose\n") blank_world).returned = some true ∧
    (∃ w1, app_parse_opts_from demo_app (bytes "verbose\n") blank_world = .done (true, w1) ∧
      w1.cells 4 = .flag true) ∧
    (∃ w1, app_parse_opts_from demo_app (bytes "verbose = TRUE\n") blank_world =
        .done (true, w1) ∧ w1.cells 4 = .flag true) ∧
    (∃ w1, app_parse_opts_from demo_app (bytes "verbose = oFf\n")
        (blank_world.store 4 (.flag true)) = .done (true, w1) ∧ w1.cells 4 = .flag false) ∧
    (∃ w1, app_parse_opts_from demo_app (bytes "verbose = maybe\n") blank_world =
        .done (false, w1) ∧ w1.cells 4 = .flag false ∧
      w1.trace = [.bad_value (bytes "verbose") (bytes "MAYBE")]) :=
  ⟨((flag_coercion demo_app (bytes "verbose = On\n") (lit "verbose = On\n") []
      blank_world [118, 101, 114, 98, 111, 115, 101, 0, 0, 79, 110, 0, 0, 0] (some 0) (some 9)
      demo_verbose 4 (by decide) (by decide) (by decide) (by decide) rfl rfl).2 9 rfl).1
      (Or.inr (Or.inl (by decide))),
    by decide, ⟨_, rfl, rfl⟩, ⟨_, rfl, rfl⟩, ⟨_, rfl, rfl⟩, ⟨_, rfl, rfl, rfl⟩⟩
/-! ## The statements at sample inputs -/

theorem Reach.next_cases {theapp : app} {argc i k : Nat} {w wk : World} (i1 : Nat) {w1 : World}
    (h : Reach theapp argc i w k wk) (hstep : parse_step theapp argc i w = .go i1 w1) :
    (k = i ∧ wk = w) ∨ Reach theapp argc i1 w1 k wk := by
  cases h with
  | here => exact Or.inl ⟨rfl, rfl⟩
  | next _ hstep' hrest =>
    rw [hstep] at hstep'
    simp only [Next.go.injEq] at hstep'
    obtain ⟨e1, e2⟩ := hstep'
    subst e1; subst e2
    exact Or.inr hrest

theorem demo_app_registry :
    demo_app.registry = [demo_count, demo_name, demo_password, demo_verbose] := rfl

/-- C3 at `prog -n 5 -v -n 7`: the call returns `true`, the integer cell holds 7 (the value
of the last `-n`), the flag cell holds `true`, and the cells of `-s` and `-p`, which do
not occur, still hold their initial contents. Also, at `prog -n 2147483648`: the integer
cell holds `-2147483648`, the `int` that `atoi` returns. -/
theorem C3_last_occurrence_wins_witness :
    (∃ app1 w1, app_parse_opts demo_app 6 (some demo_argv) blank_world =
        .done (true, app1, w1) ∧
      (∀ k d a, OptionAt demo_app 6 demo_argv blank_world k d → d.val = .cell a →
        (∀ k', k < k' → ¬ OptionAt demo_app 6 demo_argv blank_world k' d) →
        holds_value w1 a d.type (demo_argv.getD (k + 1) [])) ∧
      (∀ d a, d ∈ demo_app.registry → d.val = .cell a →
        (∀ k, ¬ OptionAt demo_app 6 demo_argv blank_world k d) →
        w1.cells a = blank_world.cells a)) ∧
    (∃ app1 w1, app_parse_opts demo_app 6 (some demo_argv) blank_world =
        .done (true, app1, w1) ∧
      w1.cells 1 = .int 7 ∧ w1.cells 4 = .flag true ∧
      w1.cells 2 = .flag false ∧ w1.cells 3 = .flag false) ∧
    (∃ app1 w1, app_parse_opts demo_app 3 (some [lit "prog", lit "-n", lit "2147483648"])
        blank_world = .done (true, app1, w1) ∧
      w1.cells 1 = .int (-2147483648)) := by
  refine ⟨C3_last_occurrence_wins demo_app 6 demo_argv blank_world rfl (by decide) ?_ ?_ ?_,
    ⟨_, _, rfl, rfl, rfl, rfl, rfl⟩, ⟨_, _, rfl, rfl⟩⟩
  · intro d hd
    rw [demo_app_registry] at hd
    simp only [List.mem_cons, List.mem_singleton, List.not_mem_nil, or_false] at hd
    rcases hd with rfl | rfl | rfl | rfl <;> exact ⟨by decide, _, rfl⟩
  · rw [demo_app_registry]; decide
  · intro k wk tok hscan hk htok hdash
    rcases Reach.next_cases 3 hscan (by rfl) with ⟨rfl, -⟩ | h3
    · simp only [demo_argv, List.getElem?_cons_succ, List.getElem?_cons_zero,
        Option.some.injEq] at htok
      subst htok
      exact ⟨demo_count, by decide, fun _ => by decide⟩
    rcases Reach.next_cases 4 h3 (by rfl) with ⟨rfl, -⟩ | h4
    · simp only [demo_argv, List.getElem?_cons_succ, List.getElem?_cons_zero,
        Option.some.injEq] at htok
      subst htok
      exact ⟨demo_verbose, by decide, fun h => absurd rfl h⟩
    rcases Reach.next_cases 6 h4 (by rfl) with ⟨rfl, -⟩ | h6
    · simp only [demo_argv, List.getElem?_cons_succ, List.getElem?_cons_zero,
        Option.some.injEq] at htok
      subst htok
      exact ⟨demo_count, by decide, fun _ => by decide⟩
    have := h6.le
    omega

/-- C4 at `prog -v -n`: the scan stands on the last token `-n`; the call returns `false`,
the integer cell is as before, and the message and the help listing are printed. -/
theorem C4_missing_value_at_end_witness :
    ∃ app1 w1,
      app_parse_opts demo_app 3 (some [lit "prog", lit "-v", lit "-n"]) blank_world =
        .done (false, app1, w1) ∧
      w1.cells 1 = .flag false ∧ w1.cells 4 = .flag true ∧
      w1.trace = [.requires_argument (bytes "-n"), .help_listing] := by
  obtain ⟨app1, w1, hrun, hc, hinit, ht⟩ := C4_missing_value_at_end demo_app 3
    [lit "prog", lit "-v", lit "-n"] blank_world _ (lit "-n") demo_count
    (Reach.next (by decide) (by rfl) (Reach.here _ _)) rfl (by decide) (by decide) rfl
  refine ⟨app1, w1, hrun, ?_, ?_, ?_⟩
  · rw [hc]; rfl
  · rw [hc]; rfl
  · rw [ht]; rfl

/-- C5 at `prog -n 5 -z -v`: the scan stands on the unknown `-z` at index 3; the call
returns `false`, the integer cell keeps the 5 stored before, the flag of the later `-v` is
not set, and parsing only `prog -n 5` succeeds with the same cells. -/
theorem C5_abort_without_rollback_witness :
    ∃ app1 w1 wp,
      app_parse_opts demo_app 5
        (some [lit "prog", lit "-n", lit "5", lit "-z", lit "-v"]) blank_world =
          .done (false, app1, w1) ∧
      w1.cells 1 = .int 5 ∧ w1.cells 4 = .flag false ∧
      app_parse_opts demo_app 3 (some [lit "prog", lit "-n", lit "5"]) blank_world =
        .done (true, app1, wp) ∧
      wp.cells = w1.cells := by
  obtain ⟨app1, w1, wp, hrun, hc, hpre, hpc⟩ := C5_abort_without_rollback demo_app 5
    [lit "prog", lit "-n", lit "5", lit "-z", lit "-v"] blank_world _ 3 (lit "-z")
    (Reach.next (by decide) (by rfl) (Reach.here _ _)) (by decide) rfl (by decide)
    (Or.inl (by decide))
  refine ⟨app1, w1, wp, hrun, ?_, ?_, hpre, hpc⟩
  · rw [hc]; rfl
  · rw [hc]; rfl

/-- C6 (as amended) at `prog -v -z` with the host handler 7 installed: the call returns
`false` and the handler is called once, with `-z`. -/
theorem C6_unknown_option_handler_witness :
    ∃ app1 w1,
      app_parse_opts (app_opt_on_error demo_app (some (.host 7))) 3
        (some [lit "prog", lit "-v", lit "-z"]) blank_world = .done (false, app1, w1) ∧
      w1.cells 4 = .flag true ∧
      w1.trace = [.host_call 7 (bytes "-z")] := by
  obtain ⟨app1, w1, hrun, hc, ht⟩ := C6_unknown_option_handler demo_app (some (.host 7)) 3
    [lit "prog", lit "-v", lit "-z"] blank_world _ 2 (lit "-z")
    (Reach.next (by decide) (by rfl) (Reach.here _ _)) (by decide) rfl (by decide)
    (by decide)
  refine ⟨app1, w1, hrun, ?_, ?_⟩
  · rw [hc]; rfl
  · rw [ht]; rfl

/-- C7 at `prog -v -p secret123`: the call returns `true`; the cell of `-p` holds a pointer
to a block of its own that reads `secret123`; the string at index 3 is ten NUL bytes; the
other strings are unaltered. -/
theorem C7_secret_value_wiped_witness :
    ∃ app1 w1,
      app_parse_opts demo_app 4 (some demo_argv_secret) blank_world =
        .done (true, app1, w1) ∧
      w1.cells 3 = .str (.dup (bytes "secret123")) ∧
      w1.text (.dup (bytes "secret123")) = some (bytes "secret123") ∧
      w1.argv[3]? = some (List.replicate 10 0) ∧
      (w1.argv[3]?).map cstr = some [] ∧
      w1.argv[0]? = some (lit "prog") ∧ w1.argv[1]? = some (lit "-v") ∧
      w1.argv[2]? = some (lit "-p") := by
  have hrun : app_parse_opts demo_app 4 (some demo_argv_secret) blank_world =
      .done (true, _, _) := rfl
  have hocc : OptionAt demo_app 4 demo_argv_secret blank_world 2 demo_password :=
    ⟨_, lit "-p", Reach.next (by decide) (by rfl) (Reach.here _ _), by decide, rfl,
      by decide, by decide⟩
  have hother : ∀ i e, OptionAt demo_app 4 demo_argv_secret blank_world i e →
      e.type = .OPT_PASSWD → i = 2 := by
    intro i e ⟨wi, tok, hscan, hi, htok, hdash, hfind⟩ hty
    rcases Reach.next_cases 2 hscan (by rfl) with ⟨rfl, -⟩ | h2
    · simp only [demo_argv_secret, List.getElem?_cons_succ, List.getElem?_cons_zero,
        Option.some.injEq] at htok
      subst htok
      have : e = demo_verbose := by
        have h : demo_app.registry.find? (app_compare_opt (lit "-v")) = some demo_verbose := by
          decide
        rw [h] at hfind
        exact (Option.some.inj hfind).symm
      subst this
      exact absurd hty (by decide)
    rcases Reach.next_cases 4 h2 (by rfl) with ⟨rfl, -⟩ | h4
    · rfl
    · have := h4.le
      omega
  obtain ⟨h1, ⟨h2, h3⟩, h4⟩ := C7_secret_value_wiped demo_app _ 4 demo_argv_secret blank_world _
    2 demo_password (lit "secret123") 3 hrun hocc rfl rfl rfl
  have hlater : ∀ j e, OptionAt demo_app 4 demo_argv_secret blank_world j e → 2 < j →
      e.val ≠ .cell 3 := by
    intro j e ⟨wi, tok, hscan, hi, htok, hdash, hfind⟩ hj
    rcases Reach.next_cases 2 hscan (by rfl) with ⟨rfl, -⟩ | h2'
    · omega
    rcases Reach.next_cases 4 h2' (by rfl) with ⟨rfl, -⟩ | h4'
    · omega
    · have := h4'.le
      omega
  refine ⟨_, _, hrun, (h1 hlater).1, (h1 hlater).2, ?_, h3, ?_, ?_, ?_⟩
  · rw [h2]; rfl
  · exact h4 0 (fun i e ho hty => by have := hother i e ho hty; omega)
  · exact h4 1 (fun i e ho hty => by have := hother i e ho hty; omega)
  · exact h4 2 (fun i e ho hty => by have := hother i e ho hty; omega)

/-- C8 at `prog -s -v`: the String option `-s` takes `-v` as its value; the scan goes from
index 1 to index 3 and never stands on index 2, the string cell points at `-v`, and the
flag cell of `-v` is not set. -/
theorem C8_token_consumption_witness :
    (∃ v a w1, [lit "prog", lit "-s", lit "-v"][2]? = some v ∧ demo_name.val = .cell a ∧
      ScanAt demo_app 3 [lit "prog", lit "-s", lit "-v"] blank_world 3 w1 ∧
      w1.cells a = stored_value demo_name.type 2 v ∧
      ¬ ∃ w2, ScanAt demo_app 3 [lit "prog", lit "-s", lit "-v"] blank_world 2 w2) ∧
    (∃ app1 w1,
      app_parse_opts demo_app 3 (some [lit "prog", lit "-s", lit "-v"]) blank_world =
        .done (true, app1, w1) ∧
      w1.cells 2 = .str (.argv 2) ∧ w1.text (.argv 2) = some (bytes "-v") ∧
      w1.cells 4 = .flag false) :=
  ⟨(C8_token_consumption demo_app 3 [lit "prog", lit "-s", lit "-v"] blank_world _ 1 (lit "-s")
      demo_name rfl (Reach.here _ _) (by decide) rfl (by decide) (by decide) (by decide)).2
      rfl (by decide),
    ⟨_, _, rfl, rfl, rfl, rfl⟩⟩
/-! ## The loop of `app_parse_opts_from`: reachable states -/

theorem LineReach.run {theapp : app} {file file1 : List Nat} {w w1 : World}
    (h : LineReach theapp file w file1 w1) :
    app_parse_opts_from theapp file w = app_parse_opts_from theapp file1 w1 := by
  induction h with
  | here => rfl
  | next hread hstep _ ih =>
    rw [app_parse_opts_from_line theapp _ hread, hstep]
    exact ih

theorem LineReach.chain {theapp : app} {file file1 file2 : List Nat} {w w1 w2 : World}
    (h1 : LineReach theapp file w file1 w1) (h2 : LineReach theapp file1 w1 file2 w2) :
    LineReach theapp file w file2 w2 := by
  induction h1 with
  | here => exact h2
  | next hread hstep _ ih => exact LineReach.next hread hstep (ih h2)

/-- A line whose key is found in no descriptor: the handler, if any, is called with the
key and the call fails. -/
theorem line_step_unknown (theapp : app) (w : World) {line buf : List Nat}
    {key val : Option Nat}
    (hline : (strchr COMMENT_START (line.getD 0 0) || strlen line == 0) = false)
    (hsplit : app_split_line line = some (buf, key, val))
    (hfind : find_key theapp buf key = none) :
    line_step theapp line w = .ret false ((match theapp.on_error with
      | some h => h.call (text_at buf key) w
      | none => w).release buf) := by
  simp only [line_step, hline, hsplit, hfind, Bool.false_eq_true, if_false]

theorem lookup_key_eq_none {theapp : app} {key : List Nat}
    (h : ∀ e ∈ theapp.registry, ∀ ln, e.long_name = some ln → cstr ln ≠ key) :
    lookup_key theapp key = none := by
  unfold lookup_key
  rw [List.find?_eq_none]
  intro e he
  cases hl : e.long_name with
  | none => simp
  | some ln => simpa using h e he ln hl

/-- C11: when the loop of `app_parse_opts_from` reads a line that is no comment and whose
key equals the long name of no descriptor, the call returns `false`; the cells are those
left by the lines before; the installed error handler is called with the key (nothing is
called when none is installed); and the result is the same whatever follows the line in
the stream, so no later line is processed. -/
theorem C11_unknown_key (theapp : app) (file0 file line rest : List Nat) (w0 w : World)
    (buf : List Nat) (k : Nat) (val : Option Nat)
    (hreach : LineReach theapp file0 w0 file w)
    (hread : app_term_readline_from file = some (line, rest))
    (hline : (strchr COMMENT_START (line.getD 0 0) || strlen line == 0) = false)
    (hsplit : app_split_line line = some (buf, some k, val))
    (hkey : ∀ e ∈ theapp.registry, ∀ ln, e.long_name = some ln →
      cstr ln ≠ cstr (buf.drop k)) :
    ∃ w1, app_parse_opts_from theapp file0 w0 = .done (false, w1) ∧
      w1.cells = w.cells ∧
      w1.trace = w.trace ++
        (match theapp.on_error with
          | none => []
          | some .auto_help => [.help_listing]
          | some .default_error_handler =>
            [.invalid_option (cstr (buf.drop k)), .help_listing]
          | some (.host id) => [.host_call id (cstr (buf.drop k))]) ∧
      (∀ file1 rest1, app_term_readline_from file1 = some (line, rest1) →
        app_parse_opts_from theapp file1 w = .done (false, w1)) := by
  have hfind : find_key theapp buf (some k) = none := by
    rw [find_key_eq_lookup]; exact lookup_key_eq_none hkey
  have hstep := line_step_unknown theapp w hline hsplit hfind
  refine ⟨(match theapp.on_error with
      | some h => h.call (text_at buf (some k)) w
      | none => w).release buf, ?_, ?_, ?_, ?_⟩
  · rw [hreach.run, app_parse_opts_from_line theapp w hread, hstep]
  · cases theapp.on_error with
    | none => rfl
    | some h => exact call_cells _ _ _
  · cases theapp.on_error with
    | none => simp [World.release]
    | some h =>
      cases h <;>
        simp [World.release, text_at, app_callback.call, app_auto_help,
          app_opt_default_error_handler, World.emit]
  · intro file1 rest1 hr1
    rw [app_parse_opts_from_line theapp w hr1, hstep]
/-! ## `strtok_r` with separators before the token -/

theorem getD_append_len_head (a l : List Nat) : (a ++ l).getD a.length 0 = l.headD 0 := by
  cases l with
  | nil => simp
  | cons c l => exact getD_append_left_len a c l

theorem strspn_eqs (eqs : List Nat) (c : Nat) (t : List Nat) (heq : ∀ x ∈ eqs, x = 61)
    (hc : c ≠ 61) : strspn (eqs ++ c :: t) SEPARATOR = eqs.length := by
  have hsep : cstr SEPARATOR = [61] := by decide
  unfold strspn
  rw [takeWhile_append_stop _ eqs c t]
  · intro x hx
    rw [heq x hx, hsep]; decide
  · simp [hsep, hc]

theorem strcspn_tok (tok : List Nat) (c : Nat) (t : List Nat)
    (htok : ∀ x ∈ tok, x ≠ 0 ∧ x ≠ 61) (hc : c = 0 ∨ c = 61) :
    strcspn (tok ++ c :: t) SEPARATOR = tok.length := by
  have hsep : cstr SEPARATOR = [61] := by decide
  unfold strcspn
  rw [takeWhile_append_stop _ tok c t]
  · intro x hx
    have := htok x hx
    simp [hsep, this.1, this.2]
  · rcases hc with rfl | rfl <;> simp [hsep]

/-- Separators before the token are skipped; the separator behind it is overwritten. -/
theorem strtok_r_skip_sep (p eqs tok t : List Nat) (heq : ∀ x ∈ eqs, x = 61)
    (hne : tok ≠ []) (htok : ∀ c ∈ tok, c ≠ 0 ∧ c ≠ 61) :
    strtok_r (p ++ eqs ++ tok ++ 61 :: t) p.length SEPARATOR =
      (p ++ eqs ++ tok ++ 0 :: t, some (p.length + eqs.length),
        p.length + eqs.length + tok.length + 1) := by
  obtain ⟨c, tok1, rfl⟩ := List.exists_cons_of_ne_nil hne
  have hc := htok c (List.mem_cons_self _ _)
  have hfirst : (p ++ eqs ++ (c :: tok1) ++ 61 :: t).getD p.length 0 ≠ 0 := by
    have e : p ++ eqs ++ (c :: tok1) ++ 61 :: t = p ++ (eqs ++ c :: (tok1 ++ 61 :: t)) := by
      simp
    rw [e, getD_append_len_head]
    cases eqs with
    | nil => simpa using hc.1
    | cons x eqs => simp [heq x (List.mem_cons_self _ _)]
  have hdrop : (p ++ eqs ++ (c :: tok1) ++ 61 :: t).drop p.length =
      eqs ++ c :: (tok1 ++ 61 :: t) := by
    have e : p ++ eqs ++ (c :: tok1) ++ 61 :: t = p ++ (eqs ++ c :: (tok1 ++ 61 :: t)) := by
      simp
    rw [e, List.drop_left]
  have hspn := strspn_eqs eqs c (tok1 ++ 61 :: t) heq hc.2
  have h1 : (p ++ eqs ++ (c :: tok1) ++ 61 :: t).getD (p.length + eqs.length) 0 = c := by
    have e : p ++ eqs ++ (c :: tok1) ++ 61 :: t = (p ++ eqs) ++ c :: (tok1 ++ 61 :: t) := by
      simp
    rw [e, ← List.length_append]
    exact getD_append_left_len _ _ _
  have hdrop2 : (p ++ eqs ++ (c :: tok1) ++ 61 :: t).drop (p.length + eqs.length) =
      (c :: tok1) ++ 61 :: t := by
    rw [← List.length_append, List.append_assoc (p ++ eqs), List.drop_left]
  have hcspn := strcspn_tok (c :: tok1) 61 t htok (Or.inr rfl)
  have he : (p ++ eqs ++ (c :: tok1) ++ 61 :: t).getD
      (p.length + eqs.length + (c :: tok1).length) 0 = 61 := by
    have := getD_append_left_len (p ++ eqs ++ (c :: tok1)) 61 t
    simpa [List.length_append, Nat.add_assoc] using this
  have hset : (p ++ eqs ++ (c :: tok1) ++ 61 :: t).set
      (p.length + eqs.length + (c :: tok1).length) 0 = p ++ eqs ++ (c :: tok1) ++ 0 :: t := by
    have := set_append_left_len (p ++ eqs ++ (c :: tok1)) 61 0 t
    rw [← this]
    simp [List.length_append, Nat.add_assoc]
  unfold strtok_r
  rw [if_neg hfirst]
  simp only [hdrop, hspn, h1, hdrop2, hcspn, he, hset]
  simp [hc.1]

/-- Separators before the token are skipped; a token that ends the string is left as it
is. -/
theorem strtok_r_skip_end (p eqs tok t : List Nat) (heq : ∀ x ∈ eqs, x = 61)
    (hne : tok ≠ []) (htok : ∀ c ∈ tok, c ≠ 0 ∧ c ≠ 61) :
    strtok_r (p ++ eqs ++ tok ++ 0 :: t) p.length SEPARATOR =
      (p ++ eqs ++ tok ++ 0 :: t, some (p.length + eqs.length),
        p.length + eqs.length + tok.length) := by
  obtain ⟨c, tok1, rfl⟩ := List.exists_cons_of_ne_nil hne
  have hc := htok c (List.mem_cons_self _ _)
  have hfirst : (p ++ eqs ++ (c :: tok1) ++ 0 :: t).getD p.length 0 ≠ 0 := by
    have e : p ++ eqs ++ (c :: tok1) ++ 0 :: t = p ++ (eqs ++ c :: (tok1 ++ 0 :: t)) := by
      simp
    rw [e, getD_append_len_head]
    cases eqs with
    | nil => simpa using hc.1
    | cons x eqs => simp [heq x (List.mem_cons_self _ _)]
  have hdrop : (p ++ eqs ++ (c :: tok1) ++ 0 :: t).drop p.length =
      eqs ++ c :: (tok1 ++ 0 :: t) := by
    have e : p ++ eqs ++ (c :: tok1) ++ 0 :: t = p ++ (eqs ++ c :: (tok1 ++ 0 :: t)) := by
      simp
    rw [e, List.drop_left]
  have hspn := strspn_eqs eqs c (tok1 ++ 0 :: t) heq hc.2
  have h1 : (p ++ eqs ++ (c :: tok1) ++ 0 :: t).getD (p.length + eqs.length) 0 = c := by
    have e : p ++ eqs ++ (c :: tok1) ++ 0 :: t = (p ++ eqs) ++ c :: (tok1 ++ 0 :: t) := by
      simp
    rw [e, ← List.length_append]
    exact getD_append_left_len _ _ _
  have hdrop2 : (p ++ eqs ++ (c :: tok1) ++ 0 :: t).drop (p.length + eqs.length) =
      (c :: tok1) ++ 0 :: t := by
    rw [← List.length_append, List.append_assoc (p ++ eqs), List.drop_left]
  have hcspn := strcspn_tok (c :: tok1) 0 t htok (Or.inl rfl)
  have he : (p ++ eqs ++ (c :: tok1) ++ 0 :: t).getD
      (p.length + eqs.length + (c :: tok1).length) 0 = 0 := by
    have := getD_append_left_len (p ++ eqs ++ (c :: tok1)) 0 t
    simpa [List.length_append, Nat.add_assoc] using this
  unfold strtok_r
  rw [if_neg hfirst]
  simp only [hdrop, hspn, h1, hdrop2, hcspn, he]
  simp [hc.1]

/-- Only separators are left: there is no token. -/
theorem strtok_r_skip_none (p eqs t : List Nat) (heq : ∀ x ∈ eqs, x = 61) :
    ∃ sv, strtok_r (p ++ eqs ++ 0 :: t) p.length SEPARATOR = (p ++ eqs ++ 0 :: t, none, sv) := by
  cases eqs with
  | nil =>
    refine ⟨p.length, ?_⟩
    have h0 : (p ++ [] ++ 0 :: t).getD p.length 0 = 0 := by
      simpa using getD_append_left_len p 0 t
    unfold strtok_r
    rw [if_pos h0]
  | cons x eqs =>
    have hx : x = 61 := heq x (List.mem_cons_self _ _)
    subst hx
    refine ⟨p.length + (61 :: eqs).length, ?_⟩
    have hfirst : (p ++ (61 :: eqs) ++ 0 :: t).getD p.length 0 ≠ 0 := by
      have e : p ++ (61 :: eqs) ++ 0 :: t = p ++ 61 :: (eqs ++ 0 :: t) := by simp
      rw [e, getD_append_left_len]; decide
    have hdrop : (p ++ (61 :: eqs) ++ 0 :: t).drop p.length = (61 :: eqs) ++ 0 :: t := by
      rw [List.append_assoc, List.drop_left]
    have hspn := strspn_eqs (61 :: eqs) 0 t heq (by decide)
    have h1 : (p ++ (61 :: eqs) ++ 0 :: t).getD (p.length + (61 :: eqs).length) 0 = 0 := by
      rw [← List.length_append]
      exact getD_append_left_len _ _ _
    unfold strtok_r
    rw [if_neg hfirst]
    simp only [hdrop, hspn, h1, if_true]
theorem is_core_spec {t : List Nat} (h : is_core t = true) :
    t ≠ [] ∧ (∀ c ∈ t, c ≠ 0 ∧ c ≠ 61) ∧ isspace (t.headD 0) = false ∧
      isspace (t.getLastD 0) = false := by
  simp only [is_core, Bool.and_eq_true, bne_iff_ne, ne_eq, List.all_eq_true,
    Bool.not_eq_true', and_imp] at h
  obtain ⟨⟨⟨h1, h2⟩, h3⟩, h4⟩ := h
  refine ⟨h1, fun c hc => ?_, h3, h4⟩
  have := h2 c hc
  simp only [Bool.and_eq_true, bne_iff_ne, ne_eq] at this
  exact this

/-- After `trim`, the byte where the terminator of the string stood is still NUL. -/
theorem trim_keeps_end (p ws1 core ws2 q : List Nat) :
    (p ++ core ++ 0 ::
      ((ws1 ++ core ++ 0 :: List.replicate ws2.length 0).drop (core.length + 1) ++ q)).getD
        (p.length + ws1.length + core.length + ws2.length) 0 = 0 := by
  rcases Nat.eq_zero_or_pos (ws1.length + ws2.length) with h0 | hpos
  · have e : p.length + ws1.length + core.length + ws2.length = (p ++ core).length + 0 := by
      simp; omega
    rw [e, getD_append_right_len]
    rfl
  · have e : p.length + ws1.length + core.length + ws2.length =
        (p ++ core).length + ((ws1.length + ws2.length - 1) + 1) := by simp; omega
    rw [e, getD_append_right_len, List.getD_cons_succ, List.getD_append _ _ _ _ (by simp; omega),
      getD_drop]
    have e2 : core.length + 1 + (ws1.length + ws2.length - 1) =
        (ws1 ++ core).length + ws2.length := by simp; omega
    rw [e2, getD_append_right_len]
    apply getD_all_zero
    intro x hx
    simp only [List.mem_cons, List.mem_replicate] at hx
    rcases hx with hx | hx
    · exact hx
    · exact hx.2

theorem padded_no_sep {ws1 core ws2 : List Nat}
    (h1 : ∀ c ∈ ws1, isspace c = true) (h2 : ∀ c ∈ ws2, isspace c = true)
    (hc : ∀ c ∈ core, c ≠ 0 ∧ c ≠ 61) : ∀ c ∈ ws1 ++ core ++ ws2, c ≠ 0 ∧ c ≠ 61 := by
  intro c hm
  simp only [List.mem_append] at hm
  rcases hm with (hm | hm) | hm
  · exact ⟨isspace_ne_zero (h1 c hm), isspace_ne_sep (h1 c hm)⟩
  · exact hc c hm
  · exact ⟨isspace_ne_zero (h2 c hm), isspace_ne_sep (h2 c hm)⟩

/-- The first token of a line and its `trim`: separators at the start of the line are
skipped, the key is moved to where the token began, and the rest of the line stays. -/
theorem split_first (eq0 ws1 key ws2 t : List Nat)
    (h0 : ∀ c ∈ eq0, c = 61)
    (h1 : ∀ c ∈ ws1, isspace c = true) (h2 : ∀ c ∈ ws2, isspace c = true)
    (hk : is_core key = true) :
    ∃ j, j.length = ws1.length + ws2.length ∧
      strtok_r (eq0 ++ ws1 ++ key ++ ws2 ++ 61 :: t) 0 SEPARATOR =
        (eq0 ++ ws1 ++ key ++ ws2 ++ 0 :: t, some eq0.length, (eq0 ++ key ++ 0 :: j).length) ∧
      trim (eq0 ++ ws1 ++ key ++ ws2 ++ 0 :: t) eq0.length = some (eq0 ++ key ++ 0 :: j ++ t) := by
  obtain ⟨hkne, hkc, hkf, hkl⟩ := is_core_spec hk
  obtain ⟨j, hj, htr⟩ := trim_spec eq0 ws1 key ws2 t h1 h2 hkne (fun c hc => (hkc c hc).1)
    hkf hkl
  have hs := strtok_r_skip_sep [] eq0 (ws1 ++ key ++ ws2) t h0 (by simp [hkne])
    (padded_no_sep h1 h2 hkc)
  refine ⟨j, hj, ?_, ?_⟩
  · have e : eq0 ++ ws1 ++ key ++ ws2 ++ 61 :: t = [] ++ eq0 ++ (ws1 ++ key ++ ws2) ++ 61 :: t := by
      simp
    simp only [List.length_nil, Nat.zero_add] at hs
    rw [e, hs]
    simp [hj]; omega
  · rw [htr]; simp

/-- C12: `app_split_line` skips `=` characters at the start of the line and takes as key
the text up to the next `=` (or to the end of the line), without the white space around it.
When the rest of the line holds nothing but `=` characters there is no value. Otherwise the
value is the text between the `=` characters behind the key and the next `=` or the end of
the line, without the white space around it; what follows a further `=` is dropped. -/
theorem C12_split_line (eq0 ws1 key ws2 eq1 t : List Nat)
    (h0 : ∀ c ∈ eq0, c = 61)
    (h1 : ∀ c ∈ ws1, isspace c = true) (h2 : ∀ c ∈ ws2, isspace c = true)
    (he : ∀ c ∈ eq1, c = 61) (hk : is_core key = true) :
    (∃ buf, app_split_line (eq0 ++ ws1 ++ key ++ ws2 ++ eq1 ++ 0 :: t) =
        some (buf, some eq0.length, none) ∧ cstr (buf.drop eq0.length) = key) ∧
    (∀ ws3 value ws4 c,
      (∀ x ∈ ws3, isspace x = true) → (∀ x ∈ ws4, isspace x = true) →
      is_core value = true → c = 0 ∨ c = 61 →
      ∃ buf, app_split_line
          (eq0 ++ ws1 ++ key ++ ws2 ++ 61 :: (eq1 ++ ws3 ++ value ++ ws4 ++ c :: t)) =
        some (buf, some eq0.length,
          some (eq0.length + ws1.length + key.length + ws2.length + 1 + eq1.length)) ∧
        cstr (buf.drop eq0.length) = key ∧
        cstr (buf.drop (eq0.length + ws1.length + key.length + ws2.length + 1 + eq1.length)) =
          value) := by
  obtain ⟨hkne, hkc, hkf, hkl⟩ := is_core_spec hk
  have hkz : ∀ c ∈ key, c ≠ 0 := fun c hc => (hkc c hc).1
  constructor
  · cases eq1 with
    | nil =>
      have hs := strtok_r_skip_end [] eq0 (ws1 ++ key ++ ws2) t h0 (by simp [hkne])
        (padded_no_sep h1 h2 hkc)
      have htr := trim_eq eq0 ws1 key ws2 t h1 h2 hkne hkz hkf hkl
      have hz := trim_keeps_end eq0 ws1 key ws2 t
      simp only [List.length_nil, Nat.zero_add, List.nil_append] at hs
      have e : eq0 ++ ws1 ++ key ++ ws2 ++ [] ++ 0 :: t = eq0 ++ (ws1 ++ key ++ ws2) ++ 0 :: t := by
        simp
      have e1 : eq0 ++ (ws1 ++ key ++ ws2) ++ 0 :: t = eq0 ++ ws1 ++ key ++ ws2 ++ 0 :: t := by
        simp
      have e2 : eq0.length + (ws1 ++ key ++ ws2).length =
          eq0.length + ws1.length + key.length + ws2.length := by simp; omega
      refine ⟨eq0 ++ key ++ 0 :: ((ws1 ++ key ++ 0 :: List.replicate ws2.length 0).drop
        (key.length + 1) ++ t), ?_, ?_⟩
      · unfold app_split_line
        rw [e]
        simp only [hs, trim_opt]
        rw [e1, htr]
        simp only [e2]
        unfold strtok_r
        rw [if_pos hz]
      · rw [List.append_assoc, List.drop_left]
        exact cstr_append_zero _ _ hkz
    | cons x eq1 =>
      have hx : x = 61 := he x (List.mem_cons_self _ _)
      subst hx
      obtain ⟨j, hj, hs, htr⟩ := split_first eq0 ws1 key ws2 (eq1 ++ 0 :: t) h0 h1 h2 hk
      obtain ⟨sv, hn⟩ := strtok_r_skip_none (eq0 ++ key ++ 0 :: j) eq1 t
        (fun c hc => he c (List.mem_cons_of_mem _ hc))
      have e : eq0 ++ ws1 ++ key ++ ws2 ++ 61 :: eq1 ++ 0 :: t =
          eq0 ++ ws1 ++ key ++ ws2 ++ 61 :: (eq1 ++ 0 :: t) := by simp
      have e1 : eq0 ++ key ++ 0 :: j ++ (eq1 ++ 0 :: t) = eq0 ++ key ++ 0 :: j ++ eq1 ++ 0 :: t := by
        simp
      refine ⟨eq0 ++ key ++ 0 :: j ++ eq1 ++ 0 :: t, ?_, ?_⟩
      · unfold app_split_line
        rw [e]
        simp only [hs, trim_opt]
        rw [htr]
        simp only [e1, hn]
      · have e3 : eq0 ++ key ++ 0 :: j ++ eq1 ++ 0 :: t = eq0 ++ (key ++ 0 :: (j ++ eq1 ++ 0 :: t)) := by
          simp
        rw [e3, List.drop_left]
        exact cstr_append_zero _ _ hkz
  · intro ws3 value ws4 c h3 h4 hv hc
    obtain ⟨hvne, hvc, hvf, hvl⟩ := is_core_spec hv
    have hvz : ∀ c ∈ value, c ≠ 0 := fun c hc => (hvc c hc).1
    obtain ⟨j, hj, hs, htr⟩ := split_first eq0 ws1 key ws2
      (eq1 ++ ws3 ++ value ++ ws4 ++ c :: t) h0 h1 h2 hk
    have hs2 : strtok_r (eq0 ++ key ++ 0 :: j ++ eq1 ++ (ws3 ++ value ++ ws4) ++ c :: t)
        (eq0 ++ key ++ 0 :: j).length SEPARATOR =
        (eq0 ++ key ++ 0 :: j ++ eq1 ++ (ws3 ++ value ++ ws4) ++ 0 :: t,
          some ((eq0 ++ key ++ 0 :: j).length + eq1.length),
          (eq0 ++ key ++ 0 :: j).length + eq1.length + (ws3 ++ value ++ ws4).length +
            (if c = 0 then 0 else 1)) := by
      rcases hc with rfl | rfl
      · exact strtok_r_skip_end _ eq1 _ t he (by simp [hvne]) (padded_no_sep h3 h4 hvc)
      · exact strtok_r_skip_sep _ eq1 _ t he (by simp [hvne]) (padded_no_sep h3 h4 hvc)
    obtain ⟨j2, -, htr2⟩ := trim_spec (eq0 ++ key ++ 0 :: j ++ eq1) ws3 value ws4 t h3 h4 hvne
      hvz hvf hvl
    have e1 : eq0 ++ key ++ 0 :: j ++ (eq1 ++ ws3 ++ value ++ ws4 ++ c :: t) =
        eq0 ++ key ++ 0 :: j ++ eq1 ++ (ws3 ++ value ++ ws4) ++ c :: t := by simp
    have e2 : eq0 ++ key ++ 0 :: j ++ eq1 ++ (ws3 ++ value ++ ws4) ++ 0 :: t =
        eq0 ++ key ++ 0 :: j ++ eq1 ++ ws3 ++ value ++ ws4 ++ 0 :: t := by simp
    have e3 : (eq0 ++ key ++ 0 :: j).length + eq1.length =
        (eq0 ++ key ++ 0 :: j ++ eq1).length := by simp; omega
    have e4 : eq0.length + ws1.length + key.length + ws2.length + 1 + eq1.length =
        (eq0 ++ key ++ 0 :: j ++ eq1).length := by simp [hj]; omega
    refine ⟨eq0 ++ key ++ 0 :: j ++ eq1 ++ value ++ 0 :: (j2 ++ t), ?_, ?_, ?_⟩
    · unfold app_split_line
      simp only [hs, trim_opt]
      rw [htr]
      simp only [e1, hs2, trim_opt]
      rw [e2, e3, htr2, e4]
    · have e5 : eq0 ++ key ++ 0 :: j ++ eq1 ++ value ++ 0 :: (j2 ++ t) =
          eq0 ++ (key ++ 0 :: (j ++ eq1 ++ value ++ 0 :: (j2 ++ t))) := by simp
      rw [e5, List.drop_left]
      exact cstr_append_zero _ _ hkz
    · rw [e4, List.append_assoc (eq0 ++ key ++ 0 :: j ++ eq1), List.drop_left]
      exact cstr_append_zero _ _ hvz
/-- C11 at the stream `name = Alice`, `bogus=1`, `count=2` with the host handler 7
installed: the call returns `false`, the handler is called once with `bogus`, the String
cell keeps the pointer stored by the first line, and the integer cell of the third line is
not written. -/
theorem C11_unknown_key_witness :
    ∃ w1,
      app_parse_opts_from (app_opt_on_error demo_app (some (.host 7)))
        (bytes "name = Alice\nbogus=1\ncount=2\n") blank_world = .done (false, w1) ∧
      w1.cells 2 = .str (.line 0 6) ∧ w1.cells 1 = .flag false ∧
      w1.trace = [.host_call 7 (bytes "bogus")] := by
  obtain ⟨w1, hrun, hc, ht, -⟩ := C11_unknown_key (app_opt_on_error demo_app (some (.host 7)))
    (bytes "name = Alice\nbogus=1\ncount=2\n") (bytes "bogus=1\ncount=2\n")
    (lit "bogus=1\n") (bytes "count=2\n") blank_world
    ((blank_world.store 2 (.str (.line 0 6))).release
      [110, 97, 109, 101, 0, 0, 65, 108, 105, 99, 101, 0, 0, 0])
    [98, 111, 103, 117, 115, 0, 49, 0, 0] 0 (some 6)
    (LineReach.next
      (show app_term_readline_from (bytes "name = Alice\nbogus=1\ncount=2\n") =
        some (lit "name = Alice\n", bytes "bogus=1\ncount=2\n") by decide)
      (by rfl) (LineReach.here _ _)) (by decide) (by decide)
    (by decide) (by
      intro e he ln hl
      have hr : (app_opt_on_error demo_app (some (.host 7))).registry = demo_app.registry := rfl
      rw [hr, demo_app_registry] at he
      simp only [List.mem_cons, List.mem_singleton, List.not_mem_nil, or_false] at he
      rcases he with rfl | rfl | rfl | rfl <;>
        (simp only [demo_count, demo_name, demo_password, demo_verbose,
          Option.some.injEq] at hl; subst hl; decide))
  refine ⟨w1, hrun, ?_, ?_, ?_⟩
  · rw [hc]; rfl
  · rw [hc]; rfl
  · rw [ht]; rfl

/-- C12 as stated fails: on `a=b=c` the value is `b`, not `b=c`; and on `=v` the key is `v`
(not the empty text) and there is no value. -/
theorem C12_splits_at_every_sep :
    (∃ buf, app_split_line (lit "a=b=c") = some (buf, some 0, some 2) ∧
      cstr (buf.drop 0) = bytes "a" ∧ cstr (buf.drop 2) = bytes "b" ∧
      cstr (buf.drop 2) ≠ bytes "b=c") ∧
    (∃ buf, app_split_line (lit "=v") = some (buf, some 1, none) ∧
      cstr (buf.drop 1) = bytes "v") :=
  ⟨⟨[97, 0, 98, 0, 99, 0], by decide, by decide, by decide, by decide⟩,
    ⟨[61, 118, 0], by decide, by decide⟩⟩

/-- C12 (as amended) at `= a == b =c`: the key is `a` and the value is `b`; and at ` a =`:
the key is `a` and there is no value. -/
theorem C12_split_line_witness :
    (∃ buf, app_split_line (lit "= a == b =c") = some (buf, some 1, some 6) ∧
      cstr (buf.drop 1) = bytes "a" ∧ cstr (buf.drop 6) = bytes "b") ∧
    (∃ buf, app_split_line (lit " a =") = some (buf, some 0, none) ∧
      cstr (buf.drop 0) = bytes "a") :=
  ⟨(C12_split_line [61] [32] [97] [32] [61] [99, 0] (by decide) (by decide) (by decide)
      (by decide) (by decide)).2 [32] [98] [32] 61 (by decide) (by decide) (by decide)
      (Or.inr rfl),
    (C12_split_line [] [32] [97] [32] [61] [] (by decide) (by decide) (by decide)
      (by decide) (by decide)).1⟩

/-- C13 fails on the code: the empty line arrives as the one-character string holding the
line terminator, so it is no comment and its length is not zero; it is split like a
setting, and `trim` then reads the byte before the line buffer. The line is not skipped. -/
theorem C13_empty_line_not_skipped (theapp : app) (w : World) :
    app_term_readline_from (bytes "\n") = some (lit "\n", []) ∧
    (strchr COMMENT_START ((lit "\n").getD 0 0) || strlen (lit "\n") == 0) = false ∧
    strtok_r (lit "\n") 0 SEPARATOR = (lit "\n", some 0, 1) ∧
    trim (lit "\n") 0 = none ∧
    line_step theapp (lit "\n") w = .fault ∧
    app_parse_opts_from theapp (bytes "\n") w = .fault := by
  refine ⟨by decide, by decide, by decide, by decide, ?_, ?_⟩
  · rfl
  · rfl

/-- C14 fails on the code: on the line `count=` followed by the line terminator the value
pointer is not NULL but points at the empty text, so the Integer option is given 0, the call
returns `true` and no message is printed; likewise the String option on `name = ` is
pointed at the empty text at offset 6 of the line buffer. Without the line terminator the
value pointer is NULL and the same line `count=` is refused. -/
theorem C14_empty_value_stored :
    (∃ w1, app_parse_opts_from demo_app (bytes "count=\n") blank_world = .done (true, w1) ∧
      w1.cells 1 = .int 0 ∧ w1.trace = []) ∧
    (∃ w1, app_parse_opts_from demo_app (bytes "name = \n") blank_world = .done (true, w1) ∧
      w1.cells 2 = .str (.line 0 6) ∧ w1.released.map (fun b => cstr (b.drop 6)) = [[]] ∧
      w1.trace = []) ∧
    (∃ w1, app_parse_opts_from demo_app (bytes "count=") blank_world = .done (false, w1) ∧
      w1.cells 1 = .flag false ∧
      w1.trace = [.requires_argument (bytes "count"), .help_listing]) :=
  ⟨⟨_, rfl, rfl, rfl⟩, ⟨_, rfl, rfl, rfl, rfl⟩, ⟨_, rfl, rfl, rfl⟩⟩

/-- C18 fails on the code: for the empty string and for a string of blanks at the start of
a buffer `trim` reads the byte before the buffer; and for the empty string that follows a
blank in its buffer, `trim` overwrites that blank, a byte before the start of the string. -/
theorem C18_trim_reads_before_start :
    trim [0] 0 = none ∧ trim (lit "  ") 0 = none ∧
    trim [65, 32, 0] 2 = some [65, 0, 0] := by
  refine ⟨by decide, by decide, by decide⟩
/-! ## The option registry -/

/-- What holds of the registry between two calls: one slot at least is free, the array has
`len` slots, and `len` is the initial capacity times a power of two. -/
theorem app_new_inv :
    app_new.pos < app_new.len ∧ app_new.options.length = app_new.len ∧
      ∃ k, app_new.len = START_LEN * 2 ^ k :=
  ⟨by decide, by decide, 0, by decide⟩

/-- `app_make_room_for_opt` leaves two free slots or doubles the array; the descriptors
stored stay where they are. -/
theorem app_make_room_for_opt_spec (a : app) (hpos : a.pos < a.len)
    (hlen : a.options.length = a.len) :
    (app_make_room_for_opt a).pos = a.pos ∧
    a.pos + 1 < (app_make_room_for_opt a).len ∧
    (app_make_room_for_opt a).options.length = (app_make_room_for_opt a).len ∧
    (app_make_room_for_opt a).options.take a.len = a.options ∧
    (app_make_room_for_opt a).registry = a.registry ∧
    (app_make_room_for_opt a).on_error = a.on_error ∧
    (if a.pos ≥ a.len - 1 then (app_make_room_for_opt a).len = a.len * 2
      else (app_make_room_for_opt a).len = a.len) := by
  by_cases h : a.pos ≥ a.len - 1
  · have htake : (a.options ++ List.replicate (a.len * 2) blank_slot).take (a.len * 2) =
        a.options ++ List.replicate a.len blank_slot := by
      rw [List.take_append_eq_append_take, hlen]
      have h1 : a.options.take (a.len * 2) = a.options :=
        List.take_of_length_le (by omega)
      have h2 : a.len * 2 - a.len = a.len := by omega
      rw [h1, h2, List.take_replicate]
      congr 2
      omega
    have hm : app_make_room_for_opt a = { a with
        len := a.len * 2, options := a.options ++ List.replicate a.len blank_slot } := by
      unfold app_make_room_for_opt
      rw [if_pos h, htake]
    rw [hm, if_pos h]
    refine ⟨rfl, ?_, ?_, ?_, ?_, rfl, rfl⟩
    · show a.pos + 1 < a.len * 2
      omega
    · show (a.options ++ List.replicate a.len blank_slot).length = a.len * 2
      rw [List.length_append, List.length_replicate, hlen]; omega
    · show (a.options ++ List.replicate a.len blank_slot).take a.len = a.options
      rw [← hlen, List.take_left]
    · show (a.options ++ List.replicate a.len blank_slot).take a.pos = a.options.take a.pos
      rw [List.take_append_of_le_length (by omega)]
  · have hm : app_make_room_for_opt a = a := by
      unfold app_make_room_for_opt
      rw [if_neg h]
    rw [hm, if_neg h]
    refine ⟨rfl, by omega, hlen, ?_, rfl, rfl, rfl⟩
    rw [← hlen, List.take_length]

theorem take_succ_set (l : List opt) (n : Nat) (x : opt) (h : n < l.length) :
    (l.set n x).take (n + 1) = l.take n ++ [x] := by
  induction l generalizing n with
  | nil => simp at h
  | cons y l ih =>
    cases n with
    | zero => simp
    | succ n =>
      have hn : n < l.length := by simpa using h
      simp [ih n hn]

/-- One `app_opt_add`: the write lands inside the array, the descriptor is appended, and
the invariant is kept. -/
theorem app_opt_add_spec (a : app) (d : opt) (hpos : a.pos < a.len)
    (hlen : a.options.length = a.len) :
    ∃ a1, app_opt_add a d = some a1 ∧ a1.pos = a.pos + 1 ∧ a1.pos < a1.len ∧
      a1.options.length = a1.len ∧ a1.registry = a.registry ++ [d] ∧
      (a1.len = a.len ∨ a1.len = a.len * 2) ∧ a1.on_error = a.on_error := by
  obtain ⟨h1, h2, h3, -, h5, h6, h7⟩ := app_make_room_for_opt_spec a hpos hlen
  have hin : (app_make_room_for_opt a).pos < (app_make_room_for_opt a).options.length := by
    rw [h1, h3]; omega
  refine ⟨{ app_make_room_for_opt a with
      options := (app_make_room_for_opt a).options.set (app_make_room_for_opt a).pos d,
      pos := (app_make_room_for_opt a).pos + 1 },
    by unfold app_opt_add; simp only [hin, if_true], ?_, ?_, ?_, ?_, ?_, h6⟩
  · simp only [h1]
  · simp only [h1]; exact h2
  · simp only [List.length_set]; exact h3
  · simp only [app.registry]
    have hr : (app_make_room_for_opt a).options.take (app_make_room_for_opt a).pos =
        a.registry := h5
    rw [take_succ_set _ _ _ hin, hr]
    rfl
  · by_cases h : a.pos ≥ a.len - 1
    · rw [if_pos h] at h7; exact Or.inr h7
    · rw [if_neg h] at h7; exact Or.inl h7

theorem Built.inv {a : app} (h : Built a) :
    a.pos < a.len ∧ a.options.length = a.len ∧ ∃ k, a.len = START_LEN * 2 ^ k := by
  induction h with
  | new => exact app_new_inv
  | @add a a1 d _ hadd ih =>
    obtain ⟨hp, hl, k, hk⟩ := ih
    obtain ⟨a2, h2, -, hp2, hl2, -, hlen, -⟩ := app_opt_add_spec a d hp hl
    rw [hadd] at h2
    cases h2
    refine ⟨hp2, hl2, ?_⟩
    rcases hlen with e | e
    · exact ⟨k, by rw [e, hk]⟩
    · exact ⟨k + 1, by rw [e, hk, pow_succ, Nat.mul_assoc]⟩
  | @add_help a a1 _ hadd ih =>
    obtain ⟨hp, hl, k, hk⟩ := ih
    obtain ⟨a2, h2, -, hp2, hl2, -, hlen, -⟩ := app_opt_add_spec a auto_help_opt hp hl
    have hadd1 : app_opt_add a auto_help_opt = some a1 := hadd
    rw [hadd1] at h2
    cases h2
    refine ⟨hp2, hl2, ?_⟩
    rcases hlen with e | e
    · exact ⟨k, by rw [e, hk]⟩
    · exact ⟨k + 1, by rw [e, hk, pow_succ, Nat.mul_assoc]⟩

theorem app_opt_add_all_spec (ds : List opt) (a : app) (hpos : a.pos < a.len)
    (hlen : a.options.length = a.len) :
    ∃ a1, app_opt_add_all a ds = some a1 ∧ a1.pos = a.pos + ds.length ∧ a1.pos < a1.len ∧
      a1.options.length = a1.len ∧ a1.registry = a.registry ++ ds := by
  induction ds generalizing a with
  | nil => exact ⟨a, rfl, rfl, hpos, hlen, by simp⟩
  | cons d ds ih =>
    obtain ⟨a1, h1, hp1, hq1, hl1, hr1, -, -⟩ := app_opt_add_spec a d hpos hlen
    obtain ⟨a2, h2, hp2, hq2, hl2, hr2⟩ := ih a1 hq1 hl1
    refine ⟨a2, ?_, ?_, hq2, hl2, ?_⟩
    · simp only [app_opt_add_all, h1, h2]
    · rw [hp2, hp1, List.length_cons]; omega
    · rw [hr2, hr1]; simp

theorem Built.of_add_all (ds : List opt) {a a1 : app} (h : Built a)
    (hadd : app_opt_add_all a ds = some a1) : Built a1 := by
  induction ds generalizing a with
  | nil =>
    simp only [app_opt_add_all, Option.some.injEq] at hadd
    exact hadd ▸ h
  | cons d ds ih =>
    simp only [app_opt_add_all] at hadd
    cases h1 : app_opt_add a d with
    | none => rw [h1] at hadd; cases hadd
    | some a2 =>
      rw [h1] at hadd
      exact ih (Built.add d h h1) hadd

/-- C15: `app_new` followed by `app_opt_add` of the descriptors `ds`, however many, succeeds;
the registry then holds `ds.length` descriptors and is equal to `ds`, in this order; and a
further `app_make_room_for_opt`, whether it grows the array or not, leaves the registry
equal to `ds` and every array slot where it was. -/
theorem C15_registry_contents (ds : List opt) :
    ∃ a, app_opt_add_all app_new ds = some a ∧ a.pos = ds.length ∧ a.registry = ds ∧
      (app_make_room_for_opt a).pos = ds.length ∧
      (app_make_room_for_opt a).registry = ds ∧
      (app_make_room_for_opt a).options.take a.len = a.options ∧
      (if ds.length ≥ a.len - 1 then (app_make_room_for_opt a).len = a.len * 2
        else (app_make_room_for_opt a).len = a.len) := by
  obtain ⟨a, h, hp, hq, hl, hr⟩ := app_opt_add_all_spec ds app_new app_new_inv.1 app_new_inv.2.1
  have hp1 : a.pos = ds.length := by rw [hp]; simp [app_new]
  have hr1 : a.registry = ds := by rw [hr]; simp [app.registry, app_new]
  obtain ⟨g1, -, -, g4, g5, -, g7⟩ := app_make_room_for_opt_spec a hq hl
  refine ⟨a, h, hp1, hr1, by rw [g1, hp1], by rw [g5, hr1], g4, ?_⟩
  rw [← hp1]; exact g7

/-- C19: in every state reached from `app_new` by `app_opt_add` and `app_opt_add_help`, the
array has `len` slots and `len` is 10 times a power of two; a further `app_opt_add` writes
its descriptor at an index below the capacity it finds after `app_make_room_for_opt`, so the
write succeeds; and the capacity afterwards is not below the capacity before. -/
theorem C19_capacity_invariant (a : app) (h : Built a) :
    a.pos < a.len ∧ a.options.length = a.len ∧ (∃ k, a.len = 10 * 2 ^ k) ∧
    ∀ d, (app_make_room_for_opt a).pos < (app_make_room_for_opt a).len ∧
      (app_make_room_for_opt a).options.length = (app_make_room_for_opt a).len ∧
      a.len ≤ (app_make_room_for_opt a).len ∧
      ∃ a1, app_opt_add a d = some a1 ∧ a1.pos = a.pos + 1 ∧ a1.pos < a1.len ∧
        a.len ≤ a1.len := by
  obtain ⟨hp, hl, hk⟩ := h.inv
  refine ⟨hp, hl, hk, fun d => ?_⟩
  obtain ⟨g1, g2, g3, -, -, -, g7⟩ := app_make_room_for_opt_spec a hp hl
  obtain ⟨a1, h1, hp1, hq1, -, -, hlen, -⟩ := app_opt_add_spec a d hp hl
  refine ⟨by rw [g1]; omega, g3, ?_, a1, h1, hp1, hq1, ?_⟩
  · by_cases hc : a.pos ≥ a.len - 1
    · rw [if_pos hc] at g7; omega
    · rw [if_neg hc] at g7; omega
  · rcases hlen with e | e <;> omega

/-- C15 at twelve descriptors, two more than the initial capacity: all twelve are stored in
order, and the capacity has been doubled once. -/
theorem C15_registry_contents_witness :
    ∃ a, app_opt_add_all app_new
        [demo_count, demo_name, demo_password, demo_verbose, demo_count, demo_name,
          demo_password, demo_verbose, demo_count, demo_name, demo_password, demo_verbose] =
        some a ∧
      a.pos = 12 ∧
      a.registry = [demo_count, demo_name, demo_password, demo_verbose, demo_count, demo_name,
          demo_password, demo_verbose, demo_count, demo_name, demo_password, demo_verbose] ∧
      a.len = 20 := by
  obtain ⟨a, h, hp, hr, -⟩ := C15_registry_contents
    [demo_count, demo_name, demo_password, demo_verbose, demo_count, demo_name,
      demo_password, demo_verbose, demo_count, demo_name, demo_password, demo_verbose]
  have e : (app_opt_add_all app_new
      [demo_count, demo_name, demo_password, demo_verbose, demo_count, demo_name,
        demo_password, demo_verbose, demo_count, demo_name, demo_password, demo_verbose]).map
      (fun b => b.len) = some 20 := by decide
  rw [h] at e
  exact ⟨a, h, hp, hr, by simpa using e⟩

/-- C19 at the state after nine descriptors: nine of the ten slots are taken;
`app_opt_add_help` then doubles the capacity to 20 and stores the help option as the tenth
descriptor. -/
theorem C19_capacity_invariant_witness :
    ∃ a, app_opt_add_all app_new
        [demo_count, demo_name, demo_password, demo_verbose, demo_count, demo_name,
          demo_password, demo_verbose, demo_count] = some a ∧
      a.pos = 9 ∧ a.len = 10 ∧
      ∃ a1, app_opt_add_help a = some a1 ∧ a1.pos = 10 ∧ a1.len = 20 ∧ a1.pos < a1.len := by
  obtain ⟨a, h, hp, -⟩ := app_opt_add_all_spec
    [demo_count, demo_name, demo_password, demo_verbose, demo_count, demo_name,
      demo_password, demo_verbose, demo_count] app_new app_new_inv.1 app_new_inv.2.1
  obtain ⟨-, -, -, hadd⟩ := C19_capacity_invariant a (Built.of_add_all _ Built.new h)
  obtain ⟨-, -, -, a1, h1, hp1, hq1, -⟩ := hadd auto_help_opt
  have e : (app_opt_add_all app_new
      [demo_count, demo_name, demo_password, demo_verbose, demo_count, demo_name,
        demo_password, demo_verbose, demo_count]).map (fun b => b.len) = some 10 := by decide
  have e1 : ((app_opt_add_all app_new
      [demo_count, demo_name, demo_password, demo_verbose, demo_count, demo_name,
        demo_password, demo_verbose, demo_count]).bind app_opt_add_help).map
      (fun b => b.len) = some 20 := by decide
  rw [h] at e e1
  have h1b : app_opt_add_help a = some a1 := h1
  simp only [Option.some_bind, h1b, Option.map_some', Option.some.injEq] at e e1
  have hp9 : a.pos = 9 := by rw [hp]; rfl
  exact ⟨a, h, hp9, e, a1, h1, by rw [hp1, hp9], e1, hq1⟩
/-! ## Totality of the scan of `argv` -/

/-- One pass over a token inside `argv`: it goes on, or it returns `false`, or the token
is an option whose descriptor is bound to the wrong kind of object. -/
theorem parse_step_cases (theapp : app) (argc : Nat) {i : Nat} {w : World}
    (hlen : w.argv.length = argc) (hi : i < argc) :
    ∃ arg, w.argv[i]? = some arg ∧
      ((∃ i1 w1, parse_step theapp argc i w = .go i1 w1) ∨
       (∃ w1, parse_step theapp argc i w = .ret false w1) ∨
       (arg.getD 0 0 = 45 ∧ ∃ d, theapp.registry.find? (app_compare_opt arg) = some d ∧
          d.well_bound = false)) := by
  have hil : i < w.argv.length := by omega
  refine ⟨w.argv[i], List.getElem?_eq_getElem hil, ?_⟩
  have harg : w.argv[i]? = some w.argv[i] := List.getElem?_eq_getElem hil
  by_cases hd : (w.argv[i]).getD 0 0 = 45
  · cases hfind : theapp.registry.find? (app_compare_opt w.argv[i]) with
    | none => exact Or.inr (Or.inl ⟨_, parse_step_unknown theapp argc harg hd hfind⟩)
    | some d =>
      cases hb : d.well_bound with
      | false => exact Or.inr (Or.inr ⟨hd, d, rfl, hb⟩)
      | true =>
        cases hty : d.type.takes_value with
        | false =>
          obtain ⟨w1, h1, -⟩ := parse_step_plain theapp argc harg hd hfind hty hb
          exact Or.inl ⟨_, _, h1⟩
        | true =>
          by_cases hlast : i = argc - 1
          · exact Or.inr (Or.inl ⟨_, parse_step_missing theapp argc harg hd hfind hty hlast⟩)
          · have hv : i + 1 < w.argv.length := by omega
            obtain ⟨a, w1, -, h1, -⟩ := parse_step_value theapp argc harg hd hfind hty hb
              hlast (List.getElem?_eq_getElem hv)
            exact Or.inl ⟨_, _, h1⟩
  · exact Or.inl ⟨_, _, parse_step_skip harg hd⟩

/-- The step budget `argc + 1` is never used up. -/
theorem parse_loop_ne_timeout (theapp : app) (argc : Nat) (fuel : Nat) :
    ∀ (i : Nat) (w : World), argc < fuel + i → 0 < fuel →
      parse_loop theapp argc fuel i w ≠ .timeout := by
  induction fuel with
  | zero => intro i w _ h0; omega
  | succ fuel ih =>
    intro i w hf _
    unfold parse_loop
    by_cases hend : argc ≤ i
    · rw [if_pos hend]; intro h; cases h
    · rw [if_neg hend]
      cases hstep : parse_step theapp argc i w with
      | go i1 w1 =>
        have hlt := (parse_step_go_lt hstep).1
        exact ih i1 w1 (by omega) (by omega)
      | ret b w1 => intro h; cases h
      | fault => intro h; cases h

/-- With every descriptor bound to the right kind of object and `argc` strings in `argv`,
the loop returns. -/
theorem parse_loop_done (theapp : app) (argc : Nat)
    (hwb : ∀ d ∈ theapp.registry, d.well_bound = true) (fuel : Nat) :
    ∀ (i : Nat) (w : World), argc < fuel + i → 0 < fuel → w.argv.length = argc →
      ∃ b w1, parse_loop theapp argc fuel i w = .done (b, w1) := by
  induction fuel with
  | zero => intro i w _ h0; omega
  | succ fuel ih =>
    intro i w hf _ hlen
    unfold parse_loop
    by_cases hend : argc ≤ i
    · rw [if_pos hend]; exact ⟨_, _, rfl⟩
    · rw [if_neg hend]
      obtain ⟨arg, -, hc⟩ := parse_step_cases theapp argc hlen (by omega : i < argc)
      rcases hc with ⟨i1, w1, hstep⟩ | ⟨w1, hstep⟩ | ⟨-, d, hfind, hb⟩
      · rw [hstep]
        have hlt := (parse_step_go_lt hstep).1
        exact ih i1 w1 (by omega) (by omega) ((parse_step_go_argv hstep).1.trans hlen)
      · rw [hstep]; exact ⟨_, _, rfl⟩
      · rw [hwb d (List.mem_of_find?_eq_some hfind)] at hb
        cases hb

/-- C20: for `argc` at least 1 and `argv` holding exactly `argc` strings, `app_parse_opts`
does not run out of steps; `argv[0]` is there; whenever the loop stands at an index `k`,
`argv` still has `argc` strings and `k` is at most `argc`; a pass that goes on moves to an
index above `k` and at most `argc`, so that the token and, for an option with a value, the
value it read lie below `argc`; a pass can only go wrong on a descriptor bound to the wrong
kind of object, never on a read of `argv`; and when every descriptor is bound properly the
call returns. -/
theorem C20_total_in_bounds (theapp : app) (argc : Nat) (av : List (List Nat)) (w : World)
    (hargc : 1 ≤ argc) (hlen : av.length = argc) :
    app_parse_opts theapp argc (some av) w ≠ .timeout ∧
    (∃ a0, av[0]? = some a0) ∧
    (∀ k wk, ScanAt theapp argc av w k wk →
      k ≤ argc ∧ wk.argv.length = argc ∧
      (k < argc →
        (∃ tok, wk.argv[k]? = some tok) ∧
        (∀ i1 w1, parse_step theapp argc k wk = .go i1 w1 →
          k < i1 ∧ i1 ≤ argc ∧ ∀ j, k ≤ j → j < i1 → ∃ t, wk.argv[j]? = some t) ∧
        (parse_step theapp argc k wk = .fault →
          ∃ tok d, wk.argv[k]? = some tok ∧ tok.getD 0 0 = 45 ∧
            theapp.registry.find? (app_compare_opt tok) = some d ∧ d.well_bound = false))) ∧
    ((∀ d ∈ theapp.registry, d.well_bound = true) →
      ∃ b app1 w1, app_parse_opts theapp argc (some av) w = .done (b, app1, w1)) := by
  have h0 : av[0]? = some av[0] := List.getElem?_eq_getElem (by omega)
  refine ⟨?_, ⟨_, h0⟩, ?_, ?_⟩
  · unfold app_parse_opts
    simp only [h0]
    have hnt := parse_loop_ne_timeout
      { theapp with program_name := some (basename (cstr av[0])) } argc (argc + 1) 1
      { w with argv := av } (by omega) (by omega)
    cases hrun : parse_loop { theapp with program_name := some (basename (cstr av[0])) }
        argc (argc + 1) 1 { w with argv := av } with
    | done r => obtain ⟨b, w1⟩ := r; intro h; cases h
    | fault => intro h; cases h
    | timeout => exact absurd hrun hnt
  · intro k wk hscan
    have hl : wk.argv.length = argc := hscan.argv_length.trans hlen
    refine ⟨hscan.le_argc hargc, hl, fun hk => ?_⟩
    obtain ⟨arg, harg, hc⟩ := parse_step_cases theapp argc hl hk
    refine ⟨⟨arg, harg⟩, ?_, ?_⟩
    · intro i1 w1 hstep
      have hle := parse_step_go_le hstep hk
      refine ⟨(parse_step_go_lt hstep).1, hle, fun j _ hj => ?_⟩
      exact ⟨_, List.getElem?_eq_getElem (by omega)⟩
    · intro hf
      rcases hc with ⟨i1, w1, hstep⟩ | ⟨w1, hstep⟩ | ⟨hd, d, hfind, hb⟩
      · rw [hstep] at hf; cases hf
      · rw [hstep] at hf; cases hf
      · exact ⟨arg, d, harg, hd, hfind, hb⟩
  · intro hwb
    unfold app_parse_opts
    simp only [h0]
    obtain ⟨b, w1, hrun⟩ := parse_loop_done
      { theapp with program_name := some (basename (cstr av[0])) } argc hwb (argc + 1) 1
      { w with argv := av } (by omega) (by omega) hlen
    rw [hrun]
    exact ⟨_, _, _, rfl⟩
/-! ## The search loop -/

theorem search_from_some {theapp : app} {found : opt → Bool} :
    ∀ (n pos idx : Nat), search_from theapp found n pos = some idx →
      pos ≤ idx ∧ idx < pos + n ∧ found (theapp.options.getD idx blank_slot) = true ∧
        ∀ j, pos ≤ j → j < idx → found (theapp.options.getD j blank_slot) = false := by
  intro n
  induction n with
  | zero => intro pos idx h; simp [search_from] at h
  | succ n ih =>
    intro pos idx h
    unfold search_from at h
    by_cases hf : found (theapp.options.getD pos blank_slot) = true
    · rw [if_pos hf] at h
      cases h
      exact ⟨Nat.le_refl _, by omega, hf, fun j h1 h2 => by omega⟩
    · rw [if_neg hf] at h
      obtain ⟨h1, h2, h3, h4⟩ := ih (pos + 1) idx h
      refine ⟨by omega, by omega, h3, fun j hj1 hj2 => ?_⟩
      rcases Nat.eq_or_lt_of_le hj1 with e | e
      · subst e; simpa using hf
      · exact h4 j (by omega) hj2

theorem search_from_none {theapp : app} {found : opt → Bool} :
    ∀ (n pos : Nat), search_from theapp found n pos = none →
      ∀ j, pos ≤ j → j < pos + n → found (theapp.options.getD j blank_slot) = false := by
  intro n
  induction n with
  | zero => intro pos _ j h1 h2; omega
  | succ n ih =>
    intro pos h j hj1 hj2
    unfold search_from at h
    by_cases hf : found (theapp.options.getD pos blank_slot) = true
    · rw [if_pos hf] at h; cases h
    · rw [if_neg hf] at h
      rcases Nat.eq_or_lt_of_le hj1 with e | e
      · subst e; simpa using hf
      · exact ih (pos + 1) h j (by omega) (by omega)

theorem find?_eq_search_from (theapp : app) (found : opt → Bool) :
    ∀ (n pos : Nat), pos + n ≤ theapp.options.length →
      ((theapp.options.drop pos).take n).find? found =
        (search_from theapp found n pos).map (fun idx => theapp.options.getD idx blank_slot) := by
  intro n
  induction n with
  | zero => intro pos _; simp [search_from]
  | succ n ih =>
    intro pos hle
    have hlt : pos < theapp.options.length := by omega
    have hd : theapp.options.drop pos = theapp.options[pos] :: theapp.options.drop (pos + 1) :=
      List.drop_eq_getElem_cons hlt
    have hg : theapp.options.getD pos blank_slot = theapp.options[pos] := by
      rw [List.getD_eq_getElem?_getD, List.getElem?_eq_getElem hlt]; rfl
    rw [hd, List.take_succ_cons, List.find?_cons]
    unfold search_from
    rw [hg]
    by_cases hf : found theapp.options[pos] = true
    · rw [hf, if_pos rfl]
      simp only [Option.map_some', hg]
    · have hf2 : found theapp.options[pos] = false := by simpa using hf
      rw [hf2, if_neg (by simp)]
      exact ih (pos + 1) (by omega)

/-- Within the array, the search loop finds the first descriptor of the registry that
passes the test. -/
theorem registry_find?_eq_search (theapp : app) (found : opt → Bool)
    (hpos : theapp.pos ≤ theapp.options.length) :
    theapp.registry.find? found =
      (search theapp found).map (fun idx => theapp.options.getD idx blank_slot) := by
  have h := find?_eq_search_from theapp found theapp.pos 0 (by omega)
  rw [List.drop_zero] at h
  exact h

theorem registry_getElem? (theapp : app) {idx : Nat} (h : idx < theapp.pos)
    (hpos : theapp.pos ≤ theapp.options.length) :
    theapp.registry[idx]? = some (theapp.options.getD idx blank_slot) := by
  unfold app.registry
  rw [List.getElem?_take_of_lt h, List.getD_eq_getElem?_getD,
    List.getElem?_eq_getElem (by omega : idx < theapp.options.length)]
  rfl

/-- The search loop and the registry: the loop stops at `idx` exactly when `idx` is the
least index of the registry whose descriptor passes the test, and it runs to the end
exactly when no descriptor of the registry passes. -/
theorem search_spec (theapp : app) (found : opt → Bool)
    (hpos : theapp.pos ≤ theapp.options.length) :
    (∀ idx, search theapp found = some idx →
      ∃ d, theapp.registry[idx]? = some d ∧ found d = true ∧
        theapp.registry.find? found = some d ∧
        ∀ j e, j < idx → theapp.registry[j]? = some e → found e = false) ∧
    (search theapp found = none →
      theapp.registry.find? found = none ∧ ∀ e ∈ theapp.registry, found e = false) ∧
    ((∃ e ∈ theapp.registry, found e = true) → ∃ idx, search theapp found = some idx) := by
  have hfind := registry_find?_eq_search theapp found hpos
  have hnone : search theapp found = none →
      theapp.registry.find? found = none ∧ ∀ e ∈ theapp.registry, found e = false := by
    intro h
    rw [h] at hfind
    refine ⟨hfind, fun e he => ?_⟩
    have := List.find?_eq_none.mp hfind e he
    simpa using this
  refine ⟨?_, hnone, ?_⟩
  · intro idx h
    obtain ⟨-, h2, h3, h4⟩ := search_from_some _ _ _ h
    have hidx : idx < theapp.pos := by omega
    refine ⟨_, registry_getElem? theapp hidx hpos, h3, by rw [hfind, h]; rfl, ?_⟩
    intro j e hj he
    rw [registry_getElem? theapp (by omega) hpos] at he
    cases he
    exact h4 j (Nat.zero_le _) hj
  · rintro ⟨e, he, hf⟩
    cases h : search theapp found with
    | some idx => exact ⟨idx, rfl⟩
    | none =>
      have := (hnone h).2 e he
      rw [hf] at this
      cases this

theorem parse_step_ret_cells {theapp : app} {argc i : Nat} {w w1 : World} {b : Bool}
    (h : parse_step theapp argc i w = .ret b w1) : w1.cells = w.cells := by
  unfold parse_step at h
  repeat' split at h
  all_goals first
    | (simp only [Next.ret.injEq] at h
       obtain ⟨-, h2⟩ := h
       subst h2
       first
         | exact app_arg_required_cells _ _ _
         | exact call_cells _ _ _
         | rfl)
    | simp at h
/-- C16: when the scan stands on a dash-led token that some descriptor of the registry
accepts, the search loop stops at the least index `idx` whose descriptor `d` accepts the
token; `d` is the descriptor the pass works with: when the pass goes on, the cell `d` is
bound to holds what the type of `d` asks for, and every other cell, so also the cell of a
later descriptor accepting the same token, is as before; a pass that returns writes no
cell. -/
theorem C16_first_match_wins (theapp : app) (argc : Nat) (av : List (List Nat))
    (w wk : World) (k : Nat) (tok : List Nat)
    (hpos : theapp.pos ≤ theapp.options.length)
    (hscan : ScanAt theapp argc av w k wk) (hk : k < argc)
    (htok : av[k]? = some tok) (hdash : tok.getD 0 0 = 45)
    (hex : ∃ e ∈ theapp.registry, app_compare_opt tok e = true) :
    ∃ idx d, search theapp (app_compare_opt tok) = some idx ∧
      theapp.registry[idx]? = some d ∧ app_compare_opt tok d = true ∧
      (∀ j e, j < idx → theapp.registry[j]? = some e → app_compare_opt tok e = false) ∧
      OptionAt theapp argc av w k d ∧
      (∀ i1 w1 a, parse_step theapp argc k wk = .go i1 w1 → d.val = .cell a →
        w1.cells a = if d.type = .OPT_FLAG then .flag true
          else stored_value d.type (k + 1) (av.getD (k + 1) [])) ∧
      (∀ i1 w1 a, parse_step theapp argc k wk = .go i1 w1 → d.val ≠ .cell a →
        w1.cells a = wk.cells a) ∧
      (∀ b w1, parse_step theapp argc k wk = .ret b w1 → w1.cells = wk.cells) := by
  obtain ⟨idx, hs⟩ := (search_spec theapp (app_compare_opt tok) hpos).2.2 hex
  obtain ⟨d, hd, hacc, hfind, hmin⟩ := (search_spec theapp (app_compare_opt tok) hpos).1 idx hs
  have harg : wk.argv[k]? = some tok := by rw [hscan.token]; exact htok
  refine ⟨idx, d, hs, hd, hacc, hmin, ⟨wk, tok, hscan, hk, htok, hdash, hfind⟩, ?_, ?_, ?_⟩
  · intro i1 w1 a hstep hval
    obtain ⟨arg, ha, hcase⟩ := parse_step_go_inv hstep
    rw [harg] at ha
    cases ha
    rcases hcase with ⟨hnd, -⟩ | ⟨-, e, hfe, hc⟩
    · exact absurd hdash hnd
    · rw [hfind] at hfe
      cases hfe
      have hv1 : ∀ v, wk.argv[k + 1]? = some v → av.getD (k + 1) [] = v := by
        intro v hv
        rw [Reach.argv_ge hscan (k + 1) (by omega)] at hv
        have hv2 : av[k + 1]? = some v := hv
        rw [List.getD_eq_getElem?_getD, hv2]
        rfl
      rcases hc with ⟨hty, b, hb, -, hw⟩ | ⟨hty, -, b, v, hb, hv, -, hw⟩ |
        ⟨hty, -, b, v, hb, hv, -, hw⟩ | ⟨hty, -, b, v, hb, hv, -, hw⟩ | ⟨hty, cb, hb, -⟩
      · rw [hval] at hb; cases hb
        rw [hw, hty]; simp [World.store]
      · rw [hval] at hb; cases hb
        rw [hw, hty, hv1 v hv]; simp [World.store, stored_value]
      · rw [hval] at hb; cases hb
        rw [hw, hty]; simp [World.store, stored_value]
      · rw [hval] at hb; cases hb
        rw [hw, hty, hv1 v hv]; simp [World.store, stored_value]
      · rw [hval] at hb; cases hb
  · intro i1 w1 a hstep hval
    refine parse_step_go_cells hstep (fun arg e ha _ hf => ?_)
    rw [harg] at ha
    cases ha
    rw [hfind] at hf
    cases hf
    exact hval
  · intro b w1 hstep
    exact parse_step_ret_cells hstep

theorem long_name_is_iff (key : List Nat) (e : opt) :
    long_name_is key e = true ↔ ∃ ln, e.long_name = some ln ∧ cstr ln = cstr key := by
  unfold long_name_is
  cases h : e.long_name with
  | none => simp
  | some ln =>
    simp only [beq_iff_eq, strcmp_eq_zero_iff, Option.some.injEq, exists_eq_left']
    exact eq_comm

/-- C17: the search of `app_parse_opts_from` for the key at offset `k` of the line buffer
stops at the least index of the registry whose descriptor has a long name equal to the key,
and this descriptor is the one the line is applied to; it stops at no descriptor when none
has such a long name, whatever the short names are; a descriptor without a long name is
never the result. -/
theorem C17_config_key_match (theapp : app) (buf : List Nat) (k : Nat)
    (hpos : theapp.pos ≤ theapp.options.length) :
    (∀ idx, search theapp (long_name_is (buf.drop k)) = some idx →
      ∃ d ln, theapp.registry[idx]? = some d ∧ d.long_name = some ln ∧
        cstr ln = cstr (buf.drop k) ∧ find_key theapp buf (some k) = some d ∧
        ∀ j e ln1, j < idx → theapp.registry[j]? = some e → e.long_name = some ln1 →
          cstr ln1 ≠ cstr (buf.drop k)) ∧
    (search theapp (long_name_is (buf.drop k)) = none →
      find_key theapp buf (some k) = none ∧
      ∀ e ∈ theapp.registry, ∀ ln, e.long_name = some ln → cstr ln ≠ cstr (buf.drop k)) ∧
    ((∃ e ∈ theapp.registry, ∃ ln, e.long_name = some ln ∧ cstr ln = cstr (buf.drop k)) →
      ∃ idx, search theapp (long_name_is (buf.drop k)) = some idx) ∧
    (∀ d, find_key theapp buf (some k) = some d → d.long_name ≠ none) := by
  have hfk : find_key theapp buf (some k) =
      theapp.registry.find? (long_name_is (buf.drop k)) := rfl
  obtain ⟨h1, h2, h3⟩ := search_spec theapp (long_name_is (buf.drop k)) hpos
  refine ⟨?_, ?_, ?_, ?_⟩
  · intro idx hs
    obtain ⟨d, hd, hacc, hfind, hmin⟩ := h1 idx hs
    obtain ⟨ln, hln, heq⟩ := (long_name_is_iff _ _).mp hacc
    refine ⟨d, ln, hd, hln, heq, by rw [hfk, hfind], ?_⟩
    intro j e ln1 hj he hl1 hc
    have := hmin j e hj he
    rw [(long_name_is_iff _ _).mpr ⟨ln1, hl1, hc⟩] at this
    cases this
  · intro hs
    obtain ⟨hn, hall⟩ := h2 hs
    refine ⟨by rw [hfk, hn], fun e he ln hl hc => ?_⟩
    have := hall e he
    rw [(long_name_is_iff _ _).mpr ⟨ln, hl, hc⟩] at this
    cases this
  · rintro ⟨e, he, ln, hl, hc⟩
    exact h3 ⟨e, he, (long_name_is_iff _ _).mpr ⟨ln, hl, hc⟩⟩
  · intro d hd
    rw [hfk] at hd
    have := List.find?_some hd
    obtain ⟨ln, hl, -⟩ := (long_name_is_iff _ _).mp this
    rw [hl]; simp
/-- C16 at `prog -n 5` with a registry in which the descriptors at index 1 and at index 3
both have the short name `n`: the search stops at index 1; the call stores 5 in cell 1, the
cell of that descriptor, and leaves cell 6, the cell of the descriptor at index 3, as it
was. -/
theorem C16_first_match_wins_witness :
    (∃ idx d, search demo_collide (app_compare_opt (lit "-n")) = some idx ∧
      demo_collide.registry[idx]? = some d ∧ app_compare_opt (lit "-n") d = true ∧
      (∀ j e, j < idx → demo_collide.registry[j]? = some e →
        app_compare_opt (lit "-n") e = false) ∧
      OptionAt demo_collide 3 [lit "prog", lit "-n", lit "5"] blank_world 1 d ∧
      (∀ i1 w1 a, parse_step demo_collide 3 1
          { blank_world with argv := [lit "prog", lit "-n", lit "5"] } = .go i1 w1 →
        d.val = .cell a →
        w1.cells a = if d.type = .OPT_FLAG then .flag true
          else stored_value d.type (1 + 1) ([lit "prog", lit "-n", lit "5"].getD (1 + 1) [])) ∧
      (∀ i1 w1 a, parse_step demo_collide 3 1
          { blank_world with argv := [lit "prog", lit "-n", lit "5"] } = .go i1 w1 →
        d.val ≠ .cell a →
        w1.cells a = ({ blank_world with argv := [lit "prog", lit "-n", lit "5"] } : World).cells
          a) ∧
      (∀ b w1, parse_step demo_collide 3 1
          { blank_world with argv := [lit "prog", lit "-n", lit "5"] } = .ret b w1 →
        w1.cells = ({ blank_world with argv := [lit "prog", lit "-n", lit "5"] } : World).cells)) ∧
    search demo_collide (app_compare_opt (lit "-n")) = some 1 ∧
    demo_collide.registry[1]? = some demo_count ∧
    demo_collide.registry[3]? = some { demo_count with val := .cell 6 } ∧
    app_compare_opt (lit "-n") { demo_count with val := .cell 6 } = true ∧
    (∃ app1 w1, app_parse_opts demo_collide 3 (some [lit "prog", lit "-n", lit "5"])
        blank_world = .done (true, app1, w1) ∧
      w1.cells 1 = .int 5 ∧ w1.cells 6 = .flag false) :=
  ⟨C16_first_match_wins demo_collide 3 [lit "prog", lit "-n", lit "5"] blank_world
      { blank_world with argv := [lit "prog", lit "-n", lit "5"] } 1 (lit "-n") (by decide)
      (Reach.here _ _) (by decide) rfl (by decide) ⟨demo_count, by decide, by decide⟩,
    by decide, by decide, by decide, by decide, ⟨_, _, rfl, rfl, rfl⟩⟩

/-- C17 at a registry whose descriptors at index 1 and at index 3 both have the long name
`count`, and whose descriptor at index 0 has the short name `h` and no long name: the key
`count` is resolved to index 1, and the line `count=5` stores 5 in cell 1 and leaves cell 6;
the key `h` is not found, and the line `h=1` makes the call return `false`. -/
theorem C17_config_key_match_witness :
    (∃ d ln, demo_collide.registry[1]? = some d ∧ d.long_name = some ln ∧
      cstr ln = bytes "count" ∧ d = demo_count ∧
      find_key demo_collide [99, 111, 117, 110, 116, 0, 53, 0, 0] (some 0) = some d) ∧
    (find_key demo_collide [104, 0, 49, 0, 0] (some 0) = none ∧
      demo_collide.registry[0]? = some demo_short_only ∧ demo_short_only.short_name = 104) ∧
    (∃ w1, app_parse_opts_from demo_collide (bytes "count=5\n") blank_world =
        .done (true, w1) ∧ w1.cells 1 = .int 5 ∧ w1.cells 6 = .flag false) ∧
    (app_parse_opts_from demo_collide (bytes "h=1\n") blank_world).returned = some false := by
  refine ⟨?_, ?_, ⟨_, rfl, rfl, rfl⟩, by decide⟩
  · obtain ⟨d, ln, hd, hln, heq, hfind, -⟩ :=
      (C17_config_key_match demo_collide [99, 111, 117, 110, 116, 0, 53, 0, 0] 0
        (by decide)).1 1 (by decide)
    have hd1 : demo_collide.registry[1]? = some demo_count := by decide
    have hdd : d = demo_count := by
      rw [hd1] at hd
      exact (Option.some.inj hd).symm
    exact ⟨d, ln, hd, hln, by rw [heq]; decide, hdd, hfind⟩
  · exact ⟨((C17_config_key_match demo_collide [104, 0, 49, 0, 0] 0 (by decide)).2.1
      (by decide)).1, by decide, rfl⟩

/-- C20 at `prog -n 5 -s`: the call returns (with `false`, as the value of `-s` is not
there), and does not read `argv[4]`. -/
theorem C20_total_in_bounds_witness :
    (∃ b app1 w1, app_parse_opts demo_app 4
        (some [lit "prog", lit "-n", lit "5", lit "-s"]) blank_world = .done (b, app1, w1)) ∧
    (app_parse_opts demo_app 4 (some [lit "prog", lit "-n", lit "5", lit "-s"])
      blank_world).returned = some false :=
  ⟨(C20_total_in_bounds demo_app 4 [lit "prog", lit "-n", lit "5", lit "-s"] blank_world
      (by decide) rfl).2.2.2 (by rw [demo_app_registry]; decide), by decide⟩
/-! ## Bindings left by the configuration parser -/

/-- C9 fails on the code: on the stream `# comment`, `name = Alice`, `count=3` the call
returns `true` and the integer cell holds 3, but the String cell does not hold the text
`Alice`: it holds a pointer to offset 6 of the buffer of the second line, the place where
`Alice` stood, and that buffer is among those given back with `free` before the call
returns, so the pointer refers to no text any more. -/
theorem C9_string_binding_dangling :
    ∃ w1 buf,
      app_parse_opts_from demo_app (bytes "# comment\nname = Alice\ncount=3\n") blank_world =
        .done (true, w1) ∧
      w1.cells 1 = .int 3 ∧
      w1.cells 2 = .str (.line 1 6) ∧
      w1.released[1]? = some buf ∧ cstr (buf.drop 6) = bytes "Alice" ∧
      w1.released.length = 3 ∧
      w1.text (.line 1 6) = none :=
  ⟨_, [110, 97, 109, 101, 0, 0, 65, 108, 105, 99, 101, 0, 0, 0], rfl, rfl, rfl, rfl,
    by decide, rfl, rfl⟩

/-- C10 fails on the code: the line `verbose=` for the Flag option `verbose` is treated in
two ways. When it ends the stream, the value pointer is NULL, the flag is set to `true` and
the call returns `true`. When the line terminator follows, the value pointer points at the
empty text, and the call returns `false` with the Bad-Value message and the flag not
written. -/
theorem C10_empty_value_two_ways :
    (∃ w1, app_parse_opts_from demo_app (bytes "verbose=") blank_world = .done (true, w1) ∧
      w1.cells 4 = .flag true ∧ w1.trace = []) ∧
    (∃ w1, app_parse_opts_from demo_app (bytes "verbose=\n") blank_world =
        .done (false, w1) ∧
      w1.cells 4 = .flag false ∧ w1.trace = [.bad_value (bytes "verbose") []]) ∧
    app_split_line (lit "verbose=") = some (lit "verbose" ++ [0], some 0, none) ∧
    app_split_line (lit "verbose=\n") = some (lit "verbose" ++ [0, 0], some 0, some 8) :=
  ⟨⟨_, rfl, rfl, rfl⟩, ⟨_, rfl, rfl, rfl⟩, by decide, by decide⟩
end LibApp
